import Mathlib

/-!
Verification of `thebops.svnurls` (split / unsplit / change of Subversion URLs).

The development shallowly embeds the module `src/thebops/svnurls.py`.
Python strings are Lean `String`s; the Python string operations used by the
module (`split`, `join`, `strip`, slicing, membership) are re-implemented as
executable functions over the underlying character lists.  Python's dynamic
values appearing in the module (strings, ints, booleans, `None`) are embedded
as the inductive type `PyVal`; raised exceptions are embedded with
`Except PyErr`.  The fragments of the Python standard library that the module
uses (`urllib.parse.urlsplit` / `urlunsplit`, `os.path.normpath`, `int(...)`,
`str.lower`) are modelled after CPython, specialised to a POSIX platform
(`os.sep = '/'`, `os.altsep = None`), which is the platform the module's
doctests assume.
-/

namespace Svnurls

/-! ## Python string primitives (character-list level) -/

/-- Split a character list at every occurrence of `sep`
(the semantics of Python `s.split(sep)`: always at least one piece,
empty pieces preserved). -/
def splitC (sep : Char) : List Char → List (List Char)
  | [] => [[]]
  | c :: rest =>
    match splitC sep rest with
    | [] => [[]]
    | p :: ps => if c = sep then [] :: p :: ps else (c :: p) :: ps

/-- Join character lists with a single separator character
(the semantics of Python `sep.join(pieces)` for a one-character `sep`). -/
def joinC (sep : Char) : List (List Char) → List Char
  | [] => []
  | [x] => x
  | x :: y :: rest => x ++ sep :: joinC sep (y :: rest)

/-- Split at the first occurrence of `sep` only (Python `s.split(sep, 1)`).
Returns the part before and, when `sep` occurs, the part after it. -/
def splitFirstC (sep : Char) : List Char → List Char × Option (List Char)
  | [] => ([], none)
  | c :: rest =>
    if c = sep then ([], some rest)
    else
      match splitFirstC sep rest with
      | (a, r) => (c :: a, r)

/-- Index of the first occurrence of a character (Python `s.find(c)`). -/
def findIdxC (sep : Char) : List Char → Option Nat
  | [] => none
  | c :: rest =>
    if c = sep then some 0
    else (findIdxC sep rest).map (· + 1)

/-- Prefix test on character lists (Python `s.startswith(p)`). -/
def isPref : List Char → List Char → Bool
  | [], _ => true
  | _ :: _, [] => false
  | p :: ps, c :: cs => p = c && isPref ps cs

/-! ## Python string primitives (`String` wrappers) -/

/-- Python `s.split(sep)` for a one-character separator. -/
def pySplit (sep : Char) (s : String) : List String :=
  (splitC sep s.data).map String.mk

/-- Python `sep.join(pieces)` for a one-character separator. -/
def pyJoin (sep : Char) (l : List String) : String :=
  String.mk (joinC sep (l.map String.data))

/-- Python `s.split(sep, 1)`: the piece before the first `sep` and,
when present, the remainder after it. -/
def pySplit1 (sep : Char) (s : String) : String × Option String :=
  match splitFirstC sep s.data with
  | (a, r) => (String.mk a, r.map String.mk)

/-- Python `c in s`. -/
def pyContains (c : Char) (s : String) : Bool :=
  s.data.any (fun d => d = c)

/-- Python `s.startswith(p)`. -/
def pyStartsWith (p s : String) : Bool :=
  isPref p.data s.data

/-- Python `s.endswith(p)` for a one-character pattern. -/
def pyEndsWith (c : Char) (s : String) : Bool :=
  s.data.getLast? = some c

/-- Python `s[n:]` for `n ≥ 0`. -/
def pyDropStr (n : Nat) (s : String) : String :=
  String.mk (s.data.drop n)

/-- Python `s.lstrip(cs)`. -/
def pyLStrip (cs : List Char) (s : String) : String :=
  String.mk (s.data.dropWhile (· ∈ cs))

/-- Python `s.rstrip(cs)`. -/
def pyRStrip (cs : List Char) (s : String) : String :=
  String.mk ((s.data.reverse.dropWhile (· ∈ cs)).reverse)

/-- Python `s.strip(cs)`. -/
def pyStrip (cs : List Char) (s : String) : String :=
  String.mk (((s.data.dropWhile (· ∈ cs)).reverse.dropWhile (· ∈ cs)).reverse)

/-- Python `s.lower()` (the strings the module lowercases are ASCII). -/
def pyLower (s : String) : String :=
  String.mk (s.data.map Char.toLower)

/-- Python list indexing `l[i]`, including negative indices;
out-of-range access is never reached by the module and yields `""`. -/
def pyGet (l : List String) (i : Int) : String :=
  if i < 0 then l.getD (l.length - (-i).toNat) ""
  else l.getD i.toNat ""

/-- Python slice `l[:i]`, including negative `i`. -/
def pySliceTo (l : List String) (i : Int) : List String :=
  if i < 0 then l.take (l.length - (-i).toNat)
  else l.take i.toNat

/-- Python slice `l[i:j]` for `i, j ≥ 0`. -/
def pySlice (l : List String) (i j : Nat) : List String :=
  (l.drop i).take (j - i)

/-- Lexicographic (code-point) order on strings, Python `s < t`. -/
def lexLt : List Char → List Char → Bool
  | [], [] => false
  | [], _ :: _ => true
  | _ :: _, [] => false
  | a :: as, b :: bs =>
    if a.val < b.val then true
    else if b.val < a.val then false
    else lexLt as bs

/-- Python `' and '.join(sorted([a, b]))`. -/
def sortedPairJoin (a b : String) : String :=
  if lexLt b.data a.data then b ++ " and " ++ a else a ++ " and " ++ b

/-- Index of the first occurrence of `x` (Python `l.index(x)`;
the module only calls it when `x` is present). -/
def pyIndex (x : String) : List String → Nat
  | [] => 0
  | y :: ys => if y = x then 0 else pyIndex x ys + 1

/-! ## Decimal rendering and parsing (Python `str(int)` and `int(str)`) -/

/-- Decimal digits, most significant first, with explicit fuel (the fuel
only needs to dominate the number; structural recursion keeps the function
kernel-reducible). -/
def natDigitsAux : Nat → Nat → List Char
  | 0, _ => []
  | fuel + 1, n =>
    if n = 0 then []
    else natDigitsAux fuel (n / 10) ++ [Char.ofNat (48 + n % 10)]

/-- Decimal digits of a natural number, most significant first
(empty for zero). -/
def natDigits (n : Nat) : List Char :=
  natDigitsAux n n

/-- Python `str(n)` for a natural number. -/
def natRepr (n : Nat) : String :=
  if n = 0 then "0" else String.mk (natDigits n)

/-- Python `str(i)` for an integer. -/
def intRepr (i : Int) : String :=
  if i < 0 then "-" ++ natRepr i.natAbs else natRepr i.toNat

/-- Numeric value of a non-empty all-digit character list. -/
def digitsVal? (ds : List Char) : Option Nat :=
  if ds ≠ [] ∧ ds.all Char.isDigit then
    some (ds.foldl (fun acc d => acc * 10 + (d.toNat - 48)) 0)
  else none

/-- Python `int(s)` on a string: surrounding whitespace is stripped,
an optional sign is allowed, the rest must be non-empty decimal digits. -/
def pyInt? (s : String) : Option Int :=
  let t := (s.data.dropWhile Char.isWhitespace).reverse.dropWhile Char.isWhitespace
    |>.reverse
  match t with
  | [] => none
  | c :: ds =>
    if c = '+' then (digitsVal? ds).map Int.ofNat
    else if c = '-' then (digitsVal? ds).map (fun n => -(Int.ofNat n))
    else (digitsVal? (c :: ds)).map Int.ofNat

/-! ## Python values and exceptions -/

/-- Dynamic Python values flowing through the module: strings, integers,
booleans and `None`. -/
inductive PyVal where
  | vstr (s : String)
  | vint (n : Int)
  | vbool (b : Bool)
  | vnone
deriving DecidableEq

/-- Python truthiness. -/
def PyVal.truthy : PyVal → Bool
  | .vstr s => s ≠ ""
  | .vint n => n ≠ 0
  | .vbool b => b
  | .vnone => false

/-- The string carried by a value known to be a string (the module never
joins a non-string into a URL: non-strings are falsy there or are the peg). -/
def PyVal.asStr : PyVal → String
  | .vstr s => s
  | _ => ""

/-- Python `str(v)` as used for the peg revision. -/
def PyVal.pyStrOf : PyVal → String
  | .vstr s => s
  | .vint n => intRepr n
  | .vbool b => if b then "True" else "False"
  | .vnone => "None"

/-- Python `int(v)` for the value kinds reaching `int` in the module. -/
def PyVal.toIntPy? : PyVal → Option Int
  | .vint n => some n
  | .vbool b => some (if b then 1 else 0)
  | .vstr s => pyInt? s
  | .vnone => none

/-- Python `==` restricted to the comparisons the module performs
(numeric kinds compare by value, `1 == True`). -/
def pyEq (a b : PyVal) : Bool :=
  match a, b with
  | .vint x, .vint y => x = y
  | .vint x, .vbool y => x = (if y then 1 else 0)
  | .vbool x, .vint y => (if x then (1 : Int) else 0) = y
  | .vbool x, .vbool y => x = y
  | .vstr s, .vstr t => s = t
  | .vnone, .vnone => true
  | _, _ => false

/-- Exceptions raised by the module: `ValueError` (the format errors of the
spec), `TypeError` (the conflict errors of the spec) and `KeyError`
(unknown keyword argument). -/
inductive PyErr where
  | valueError (msg : String)
  | typeError (msg : String)
  | keyError (msg : String)
deriving DecidableEq

/-- The result is a raised `ValueError`. -/
def isVErr {α : Type} : Except PyErr α → Bool
  | .error (.valueError _) => true
  | _ => false

/-! ## CPython library fragments used by the module -/

/-- Characters allowed in a URL scheme (CPython `urllib.parse.scheme_chars`). -/
def scheme_chars : List Char :=
  ("abcdefghijklmnopqrstuvwxyzABCDEFGHIJKLMNOPQRSTUVWXYZ0123456789+-.").data

/-- Result of `urllib.parse.urlsplit`. -/
structure UrlTup where
  scheme : String
  netloc : String
  path : String
  query : String
  fragment : String
deriving DecidableEq

/-- Characters terminating the network-location part
(CPython `_splitnetloc` scans up to the first of `/?#`). -/
def netlocEnd : List Char := ['/', '?', '#']

/-- Scheme extraction step of CPython `urlsplit`: an optional scheme
(lower-cased; first character alphabetic, all characters scheme
characters) up to the first `:`. -/
def splitScheme (url : String) : String × String :=
  match findIdxC ':' url.data with
  | some i =>
    if 0 < i ∧ (url.data.headD ' ').isAlpha ∧
        (url.data.take i).all (· ∈ scheme_chars) then
      (String.mk ((url.data.take i).map Char.toLower),
       String.mk (url.data.drop (i + 1)))
    else ("", url)
  | none => ("", url)

/-- Network-location extraction step of CPython `urlsplit`
(CPython `_splitnetloc`): after a leading `//`, the part up to the first
of `/?#`. -/
def splitNetloc (rest : String) : String × String :=
  if pyStartsWith "//" rest then
    (String.mk ((rest.data.drop 2).takeWhile (· ∉ netlocEnd)),
     String.mk ((rest.data.drop 2).dropWhile (· ∉ netlocEnd)))
  else ("", rest)

/-- Split off the part after the first occurrence of `c`, when there is
one (the fragment and query steps of CPython `urlsplit`). -/
def splitTail (c : Char) (s : String) : String × String :=
  if pyContains c s then
    match pySplit1 c s with
    | (a, some b) => (a, b)
    | (a, none) => (a, "")
  else (s, "")

/-- CPython `urllib.parse.urlsplit` (with `allow_fragments=True`):
an optional scheme up to the first `:`, then `//netloc` up to the first of
`/?#` (raising `ValueError` on unbalanced IPv6 brackets), then the fragment
after the first `#` and the query after the first `?`. -/
def urlsplit (url : String) : Except PyErr UrlTup :=
  match splitScheme url with
  | (scheme, rest) =>
    match splitNetloc rest with
    | (netloc, rest2) =>
      if ('[' ∈ netloc.data ∧ ']' ∉ netloc.data) ∨
          (']' ∈ netloc.data ∧ '[' ∉ netloc.data) then
        .error (.valueError "Invalid IPv6 URL")
      else
        match splitTail '#' rest2 with
        | (rest3, fragment) =>
          match splitTail '?' rest3 with
          | (path, query) => .ok ⟨scheme, netloc, path, query, fragment⟩

/-- The path adjustment of CPython `urlunsplit`: a non-empty path that
does not start with a slash gets one prepended. -/
def slashPath (p : String) : String :=
  if p ≠ "" ∧ ¬ pyStartsWith "/" p then "/" ++ p else p

/-- CPython `urllib.parse.urlunsplit`. -/
def urlunsplit (t : UrlTup) : String :=
  let url := t.path
  let url :=
    if t.netloc ≠ "" ∨ (url ≠ "" ∧ pyStartsWith "//" url) then
      "//" ++ t.netloc ++ slashPath url
    else url
  let url := if t.scheme ≠ "" then t.scheme ++ ":" ++ url else url
  let url := if t.query ≠ "" then url ++ "?" ++ t.query else url
  if t.fragment ≠ "" then url ++ "#" ++ t.fragment else url

/-- One step of the component loop of CPython `posixpath.normpath`: skip
empty and `.` components, keep a component (in particular keep `..` at the
start of a relative path or after a kept `..`), and otherwise let `..` pop
the previous component. -/
def normStep (islashes : Nat) (acc : List String) (comp : String) :
    List String :=
  if comp = "" ∨ comp = "." then acc
  else if comp ≠ ".." ∨ (islashes = 0 ∧ acc = []) ∨
      (acc ≠ [] ∧ acc.getLast? = some "..") then acc ++ [comp]
  else if acc ≠ [] then acc.dropLast
  else acc

/-- CPython `posixpath.normpath`: drop empty and `.` components, resolve
`..` against preceding components, remember up to two initial slashes. -/
def normpath (p : String) : String :=
  if p = "" then "." else
  let islashes : Nat :=
    if pyStartsWith "/" p then
      (if pyStartsWith "//" p ∧ ¬ pyStartsWith "///" p then 2 else 1)
    else 0
  let comps := pySplit '/' p
  let newComps := comps.foldl (normStep islashes) []
  let res := String.mk (List.replicate islashes '/') ++ pyJoin '/' newComps
  if res = "" then "." else res

/-! ## The module's constants and value checkers -/

/-- Characters the checkers reject wherever free text is accepted
(source: `forbidden_chars = set('<>|@?*')`). -/
def forbidden_chars : List Char := ['<', '>', '|', '@', '?', '*']

/-- The reserved keywords (source: `reserved_names`). -/
def reserved_names : List String := ["trunk", "branches", "tags"]

/-- The string contains a forbidden character
(source: `forbidden_chars.intersection(s)` is non-empty). -/
def hasForbidden (s : String) : Bool :=
  s.data.any (· ∈ forbidden_chars)

/-- Checker for the `repo` part (source: `repo_value`): the sentinel `^`
passes unchanged, a URL with a scheme or a host is re-assembled without its
query and fragment, anything else raises `ValueError`. -/
def repo_value (url : String) : Except PyErr String :=
  if url = "^" then .ok url
  else
    match urlsplit url with
    | .error e => .error e
    | .ok tup =>
      if tup.scheme ≠ "" ∨ tup.netloc ≠ "" then
        .ok (urlunsplit ⟨tup.scheme, tup.netloc, tup.path, "", ""⟩)
      else
        .error (.valueError ("URL " ++ url ++
          " does not contain a scheme nor a hostname"))

/-- Checker for the `prefix` part (source: `prefix_value`): rejects forbidden
characters, strips surrounding slashes and re-wraps in exactly one leading and
one trailing slash (`stripped.join('//')`); the empty remainder yields `/`. -/
def prefix_value (s : String) : Except PyErr String :=
  if hasForbidden s then
    .error (.valueError (s ++ " contains forbidden characters"))
  else
    let stripped := pyStrip ['/'] s
    if stripped ≠ "" then .ok ("/" ++ stripped ++ "/") else .ok "/"

/-- Checker for dotted names (source: `dotted_name`): rejects forbidden
characters, accepts the empty string, rejects the reserved keywords, strips a
trailing slash (tab expansion), rejects remaining slashes and empty
dot-components. -/
def dotted_name (s : String) : Except PyErr String :=
  if hasForbidden s then
    .error (.valueError (s ++ " contains forbidden characters"))
  else if s = "" then .ok ""
  else if s ∈ reserved_names then
    .error (.valueError ("The name " ++ s ++ " is reserved!"))
  else
    let stripped := pyRStrip ['/'] s
    if pyContains '/' stripped then
      .error (.valueError ("dotted name " ++ stripped ++
        " must not contain slashes"))
    else
      let chunks := pySplit '.' stripped
      if chunks.any (· = "") then
        .error (.valueError ("badly dotted name: " ++ stripped))
      else .ok stripped

/-- Checker for the branch part, index 3 (source: `branch_part`): `trunk`,
the empty string, bare `branches`/`tags`, or `branches/<name>` / `tags/<name>`
with the name re-validated by `dotted_name`. -/
def branch_part (s : String) : Except PyErr String :=
  if s = "trunk" then .ok s
  else if s = "" then .ok ""
  else
    match pySplit1 '/' s with
    | (h, t) =>
      if h ∉ (["tags", "branches"] : List String) then
        .error (.valueError (s ++ ": tags/... or branches/... expected"))
      else
        match t with
        | some b =>
          if b ≠ "" then
            match dotted_name b with
            | .ok n => .ok (h ++ "/" ++ n)
            | .error e => .error e
          else .ok h
        | none => .ok h

/-- Checker for the `suffix` part (source: `url_subpath`): rejects forbidden
characters, normalises the path, strips leading separators, and collapses the
current-directory result to the empty string (`os.sep` is `/`). -/
def url_subpath (s : String) : Except PyErr String :=
  if hasForbidden s then
    .error (.valueError (s ++ " contains forbidden characters"))
  else
    let stripped := pyLStrip ['/'] (normpath s)
    if stripped = "." then .ok "" else .ok stripped

/-- Checker for the peg revision (source: `peg_value`): `None` and the empty
string yield `None`; otherwise `int(...)` must produce a value `≥ 1`. -/
def peg_value (peg : PyVal) : Except PyErr PyVal :=
  if peg = .vnone ∨ peg = .vstr "" then .ok .vnone
  else
    match PyVal.toIntPy? peg with
    | none =>
      .error (.valueError ("peg revision must be a number >= 1 (" ++
        PyVal.pyStrOf peg ++ ")"))
    | some val =>
      if val ≤ 0 then
        .error (.valueError ("peg revision needs to be >= 1 (" ++
          intRepr val ++ ")"))
      else .ok (.vint val)

/-- Checker factory (source: `autoprefix`): prepends `pfx` (one of
`branches/`, `tags/`) to a bare dotted name; an already-prefixed value keeps
its kind, with the tail re-validated; an empty tail after the prefix raises. -/
def autoprefixed (pfx : String) (s : String) : Except PyErr String :=
  if pyStartsWith pfx s then
    let tail := pyDropStr pfx.data.length s
    if tail ≠ "" then
      match dotted_name tail with
      | .ok n => .ok (pfx ++ n)
      | .error e => .error e
    else
      .error (.valueError (s ++ ": expected some name after " ++ pfx ++ "!"))
  else if s ≠ "" then
    match dotted_name s with
    | .ok n => .ok (pfx ++ n)
    | .error e => .error e
  else .ok ""

/-- Tail of the `switched_const` checkers (source: `switched_const`, the
code after the membership test): a string value is tolerated with one
trailing path separator stripped (`os.altsep` is `None`); subscripting any
other value raises a `TypeError`. -/
def switched_tail (const : String) (val : PyVal) : Except PyErr PyVal :=
  match val with
  | .vstr s =>
    let s2 := if s.data.getLast? = some '/' then String.mk s.data.dropLast
      else s
    if s2 = const then .ok (.vstr const)
    else
      .error (.valueError (s ++ ": expected " ++ const ++
        " or a boolean value"))
  | _ => .error (.typeError "value is not subscriptable")

/-- Checker factory (source: `switched_const`): falsy values yield the empty
string; `1`, `True` and the keyword itself yield the keyword; a string with
one trailing path separator is tolerated; everything else raises. -/
def switched_const (const : String) (val : PyVal) : Except PyErr PyVal :=
  if ¬ val.truthy then .ok (.vstr "")
  else if pyEq val (.vint 1) ∨ pyEq val (.vbool true) ∨
      pyEq val (.vstr const) then .ok (.vstr const)
  else switched_tail const val

/-! ## The named tuple, part indices and checker table -/

/-- The named tuple class `SplitSubversionURL` with its six parts
`repo prefix project branch suffix peg` (the prefix field is called `pfx`
here).  The parts hold the dynamic values the module stores in them:
strings, `None` for an absent branch/suffix, an integer or `None` for
the peg. -/
structure SplitSubversionURL where
  repo : PyVal
  pfx : PyVal
  project : PyVal
  branch : PyVal
  suffix : PyVal
  peg : PyVal
deriving DecidableEq

/-- The tuple as a positional list (Python `list(split_svn_url(...))`). -/
def SplitSubversionURL.toList (t : SplitSubversionURL) : List PyVal :=
  [t.repo, t.pfx, t.project, t.branch, t.suffix, t.peg]

/-- Rebuild the named tuple from a positional 6-element list. -/
def ofList6 : List PyVal → SplitSubversionURL
  | [r, f, p, b, s, g] => ⟨r, f, p, b, s, g⟩
  | _ => ⟨.vnone, .vnone, .vnone, .vnone, .vnone, .vnone⟩

/-- Target index of each keyword argument (source: `url_part_index`). -/
def url_part_index (k : String) : Option Nat :=
  match k with
  | "repo" => some 0
  | "prefix" => some 1
  | "project" => some 2
  | "branch" => some 3
  | "suffix" => some 4
  | "peg" => some 5
  | "branch_part" => some 3
  | "tag" => some 3
  | "trunk" => some 3
  | "branches" => some 3
  | "tags" => some 3
  | _ => none

/-- Lift a string checker to dynamic values (the string checkers fail with a
`TypeError` on non-string arguments, as the underlying Python functions
would). -/
def liftStr (f : String → Except PyErr String) : PyVal → Except PyErr PyVal
  | .vstr s => (f s).map .vstr
  | _ => .error (.typeError "expected a string value")

/-- Checker of each keyword argument (source: `url_part_checkers`). -/
def url_part_checkers (k : String) : Option (PyVal → Except PyErr PyVal) :=
  match k with
  | "repo" => some (liftStr repo_value)
  | "prefix" => some (liftStr prefix_value)
  | "project" => some (liftStr dotted_name)
  | "branch_part" => some (liftStr branch_part)
  | "suffix" => some (liftStr url_subpath)
  | "peg" => some peg_value
  | "branch" => some (liftStr (autoprefixed "branches/"))
  | "branches" => some (switched_const "branches")
  | "trunk" => some (switched_const "trunk")
  | "tag" => some (liftStr (autoprefixed "tags/"))
  | "tags" => some (switched_const "tags")
  | _ => none

/-! ## The splitter -/

/-- Locator of the branch part inside the segment list (source:
`split_svn_url`, the keyword scan): the first occurrence of `trunk` spans one
segment; otherwise the first occurrence of `branches`, then of `tags`, spans
two. -/
def find_branch_span (liz : List String) : Option (Nat × Nat) :=
  if "trunk" ∈ liz then
    some (pyIndex "trunk" liz, pyIndex "trunk" liz + 1)
  else if "branches" ∈ liz then
    some (pyIndex "branches" liz, pyIndex "branches" liz + 2)
  else if "tags" ∈ liz then
    some (pyIndex "tags" liz, pyIndex "tags" liz + 2)
  else none

/-- Repo resolution of `split_svn_url` (source lines up to the comment
`now that we have the repo`): the sentinel `^/`, then a bare leading slash
under `assume_url`, then a truthy `baseurl`, then a full URL, which must have
a scheme or a host and carry no query and no fragment. -/
def repo_and_path (url : String) (baseurl : Option String)
    (assume_url : Bool) : Except PyErr (String × String) :=
  if pyStartsWith "^/" url then .ok ("^", pyDropStr 1 url)
  else if pyStartsWith "/" url && assume_url then .ok ("^", url)
  else
    let bval := baseurl.getD ""
    if bval ≠ "" then
      let b := pyRStrip ['/'] bval
      if ¬ pyStartsWith b url then
        .error (.valueError ("URL " ++ url ++ " does not match" ++
          " the given baseurl " ++ b ++ "!"))
      else
        let rest := pyDropStr b.data.length url
        if rest = "" then .ok (b, rest)
        else if pyStartsWith "/" rest then .ok (b, rest)
        else
          .error (.valueError ("URL " ++ url ++ " does not match" ++
            " the given baseurl " ++ b ++ "!"))
    else
      match urlsplit url with
      | .error e => .error e
      | .ok tup =>
        if tup.scheme ≠ "" ∨ tup.netloc ≠ "" then
          if tup.query ≠ "" ∨ tup.fragment ≠ "" then
            .error (.valueError ("Error parsing " ++ url ++
              ": We do not support URLs containing query strings" ++
              " or fragments!"))
          else .ok (urlunsplit ⟨tup.scheme, tup.netloc, "", "", ""⟩, tup.path)
        else
          .error (.valueError ("URL " ++ url ++
            " does not contain a scheme nor a hostname"))

/-- Splitting of the path once the repo is known (source: `split_svn_url`
after the repo resolution): peg extraction at the first `@`, the keyword
scan, the four path fields and the prefix normalisation. -/
def split_rest (repo url : String) : Except PyErr SplitSubversionURL :=
  let pegSplit : Except PyErr (String × PyVal) :=
    if pyContains '@' url then
      match pySplit1 '@' url with
      | (u1, p1) =>
        match peg_value (.vstr (p1.getD "")) with
        | .ok pv => .ok (u1, pv)
        | .error e => .error e
    else .ok (url, .vnone)
  match pegSplit with
  | .error e => .error e
  | .ok (url2, peg) =>
    let liz := pySplit '/' url2
    let fields : String × String × PyVal × PyVal :=
      match find_branch_span liz with
      | none =>
        (pyJoin '/' (pySliceTo liz (-1)), pyGet liz (-1), .vnone, .vnone)
      | some (i, j) =>
        (pyJoin '/' (pySliceTo liz ((i : Int) - 1)),
         pyGet liz ((i : Int) - 1),
         .vstr (pyJoin '/' (pySlice liz i j)),
         .vstr (pyJoin '/' (liz.drop j)))
    match fields with
    | (pfx0, project, branch, suffix) =>
      let pfx :=
        if project ≠ "" ∨ branch.truthy ∨ suffix.truthy then
          (if pfx0 = "" then "/" else "/" ++ pyStrip ['/'] pfx0 ++ "/")
        else pfx0
      .ok ⟨.vstr repo, .vstr pfx, .vstr project, branch, suffix, peg⟩

/-- The splitter (source: `split_svn_url`): resolve the repo, then split the
remaining path into prefix, project, branch part, suffix and peg. -/
def split_svn_url (url : String) (baseurl : Option String := none)
    (assume_url : Bool := true) : Except PyErr SplitSubversionURL :=
  match repo_and_path url baseurl assume_url with
  | .error e => .error e
  | .ok (repo, rest) => split_rest repo rest

/-! ## The unsplitter -/

/-- The unsplitter (source: `unsplit_svn_url`): plain concatenation with
falsy-field defaults `^` and `/`, a slash after a truthy project and after a
truthy branch, and `@` plus the decimal peg at the end. -/
def unsplit_svn_url (t : SplitSubversionURL) : String :=
  let s1 := (if t.repo.truthy then t.repo.asStr else "^") ++
    (if t.pfx.truthy then t.pfx.asStr else "/")
  let s2 := if t.project.truthy then s1 ++ t.project.asStr ++ "/" else s1
  let s3 := if t.branch.truthy then s2 ++ t.branch.asStr ++ "/" else s2
  let s4 := if t.suffix.truthy then s3 ++ t.suffix.asStr else s3
  if t.peg.truthy then s4 ++ "@" ++ t.peg.pyStrOf else s4

/-! ## The merger -/

/-- One step of the keyword loop of `change_svn_url`: look the key up, run
the checker, and either record the new value, record and block the index for
a truthy value, or raise the conflict `TypeError`. -/
def changeStep (st : List (Nat × PyVal) × List (Nat × String))
    (kv : String × PyVal) :
    Except PyErr (List (Nat × PyVal) × List (Nat × String)) :=
  match st, kv with
  | (newValue, blocked), (key, val) =>
    match url_part_index key, url_part_checkers key with
    | some i, some c =>
      match c val with
      | .error e => .error e
      | .ok new =>
        if new.truthy then
          match blocked.lookup i with
          | some prev =>
            .error (.typeError ("Both " ++ sortedPairJoin key prev ++
              " target index " ++ natRepr i))
          | none =>
            .ok ((i, new) :: newValue.filter (fun e => e.1 ≠ i),
              (i, key) :: blocked)
        else
          if (newValue.lookup i).isSome then .ok (newValue, blocked)
          else .ok ((i, new) :: newValue, blocked)
    | _, _ => .error (.keyError key)

/-- An edit normalizes to a truthy value (its checker exists and returns a
truthy result). -/
def editTruthy (kv : String × PyVal) : Bool :=
  match url_part_checkers kv.1 with
  | some c =>
    match c kv.2 with
    | .ok w => w.truthy
    | .error _ => false
  | none => false

/-- The merger (source: `change_svn_url`): split the URL, validate each
keyword argument in order, detect conflicting truthy values aimed at the same
index, write the resolved values into the positional list and unsplit it. -/
def change_svn_url (url : String) (kwargs : List (String × PyVal))
    (baseurl : Option String := none) (assume_url : Bool := true) :
    Except PyErr String :=
  match split_svn_url url baseurl assume_url with
  | .error e => .error e
  | .ok t =>
    match kwargs.foldlM changeStep ([], []) with
    | .error e => .error e
    | .ok (newValue, _) =>
      let liz := newValue.foldr
        (fun (e : Nat × PyVal) (l : List PyVal) => l.set e.1 e.2)
        t.toList
      .ok (unsplit_svn_url (ofList6 liz))

/-! ## Validity of a 6-tuple (the data-model invariants of the spec)

The spec describes the valid field values (section 3): the repo is the
sentinel or `scheme://host`, the prefix is slash-bounded, the project is a
dotted name, the branch part has one of the reserved shapes, the suffix is a
normalized relative path and the peg is a positive integer or absent.  The
predicates below capture those grammars; `#` is excluded from field text
alongside the module's forbidden characters because a full URL containing it
would be rejected by the splitter as carrying a fragment. -/

/-- Characters excluded from free field text: the module's forbidden set
plus `#`. -/
def badChars : List Char := forbidden_chars ++ ['#']

/-- All characters of the string are allowed in free field text. -/
def charsOK (s : String) : Bool :=
  s.data.all (· ∉ badChars)

/-- Characters that may not occur in the host part of a repo URL. -/
def hostBadChars : List Char := ['/', '?', '#', '@', '[', ']']

/-- The repo field as a full URL: `scheme://host` with a non-empty
lower-case scheme (first character alphabetic, all characters scheme
characters) and a non-empty host free of delimiter characters. -/
def validRepoURL (r : String) : Bool :=
  match splitFirstC ':' r.data with
  | (sch, some rest) =>
    !sch.isEmpty && (sch.headD ' ').isAlpha &&
    sch.all (fun c => c ∈ scheme_chars && c.toLower = c) &&
    isPref ['/', '/'] rest && !(rest.drop 2).isEmpty &&
    (rest.drop 2).all (· ∉ hostBadChars)
  | _ => false

/-- The prefix field: bounded by single slashes, with non-empty interior
segments (`/` itself, or `/segment(/segment)*/`). -/
def validPfx (f : String) : Bool :=
  charsOK f &&
  (let segs := pySplit '/' f
   segs.head? = some "" && segs.getLast? = some "" && 2 ≤ segs.length &&
   ((segs.drop 1).dropLast.all (fun x => !(x = ""))))

/-- The project field: empty, or a single non-reserved slash-free segment. -/
def validProject (p : String) : Bool :=
  p = "" || (charsOK p && !(p ∈ reserved_names) && !pyContains '/' p)

/-- A branch or tag name: non-empty, slash-free, not reserved. -/
def validBranchName (n : String) : Bool :=
  !(n = "") && charsOK n && !pyContains '/' n && !(n ∈ reserved_names)

/-- A non-bare truthy branch part: `trunk`, `branches/<name>` or
`tags/<name>`. -/
def nonBareBranch (b : String) : Bool :=
  b = "trunk" ||
  (match pySplit1 '/' b with
   | (h, some n) => (h = "branches" || h = "tags") && validBranchName n
   | _ => false)

/-- The branch field per the spec: empty, `trunk`, bare `branches`/`tags`,
or `branches/<name>` / `tags/<name>`. -/
def validBranchStr (b : String) : Bool :=
  b = "" || b = "branches" || b = "tags" || nonBareBranch b

/-- The suffix field: empty, or slash-separated non-empty segments (hence
neither starting nor ending with a slash). -/
def validSuffix (s : String) : Bool :=
  s = "" || (charsOK s && (pySplit '/' s).all (fun x => !(x = "")))

/-- No slash-separated segment of the string is a reserved keyword. -/
def reservedFreeSegs (s : String) : Bool :=
  (pySplit '/' s).all (fun x => !(x ∈ reserved_names))

/-- The peg field: absent or a positive integer. -/
def validPeg : PyVal → Bool
  | .vnone => true
  | .vint n => 1 ≤ n
  | _ => false

/-- A valid 6-tuple per the data model of the spec. -/
def validTuple (t : SplitSubversionURL) : Bool :=
  (match t.repo with | .vstr r => r = "^" || validRepoURL r | _ => false) &&
  (match t.pfx with | .vstr f => validPfx f | _ => false) &&
  (match t.project with | .vstr p => validProject p | _ => false) &&
  (match t.branch with | .vstr b => validBranchStr b | _ => false) &&
  (match t.suffix with | .vstr s => validSuffix s | _ => false) &&
  validPeg t.peg

/-- A valid 6-tuple whose unsplit form provably round-trips through the
splitter: the branch part is truthy and non-bare, and neither the prefix nor
the suffix contains a reserved segment (so the keyword scan anchors on the
branch part itself, away from the end of the path). -/
def roundTripTuple (t : SplitSubversionURL) : Bool :=
  validTuple t &&
  (match t.branch with | .vstr b => nonBareBranch b | _ => false) &&
  (match t.pfx with | .vstr f => reservedFreeSegs f | _ => false) &&
  (match t.suffix with | .vstr s => reservedFreeSegs s | _ => false)

/-- The prefix shape asserted by the claim about prefixes: exactly `/`, or
`/segment(/segment)*/` with every interior segment non-empty (a definition
following the words of the spec, used to refute that claim). -/
def spec_prefix_shape (f : String) : Bool :=
  f = "/" ||
  (let segs := pySplit '/' f
   segs.head? = some "" && segs.getLast? = some "" && 2 ≤ segs.length &&
   ((segs.drop 1).dropLast.all (fun x => !(x = ""))))

/-! ## Theorems: concrete behaviour -/

/-- C2.  The three concrete splits: the full URL
`svn+ssh://svn.mycompany/my.project/trunk/setup.py` yields
`(svn+ssh://svn.mycompany, /, my.project, trunk, setup.py, None)`; the
sentinel URL `^/my.project/tags/v1.0/setup.py` yields
`(^, /, my.project, tags/v1.0, setup.py, None)`; and
`^/my.project/trunk/setup.py@123` yields
`(^, /, my.project, trunk, setup.py, 123)`. -/
theorem C2_concrete_splits :
    split_svn_url "svn+ssh://svn.mycompany/my.project/trunk/setup.py"
        none true =
      .ok ⟨.vstr "svn+ssh://svn.mycompany", .vstr "/", .vstr "my.project",
        .vstr "trunk", .vstr "setup.py", .vnone⟩ ∧
    split_svn_url "^/my.project/tags/v1.0/setup.py" none true =
      .ok ⟨.vstr "^", .vstr "/", .vstr "my.project", .vstr "tags/v1.0",
        .vstr "setup.py", .vnone⟩ ∧
    split_svn_url "^/my.project/trunk/setup.py@123" none true =
      .ok ⟨.vstr "^", .vstr "/", .vstr "my.project", .vstr "trunk",
        .vstr "setup.py", .vint 123⟩ :=
  ⟨rfl, rfl, rfl⟩

/-- C10.  The splitter performs no field-grammar validation beyond the peg:
`^/my*project/trunk/se>tup.py` is accepted with the forbidden characters `*`
and `>` returned verbatim in the project and suffix fields, although the
field checkers `prefix_value`, `dotted_name` and `url_subpath` all raise a
`ValueError` on those strings. -/
theorem C10_split_accepts_forbidden_chars :
    split_svn_url "^/my*project/trunk/se>tup.py" none true =
      .ok ⟨.vstr "^", .vstr "/", .vstr "my*project", .vstr "trunk",
        .vstr "se>tup.py", .vnone⟩ ∧
    isVErr (dotted_name "my*project") = true ∧
    isVErr (url_subpath "se>tup.py") = true ∧
    isVErr (prefix_value "my*project") = true ∧
    isVErr (url_subpath "my*project") = true :=
  ⟨rfl, rfl, rfl, rfl, rfl⟩

/-- C1, counterexample.  The canonical URL `^/my.project` — it is the
unsplit form of the valid 6-tuple `(^, /, '', '', my.project, None)` — is
accepted by the splitter, yet unsplitting its split yields `^/my.project/`,
a different string: the claimed round-trip equation fails. -/
theorem C1_roundtrip_counterexample :
    (split_svn_url "^/my.project" none true).map unsplit_svn_url =
      .ok "^/my.project/" ∧
    unsplit_svn_url ⟨.vstr "^", .vstr "/", .vstr "", .vstr "",
      .vstr "my.project", .vnone⟩ = "^/my.project" ∧
    validTuple ⟨.vstr "^", .vstr "/", .vstr "", .vstr "",
      .vstr "my.project", .vnone⟩ = true ∧
    "^/my.project/" ≠ "^/my.project" :=
  ⟨rfl, rfl, rfl, by decide⟩

/-- C5, counterexample.  `split_svn_url('^/my.project/trunk/setup.py',
baseurl='mismatch')` does not raise: the sentinel branch is taken first and
the mismatching baseurl is ignored, so the call returns the ordinary split
tuple instead of the claimed `FormatError`. -/
theorem C5_counterexample :
    split_svn_url "^/my.project/trunk/setup.py" (some "mismatch") true =
      .ok ⟨.vstr "^", .vstr "/", .vstr "my.project", .vstr "trunk",
        .vstr "setup.py", .vnone⟩ :=
  rfl

/-- C6, counterexample.  The prefix field of an accepted URL need not have
the claimed `/segment(/segment)*/` shape: `^/a/` splits with prefix `/a`
(no trailing slash at all, because the whole tail is falsy and the
normalisation is skipped), and `^/a//b/c/trunk/x` splits with prefix
`/a//b/` (an empty interior segment). -/
theorem C6_counterexample :
    (split_svn_url "^/a/" none true).map (fun t => t.pfx) =
      .ok (.vstr "/a") ∧
    spec_prefix_shape "/a" = false ∧
    (split_svn_url "^/a//b/c/trunk/x" none true).map (fun t => t.pfx) =
      .ok (.vstr "/a//b/") ∧
    spec_prefix_shape "/a//b/" = false :=
  ⟨rfl, rfl, rfl, rfl⟩

/-- C7, counterexample.  The project field of an accepted URL can be a
reserved keyword: in `^/branches/trunk/x` the segment before the located
`trunk` keyword is `branches`, and the splitter returns it as the project. -/
theorem C7_counterexample :
    split_svn_url "^/branches/trunk/x" none true =
      .ok ⟨.vstr "^", .vstr "/", .vstr "branches", .vstr "trunk",
        .vstr "x", .vnone⟩ ∧
    "branches" ∈ reserved_names :=
  ⟨rfl, by decide⟩

/-- C7, amended.  The checker `dotted_name` does raise a `ValueError` on
every reserved keyword; the splitter itself, however, does not keep reserved
names out of the project field (see the counterexample). -/
theorem C7_dotted_name_rejects_reserved :
    ∀ s, s ∈ reserved_names → isVErr (dotted_name s) = true := by
  intro s hs
  fin_cases hs <;> rfl

/-- C7, witness for the amended theorem. -/
theorem C7_dotted_name_rejects_reserved_witness :
    isVErr (dotted_name "trunk") = true :=
  C7_dotted_name_rejects_reserved "trunk" (by decide)

/-- C8, counterexample.  The checkers are not idempotent on all accepted
values: `dotted_name` accepts `trunk/` (tab-expansion tolerance strips the
slash after the reserved-name test) and returns `trunk`, which it then
rejects, so `c(c(v))` raises where `c(v)` succeeded. -/
theorem C8_counterexample :
    dotted_name "trunk/" = .ok "trunk" ∧
    isVErr (dotted_name "trunk") = true :=
  ⟨rfl, rfl⟩

/-! ## Helper lemmas: first-occurrence index -/

/-- Characterisation of `pyIndex` for a present element: the index is in
range, points at the element, and no earlier position holds it. -/
theorem pyIndex_spec (x : String) (l : List String) (h : x ∈ l) :
    pyIndex x l < l.length ∧ l.getD (pyIndex x l) "" = x ∧
    ∀ k, k < pyIndex x l → l.getD k "" ≠ x := by
  induction l with
  | nil => cases h
  | cons y ys ih =>
    by_cases hy : y = x
    · subst hy
      refine ⟨by simp [pyIndex], by simp [pyIndex], ?_⟩
      intro k hk
      simp [pyIndex] at hk
    · have hmem : x ∈ ys := by
        cases h with
        | head => exact absurd rfl hy
        | tail _ h' => exact h'
      obtain ⟨h1, h2, h3⟩ := ih hmem
      refine ⟨?_, ?_, ?_⟩
      · simpa [pyIndex, hy] using Nat.succ_lt_succ h1
      · simpa [pyIndex, hy] using h2
      · intro k hk
        simp only [pyIndex, if_neg hy] at hk
        match k with
        | 0 => simpa using hy
        | k + 1 => simpa using h3 k (Nat.lt_of_succ_lt_succ hk)

/-- C3.  When the segment list holds more than one reserved keyword
occurrence, the branch span is chosen by the fixed priority `trunk`, then
`branches`, then `tags`, anchored at the first occurrence of the winning
keyword, with span length 1 for `trunk` and 2 for `branches`/`tags`; the
chosen anchor is unique: it is a first occurrence, and no higher-priority
keyword occurs anywhere in the list. -/
theorem C3_branch_priority (liz : List String)
    (_hmany : 2 ≤ liz.countP (fun x => x ∈ reserved_names)) :
    ("trunk" ∈ liz →
      find_branch_span liz =
        some (pyIndex "trunk" liz, pyIndex "trunk" liz + 1)) ∧
    ("trunk" ∉ liz → "branches" ∈ liz →
      find_branch_span liz =
        some (pyIndex "branches" liz, pyIndex "branches" liz + 2)) ∧
    ("trunk" ∉ liz → "branches" ∉ liz → "tags" ∈ liz →
      find_branch_span liz =
        some (pyIndex "tags" liz, pyIndex "tags" liz + 2)) ∧
    (∀ i j, find_branch_span liz = some (i, j) →
      liz.getD i "" ∈ reserved_names ∧
      (∀ k, k < i → liz.getD k "" ≠ liz.getD i "") ∧
      (liz.getD i "" = "trunk" → j = i + 1) ∧
      (liz.getD i "" ≠ "trunk" → j = i + 2) ∧
      (liz.getD i "" ≠ "trunk" → "trunk" ∉ liz) ∧
      (liz.getD i "" = "tags" → "branches" ∉ liz)) := by
  refine ⟨?_, ?_, ?_, ?_⟩
  · intro h; simp [find_branch_span, h]
  · intro h1 h2; simp [find_branch_span, h1, h2]
  · intro h1 h2 h3; simp [find_branch_span, h1, h2, h3]
  · intro i j hfind
    by_cases ht : "trunk" ∈ liz
    · obtain ⟨_, hat, hfirst⟩ := pyIndex_spec "trunk" liz ht
      simp only [find_branch_span, if_pos ht, Option.some.injEq,
        Prod.mk.injEq] at hfind
      obtain ⟨hi, hj⟩ := hfind
      subst hi; subst hj
      rw [hat]
      exact ⟨by decide, hfirst, fun _ => rfl, fun hne => absurd rfl hne,
        fun hne => absurd rfl hne, fun hx => absurd hx (by decide)⟩
    · by_cases hb : "branches" ∈ liz
      · obtain ⟨_, hat, hfirst⟩ := pyIndex_spec "branches" liz hb
        simp only [find_branch_span, if_neg ht, if_pos hb,
          Option.some.injEq, Prod.mk.injEq] at hfind
        obtain ⟨hi, hj⟩ := hfind
        subst hi; subst hj
        rw [hat]
        exact ⟨by decide, hfirst, fun hx => absurd hx (by decide),
          fun _ => rfl, fun _ => ht, fun hx => absurd hx (by decide)⟩
      · by_cases hg : "tags" ∈ liz
        · obtain ⟨_, hat, hfirst⟩ := pyIndex_spec "tags" liz hg
          simp only [find_branch_span, if_neg ht, if_neg hb, if_pos hg,
            Option.some.injEq, Prod.mk.injEq] at hfind
          obtain ⟨hi, hj⟩ := hfind
          subst hi; subst hj
          rw [hat]
          exact ⟨by decide, hfirst, fun hx => absurd hx (by decide),
            fun _ => rfl, fun _ => ht, fun _ => hb⟩
        · simp [find_branch_span, ht, hb, hg] at hfind

/-- C3, witness: a segment list holding both `trunk` and `tags`. -/
theorem C3_branch_priority_witness :
    2 ≤ (["", "p", "tags", "x", "trunk", "y"] : List String).countP
        (fun x => x ∈ reserved_names) ∧
    ("trunk" ∈ (["", "p", "tags", "x", "trunk", "y"] : List String) →
      find_branch_span ["", "p", "tags", "x", "trunk", "y"] =
        some (pyIndex "trunk" ["", "p", "tags", "x", "trunk", "y"],
          pyIndex "trunk" ["", "p", "tags", "x", "trunk", "y"] + 1)) :=
  ⟨by decide,
   (C3_branch_priority ["", "p", "tags", "x", "trunk", "y"] (by decide)).1⟩

/-- C5, amended.  For a URL beginning with the sentinel `^/` the supplied
baseurl is ignored entirely (the call behaves exactly as with no baseurl and
in particular raises nothing); the baseurl-mismatch `ValueError` arises on
the full-URL form instead, as the spec itself suggests. -/
theorem C5_sentinel_ignores_baseurl :
    (∀ url b a, pyStartsWith "^/" url = true →
      split_svn_url url (some b) a = split_svn_url url none a) ∧
    isVErr (split_svn_url "svn+ssh://svn.mycompany/my.project/trunk/setup.py"
      (some "mismatch") true) = true := by
  refine ⟨?_, rfl⟩
  intro url b a h
  simp [split_svn_url, repo_and_path, h]

/-- C5, witness for the amended theorem. -/
theorem C5_sentinel_ignores_baseurl_witness :
    pyStartsWith "^/" "^/my.project/trunk/setup.py" = true ∧
    split_svn_url "^/my.project/trunk/setup.py" (some "mismatch") true =
      split_svn_url "^/my.project/trunk/setup.py" none true :=
  ⟨rfl, C5_sentinel_ignores_baseurl.1 "^/my.project/trunk/setup.py"
    "mismatch" true rfl⟩

/-! ## Helper lemmas: decimal digits -/

/-- A decimal digit character has the expected code point and is a digit. -/
theorem digitChar_spec (d : Nat) (h : d < 10) :
    (Char.ofNat (48 + d)).toNat = 48 + d ∧
    (Char.ofNat (48 + d)).isDigit = true := by
  interval_cases d <;> exact ⟨rfl, rfl⟩

/-- Every character produced by `natDigitsAux` is a digit. -/
theorem natDigitsAux_isDigit :
    ∀ fuel n, ∀ c ∈ natDigitsAux fuel n, c.isDigit = true := by
  intro fuel
  induction fuel with
  | zero => intro n c hc; simp [natDigitsAux] at hc
  | succ fuel ih =>
    intro n c hc
    rw [natDigitsAux] at hc
    by_cases hn : n = 0
    · rw [if_pos hn] at hc; simp at hc
    · rw [if_neg hn] at hc
      rcases List.mem_append.mp hc with h1 | h2
      · exact ih (n / 10) c h1
      · have hd : n % 10 < 10 := Nat.mod_lt _ (by norm_num)
        have hc2 : c = Char.ofNat (48 + n % 10) := by simpa using h2
        rw [hc2]
        exact (digitChar_spec _ hd).2

/-- Every character produced by `natDigits` is a digit. -/
theorem natDigits_isDigit :
    ∀ n, ∀ c ∈ natDigits n, c.isDigit = true :=
  fun n => natDigitsAux_isDigit n n

/-- `natDigits` of a positive number is non-empty. -/
theorem natDigits_ne_nil (n : Nat) (h : 1 ≤ n) : natDigits n ≠ [] := by
  match n, h with
  | m + 1, _ =>
    rw [natDigits, natDigitsAux]
    simp

/-- Folding the digit-accumulation step over `natDigitsAux` recovers the
number, provided the fuel dominates it. -/
theorem natDigitsAux_foldl :
    ∀ fuel n, n ≤ fuel →
      (natDigitsAux fuel n).foldl (fun acc d => acc * 10 + (d.toNat - 48)) 0
        = n := by
  intro fuel
  induction fuel with
  | zero =>
    intro n hn
    have : n = 0 := Nat.le_zero.mp hn
    subst this
    simp [natDigitsAux]
  | succ fuel ih =>
    intro n hn
    rw [natDigitsAux]
    by_cases hz : n = 0
    · subst hz; simp
    · rw [if_neg hz, List.foldl_append]
      have hdiv : n / 10 ≤ fuel := by
        have h1 : n / 10 < n := Nat.div_lt_self (Nat.pos_of_ne_zero hz)
          (by norm_num)
        omega
      rw [ih (n / 10) hdiv]
      have hd : n % 10 < 10 := Nat.mod_lt _ (by norm_num)
      simp only [List.foldl_cons, List.foldl_nil]
      rw [(digitChar_spec _ hd).1]
      omega

/-- Folding the digit-accumulation step over `natDigits n` recovers `n`. -/
theorem natDigits_foldl :
    ∀ n, (natDigits n).foldl (fun acc d => acc * 10 + (d.toNat - 48)) 0
      = n :=
  fun n => natDigitsAux_foldl n n (Nat.le_refl n)

/-- `digitsVal?` inverts `natDigits` on positive numbers. -/
theorem digitsVal?_natDigits (n : Nat) (h : 1 ≤ n) :
    digitsVal? (natDigits n) = some n := by
  rw [digitsVal?, if_pos]
  · rw [natDigits_foldl]
  · exact ⟨natDigits_ne_nil n h,
      List.all_eq_true.mpr (fun c hc => natDigits_isDigit n c hc)⟩

/-- A digit character is not whitespace. -/
theorem digit_not_ws (c : Char) (h : c.isDigit = true) :
    c.isWhitespace = false := by
  cases hc : c.isWhitespace
  · rfl
  · exfalso
    simp only [Char.isWhitespace, Bool.or_eq_true, decide_eq_true_eq] at hc
    rcases hc with ((h1 | h1) | h1) | h1 <;>
      (subst h1; exact absurd h (by decide))

/-- A digit character is neither a plus nor a minus sign. -/
theorem digit_not_sign (c : Char) (h : c.isDigit = true) :
    c ≠ '+' ∧ c ≠ '-' := by
  constructor <;> (intro h1; subst h1; exact absurd h (by decide))

/-- `pyInt?` parses the decimal rendering of a positive natural number. -/
theorem pyInt?_natDigits (n : Nat) (h : 1 ≤ n) :
    pyInt? (String.mk (natDigits n)) = some (Int.ofNat n) := by
  have hall : ∀ c ∈ natDigits n, c.isDigit = true := natDigits_isDigit n
  obtain ⟨c, ds, hds⟩ : ∃ c ds, natDigits n = c :: ds := by
    cases hnd : natDigits n with
    | nil => exact absurd hnd (natDigits_ne_nil n h)
    | cons c ds => exact ⟨c, ds, rfl⟩
  have hdigit : c.isDigit = true := hall c (hds ▸ List.mem_cons_self c ds)
  have hdrop1 : (natDigits n).dropWhile Char.isWhitespace = natDigits n := by
    rw [hds, List.dropWhile_cons, digit_not_ws c hdigit]
    simp
  have hrev : (natDigits n).reverse ≠ [] := by
    simp [hds]
  obtain ⟨c2, ds2, hds2⟩ : ∃ c2 ds2, (natDigits n).reverse = c2 :: ds2 := by
    cases hr : (natDigits n).reverse with
    | nil => exact absurd hr hrev
    | cons c2 ds2 => exact ⟨c2, ds2, rfl⟩
  have hc2 : c2.isDigit = true := by
    have : c2 ∈ (natDigits n).reverse := hds2 ▸ List.mem_cons_self c2 ds2
    exact hall c2 (List.mem_reverse.mp this)
  have hdrop2 :
      (natDigits n).reverse.dropWhile Char.isWhitespace
        = (natDigits n).reverse := by
    rw [hds2, List.dropWhile_cons, digit_not_ws c2 hc2]
    simp
  rw [pyInt?]
  simp only [hdrop1, hdrop2, List.reverse_reverse]
  rw [hds]
  simp only [if_neg (digit_not_sign c hdigit).1,
    if_neg (digit_not_sign c hdigit).2]
  rw [← hds, digitsVal?_natDigits n h]
  rfl

/-- `pyInt?` parses `intRepr` on positive integers. -/
theorem pyInt?_intRepr (n : Int) (h : 1 ≤ n) :
    pyInt? (intRepr n) = some n := by
  have h0 : ¬ n < 0 := by omega
  have h1 : 1 ≤ n.toNat := by omega
  rw [intRepr, if_neg h0, natRepr, if_neg (by omega : ¬ n.toNat = 0)]
  rw [pyInt?_natDigits n.toNat h1]
  congr 1
  exact_mod_cast Int.toNat_of_nonneg (by omega)

/-- The decimal rendering of a positive integer is not the empty string. -/
theorem intRepr_ne_empty (n : Int) (h : 1 ≤ n) : intRepr n ≠ "" := by
  have h0 : ¬ n < 0 := by omega
  rw [intRepr, if_neg h0, natRepr, if_neg (by omega : ¬ n.toNat = 0)]
  intro hcon
  have : natDigits n.toNat = [] := by
    have := congrArg String.data hcon
    simpa using this
  exact natDigits_ne_nil n.toNat (by omega) this

/-- C9.  Peg boundaries: `None` and the empty string yield `None`; the
string `'42'` yields `42`, and in general every positive integer — given as
an integer or as its decimal string — is returned as that integer; `0` and
every value `≤ 0` raise a `ValueError`; `'PREV'` and every string that does
not parse as an integer raise a `ValueError`. -/
theorem C9_peg_boundary :
    peg_value .vnone = .ok .vnone ∧
    peg_value (.vstr "") = .ok .vnone ∧
    peg_value (.vstr "42") = .ok (.vint 42) ∧
    (∀ n : Int, 1 ≤ n → peg_value (.vint n) = .ok (.vint n)) ∧
    (∀ n : Int, 1 ≤ n →
      peg_value (.vstr (intRepr n)) = .ok (.vint n)) ∧
    (∀ n : Int, n ≤ 0 → isVErr (peg_value (.vint n)) = true) ∧
    isVErr (peg_value (.vstr "PREV")) = true ∧
    (∀ s : String, pyInt? s = none → s ≠ "" →
      isVErr (peg_value (.vstr s)) = true) := by
  refine ⟨rfl, rfl, rfl, ?_, ?_, ?_, rfl, ?_⟩
  · intro n hn
    rw [peg_value, if_neg (by simp)]
    simp only [PyVal.toIntPy?]
    rw [if_neg (by omega)]
  · intro n hn
    rw [peg_value, if_neg (by simp [intRepr_ne_empty n hn])]
    simp only [PyVal.toIntPy?, pyInt?_intRepr n hn]
    rw [if_neg (by omega)]
  · intro n hn
    rw [peg_value, if_neg (by simp)]
    simp only [PyVal.toIntPy?]
    rw [if_pos hn]
    rfl
  · intro s hs hne
    rw [peg_value, if_neg (by simp [hne])]
    simp only [PyVal.toIntPy?, hs]
    rfl

/-- C9, witness. -/
theorem C9_peg_boundary_witness :
    peg_value (.vint 7) = .ok (.vint 7) ∧
    peg_value (.vstr (intRepr 7)) = .ok (.vint 7) ∧
    isVErr (peg_value (.vint 0)) = true ∧
    isVErr (peg_value (.vstr "x1")) = true :=
  ⟨C9_peg_boundary.2.2.2.1 7 (by decide),
   C9_peg_boundary.2.2.2.2.1 7 (by decide),
   C9_peg_boundary.2.2.2.2.2.1 0 (by decide),
   C9_peg_boundary.2.2.2.2.2.2.2 "x1" rfl (by decide)⟩

/-! ## Helper lemmas: the edit loop on the branch index -/

/-- Behaviour of the keyword-argument loop when every edit targets index 3,
every checker succeeds, and at most one edit is truthy (none once an index
is already blocked): the loop never raises, and the unique truthy value, if
any, ends up as the single recorded value for index 3. -/
theorem changeFold_idx3 (edits : List (String × PyVal)) :
    ∀ (nv : List (Nat × PyVal)) (bl : List (Nat × String)),
    (∀ kv ∈ edits, url_part_index kv.1 = some 3) →
    (∀ kv ∈ edits, ∃ c w, url_part_checkers kv.1 = some c ∧ c kv.2 = .ok w) →
    ((nv = [] ∧ bl = [] ∧ edits.countP editTruthy ≤ 1) ∨
     (∃ x, nv = [(3, x)] ∧ x.truthy = false ∧ bl = [] ∧
       edits.countP editTruthy ≤ 1) ∨
     (∃ x k, nv = [(3, x)] ∧ x.truthy = true ∧ bl = [(3, k)] ∧
       edits.countP editTruthy = 0)) →
    ∃ nvf blf, edits.foldlM changeStep (nv, bl) = .ok (nvf, blf) ∧
      (bl ≠ [] → nvf = nv) ∧
      (∀ kv ∈ edits, editTruthy kv = true →
        ∀ c w, url_part_checkers kv.1 = some c → c kv.2 = .ok w →
          nvf = [(3, w)]) := by
  induction edits with
  | nil =>
    intro nv bl _ _ _
    exact ⟨nv, bl, rfl, fun _ => rfl, fun kv hkv => absurd hkv (by simp)⟩
  | cons kv rest ih =>
    intro nv bl hidx hchk hstate
    obtain ⟨k, v⟩ := kv
    have h3 : url_part_index k = some 3 := hidx (k, v) (List.mem_cons_self _ _)
    obtain ⟨c, w, hc, hw⟩ := hchk (k, v) (List.mem_cons_self _ _)
    have heq : editTruthy (k, v) = w.truthy := by
      simp [editTruthy, hc, hw]
    have hcount :
        List.countP editTruthy ((k, v) :: rest) =
          List.countP editTruthy rest + if editTruthy (k, v) then 1 else 0 :=
      List.countP_cons _ _ _
    have hidx' : ∀ kv ∈ rest, url_part_index kv.1 = some 3 :=
      fun kv h => hidx kv (List.mem_cons_of_mem _ h)
    have hchk' : ∀ kv ∈ rest,
        ∃ c w, url_part_checkers kv.1 = some c ∧ c kv.2 = .ok w :=
      fun kv h => hchk kv (List.mem_cons_of_mem _ h)
    cases hw2 : w.truthy with
    | true =>
      have htr : editTruthy (k, v) = true := heq.trans hw2
      rcases hstate with ⟨hnv, hbl, hcnt⟩ | ⟨x, hnv, hx, hbl, hcnt⟩ |
          ⟨x, k0, hnv, hx, hbl, hcnt⟩
      · subst hnv; subst hbl
        have hstep : changeStep ([], []) (k, v) =
            .ok ([(3, w)], [(3, k)]) := by
          simp [changeStep, h3, hc, hw, hw2]
        have hrest0 : List.countP editTruthy rest = 0 := by
          rw [hcount, htr] at hcnt; simpa using hcnt
        obtain ⟨nvf, blf, hfold, hfroz, hchar⟩ :=
          ih [(3, w)] [(3, k)] hidx' hchk'
            (Or.inr (Or.inr ⟨w, k, rfl, hw2, rfl, hrest0⟩))
        refine ⟨nvf, blf, ?_, ?_, ?_⟩
        · simpa [List.foldlM, hstep] using hfold
        · intro h; simp at h
        · intro kv hkv htru c' w' hc' hw'
          rcases List.mem_cons.mp hkv with hkv | hkv
          · have hfz : nvf = [(3, w)] := hfroz (by simp)
            have : c' = c := by
              rw [hkv] at hc'; rw [hc] at hc'; exact (Option.some.inj hc').symm
            rw [hkv] at hw'
            rw [this, hw] at hw'
            rw [hfz, Except.ok.inj hw']
          · exfalso
            have := List.countP_eq_zero.mp hrest0 kv hkv
            rw [htru] at this; exact absurd this (by simp)
      · subst hnv; subst hbl
        have hstep : changeStep ([(3, x)], []) (k, v) =
            .ok ([(3, w)], [(3, k)]) := by
          simp [changeStep, h3, hc, hw, hw2]
        have hrest0 : List.countP editTruthy rest = 0 := by
          rw [hcount, htr] at hcnt; simpa using hcnt
        obtain ⟨nvf, blf, hfold, hfroz, hchar⟩ :=
          ih [(3, w)] [(3, k)] hidx' hchk'
            (Or.inr (Or.inr ⟨w, k, rfl, hw2, rfl, hrest0⟩))
        refine ⟨nvf, blf, ?_, ?_, ?_⟩
        · simpa [List.foldlM, hstep] using hfold
        · intro h; simp at h
        · intro kv hkv htru c' w' hc' hw'
          rcases List.mem_cons.mp hkv with hkv | hkv
          · have hfz : nvf = [(3, w)] := hfroz (by simp)
            have : c' = c := by
              rw [hkv] at hc'; rw [hc] at hc'; exact (Option.some.inj hc').symm
            rw [hkv] at hw'
            rw [this, hw] at hw'
            rw [hfz, Except.ok.inj hw']
          · exfalso
            have := List.countP_eq_zero.mp hrest0 kv hkv
            rw [htru] at this; exact absurd this (by simp)
      · exfalso
        rw [hcount, htr] at hcnt
        simp at hcnt
    | false =>
      have htr : editTruthy (k, v) = false := heq.trans hw2
      have hcnt' : List.countP editTruthy ((k, v) :: rest) =
          List.countP editTruthy rest := by
        rw [hcount, htr]; simp
      rcases hstate with ⟨hnv, hbl, hcnt⟩ | ⟨x, hnv, hx, hbl, hcnt⟩ |
          ⟨x, k0, hnv, hx, hbl, hcnt⟩
      · subst hnv; subst hbl
        have hstep : changeStep ([], []) (k, v) = .ok ([(3, w)], []) := by
          simp [changeStep, h3, hc, hw, hw2]
        obtain ⟨nvf, blf, hfold, hfroz, hchar⟩ :=
          ih [(3, w)] [] hidx' hchk'
            (Or.inr (Or.inl ⟨w, rfl, hw2, rfl, by rw [hcnt'] at hcnt; exact hcnt⟩))
        refine ⟨nvf, blf, ?_, ?_, ?_⟩
        · simpa [List.foldlM, hstep] using hfold
        · intro h; exact absurd rfl h
        · intro kv hkv htru c' w' hc' hw'
          rcases List.mem_cons.mp hkv with hkv | hkv
          · rw [hkv] at htru; rw [htru] at htr; exact absurd htr (by simp)
          · exact hchar kv hkv htru c' w' hc' hw'
      · subst hnv; subst hbl
        have hstep : changeStep ([(3, x)], []) (k, v) =
            .ok ([(3, x)], []) := by
          simp [changeStep, h3, hc, hw, hw2]
        obtain ⟨nvf, blf, hfold, hfroz, hchar⟩ :=
          ih [(3, x)] [] hidx' hchk'
            (Or.inr (Or.inl ⟨x, rfl, hx, rfl, by rw [hcnt'] at hcnt; exact hcnt⟩))
        refine ⟨nvf, blf, ?_, ?_, ?_⟩
        · simpa [List.foldlM, hstep] using hfold
        · intro h; exact absurd rfl h
        · intro kv hkv htru c' w' hc' hw'
          rcases List.mem_cons.mp hkv with hkv | hkv
          · rw [hkv] at htru; rw [htru] at htr; exact absurd htr (by simp)
          · exact hchar kv hkv htru c' w' hc' hw'
      · subst hnv; subst hbl
        have hstep : changeStep ([(3, x)], [(3, k0)]) (k, v) =
            .ok ([(3, x)], [(3, k0)]) := by
          simp [changeStep, h3, hc, hw, hw2]
        have hrest0 : List.countP editTruthy rest = 0 := by
          rw [hcnt'] at hcnt; exact hcnt
        obtain ⟨nvf, blf, hfold, hfroz, hchar⟩ :=
          ih [(3, x)] [(3, k0)] hidx' hchk'
            (Or.inr (Or.inr ⟨x, k0, rfl, hx, rfl, hrest0⟩))
        refine ⟨nvf, blf, ?_, ?_, ?_⟩
        · simpa [List.foldlM, hstep] using hfold
        · intro _; exact hfroz (by simp)
        · intro kv hkv htru c' w' hc' hw'
          rcases List.mem_cons.mp hkv with hkv | hkv
          · rw [hkv] at htru; rw [htru] at htr; exact absurd htr (by simp)
          · exact hchar kv hkv htru c' w' hc' hw'

/-- C4.  Conflict detection in `change_svn_url`: on any splittable URL,
`branch='feature1', trunk=True` raises the conflict error whose message
names both keys alphabetically and the target index 3, while
`branch='v2', trunk=0, tags=None, branches=''` succeeds and applies
`branches/v2`; and in general, when every supplied edit targets the branch
index with a succeeding checker and at most one of them normalizes to a
truthy value, the call succeeds, and the truthy value is the one applied. -/
theorem C4_conflict_detection :
    (∀ url t, split_svn_url url none true = .ok t →
      change_svn_url url
          [("branch", .vstr "feature1"), ("trunk", .vbool true)] none true =
        .error (.typeError "Both branch and trunk target index 3")) ∧
    (∀ url t, split_svn_url url none true = .ok t →
      change_svn_url url
          [("branch", .vstr "v2"), ("trunk", .vint 0), ("tags", .vnone),
            ("branches", .vstr "")] none true =
        .ok (unsplit_svn_url ⟨t.repo, t.pfx, t.project,
          .vstr "branches/v2", t.suffix, t.peg⟩)) ∧
    (∀ url t (edits : List (String × PyVal)),
      split_svn_url url none true = .ok t →
      (∀ kv ∈ edits, url_part_index kv.1 = some 3) →
      (∀ kv ∈ edits, ∃ c w, url_part_checkers kv.1 = some c ∧
        c kv.2 = .ok w) →
      edits.countP editTruthy ≤ 1 →
      (∃ s, change_svn_url url edits none true = .ok s) ∧
      (∀ kv ∈ edits, editTruthy kv = true →
        ∀ c w, url_part_checkers kv.1 = some c → c kv.2 = .ok w →
          change_svn_url url edits none true =
            .ok (unsplit_svn_url ⟨t.repo, t.pfx, t.project, w,
              t.suffix, t.peg⟩))) := by
  refine ⟨?_, ?_, ?_⟩
  · intro url t h
    simp only [change_svn_url, h]
    rfl
  · intro url t h
    simp only [change_svn_url, h]
    rfl
  · intro url t edits h hidx hchk hcnt
    obtain ⟨nvf, blf, hfold, _, hchar⟩ :=
      changeFold_idx3 edits [] [] hidx hchk (Or.inl ⟨rfl, rfl, hcnt⟩)
    constructor
    · refine ⟨unsplit_svn_url (ofList6 (nvf.foldr
        (fun (e : Nat × PyVal) (l : List PyVal) => l.set e.1 e.2)
        t.toList)), ?_⟩
      simp only [change_svn_url, h, hfold]
    · intro kv hkv htru c w hc hw
      have hnvf : nvf = [(3, w)] := hchar kv hkv htru c w hc hw
      simp only [change_svn_url, h, hfold, hnvf]
      rfl

/-! ## Helper lemmas: generic list facts -/

/-- Strings are equal exactly when their character lists are. -/
theorem sext {s t : String} : s = t ↔ s.data = t.data :=
  ⟨congrArg _, fun h => by cases s; cases t; exact congrArg String.mk h⟩

/-- Unfolding of string concatenation to character lists. -/
theorem sdata_append (a b : String) : (a ++ b).data = a.data ++ b.data :=
  rfl

/-- Membership of the rewritten head. -/
theorem mem_cons_of_eq {α} (c sep : α) (l : List α) (hc : c = sep) :
    sep ∈ c :: l := by
  rw [hc]; exact List.mem_cons_self _ _

/-- Dropping a prefix on which the predicate holds everywhere. -/
theorem dropWhile_append_of_all {α} (p : α → Bool) (a l : List α)
    (h : ∀ x ∈ a, p x = true) : (a ++ l).dropWhile p = l.dropWhile p := by
  induction a with
  | nil => rfl
  | cons x a ih =>
    rw [List.cons_append, List.dropWhile_cons,
      if_pos (h x (List.mem_cons_self _ _))]
    exact ih (fun y hy => h y (List.mem_cons_of_mem _ hy))

/-- `dropWhile` keeps a list whose head refutes the predicate. -/
theorem dropWhile_of_head {α} (p : α → Bool) (l : List α)
    (h : ∀ x, l.head? = some x → p x = false) : l.dropWhile p = l := by
  cases l with
  | nil => rfl
  | cons x l => rw [List.dropWhile_cons, if_neg (by simp [h x rfl])]

/-- The head surviving a `dropWhile` refutes the predicate. -/
theorem head?_dropWhile {α} (p : α → Bool) (l : List α) (x : α)
    (h : (l.dropWhile p).head? = some x) : p x = false := by
  induction l with
  | nil => cases h
  | cons y l ih =>
    rw [List.dropWhile_cons] at h
    by_cases hy : p y
    · rw [if_pos hy] at h; exact ih h
    · rw [if_neg hy] at h
      cases h
      simpa using hy

/-- Membership survives `dropWhile` backwards. -/
theorem mem_dropWhile {α} (p : α → Bool) (l : List α) (x : α)
    (h : x ∈ l.dropWhile p) : x ∈ l := by
  induction l with
  | nil => cases h
  | cons y l ih =>
    rw [List.dropWhile_cons] at h
    by_cases hy : p y
    · rw [if_pos hy] at h; exact List.mem_cons_of_mem _ (ih h)
    · rw [if_neg hy] at h; exact h

/-- A non-empty `dropWhile` has the last element of the original list. -/
theorem getLast?_dropWhile_ne_nil {α} (p : α → Bool) (l : List α)
    (h : l.dropWhile p ≠ []) :
    (l.dropWhile p).getLast? = l.getLast? := by
  induction l with
  | nil => rfl
  | cons y l ih =>
    rw [List.dropWhile_cons]
    by_cases hy : p y
    · rw [if_pos hy]
      rw [List.dropWhile_cons, if_pos hy] at h
      have hl : l ≠ [] := by
        intro hl; rw [hl] at h; exact h rfl
      rw [ih h]
      cases l with
      | nil => exact absurd rfl hl
      | cons z l => rw [List.getLast?_cons_cons]
    · rw [if_neg hy]

/-- Taking a prefix on which the predicate holds everywhere. -/
theorem takeWhile_append_of_all {α} (p : α → Bool) (a l : List α)
    (h : ∀ x ∈ a, p x = true) :
    (a ++ l).takeWhile p = a ++ l.takeWhile p := by
  induction a with
  | nil => rfl
  | cons x a ih =>
    rw [List.cons_append, List.takeWhile_cons,
      if_pos (h x (List.mem_cons_self _ _)), ih
        (fun y hy => h y (List.mem_cons_of_mem _ hy)), List.cons_append]

/-- `takeWhile` of a list whose head refutes the predicate is empty. -/
theorem takeWhile_of_head {α} (p : α → Bool) (l : List α)
    (h : ∀ x, l.head? = some x → p x = false) : l.takeWhile p = [] := by
  cases l with
  | nil => rfl
  | cons x l => rw [List.takeWhile_cons, if_neg (by simp [h x rfl])]

/-- Specification of `splitFirstC` when the separator occurs: the input
decomposes around the first occurrence. -/
theorem splitFirstC_eq_some (sep : Char) (l a b : List Char)
    (h : splitFirstC sep l = (a, some b)) :
    l = a ++ sep :: b ∧ sep ∉ a := by
  induction l generalizing a with
  | nil => cases h
  | cons c rest ih =>
    rw [splitFirstC] at h
    by_cases hc : c = sep
    · rw [if_pos hc] at h
      rw [Prod.mk.injEq] at h
      obtain ⟨h1, h2⟩ := h
      subst h1
      rw [Option.some.injEq] at h2
      subst h2
      subst hc
      exact ⟨rfl, by simp⟩
    · rw [if_neg hc] at h
      cases ha : splitFirstC sep rest with
      | mk a' r' =>
        rw [ha] at h
        rw [Prod.mk.injEq] at h
        obtain ⟨h1, h2⟩ := h
        subst h1
        cases r' with
        | none => cases h2
        | some b' =>
          rw [Option.some.injEq] at h2
          subst h2
          obtain ⟨h3, h4⟩ := ih a' ha
          constructor
          · rw [List.cons_append, ← h3]
          · intro hmem
            rcases List.mem_cons.mp hmem with hmem | hmem
            · exact hc hmem.symm
            · exact h4 hmem

/-- Specification of `splitFirstC` when the separator is absent. -/
theorem splitFirstC_eq_none (sep : Char) (l a : List Char)
    (h : splitFirstC sep l = (a, none)) : a = l ∧ sep ∉ l := by
  induction l generalizing a with
  | nil =>
    rw [splitFirstC] at h
    rw [Prod.mk.injEq] at h
    obtain ⟨h1, _⟩ := h
    subst h1
    exact ⟨rfl, by simp⟩
  | cons c rest ih =>
    rw [splitFirstC] at h
    by_cases hc : c = sep
    · rw [if_pos hc] at h
      rw [Prod.mk.injEq] at h
      obtain ⟨_, h2⟩ := h
      cases h2
    · rw [if_neg hc] at h
      cases ha : splitFirstC sep rest with
      | mk a' r' =>
        rw [ha] at h
        rw [Prod.mk.injEq] at h
        obtain ⟨h1, h2⟩ := h
        subst h1
        cases r' with
        | some b' => cases h2
        | none =>
          obtain ⟨h3, h4⟩ := ih a' ha
          subst h3
          refine ⟨rfl, ?_⟩
          intro hmem
          rcases List.mem_cons.mp hmem with hmem | hmem
          · exact hc hmem.symm
          · exact h4 hmem

/-- Computation of `splitFirstC` on an explicit decomposition. -/
theorem splitFirstC_append (sep : Char) (a b : List Char) (h : sep ∉ a) :
    splitFirstC sep (a ++ sep :: b) = (a, some b) := by
  induction a with
  | nil => simp [splitFirstC]
  | cons c a ih =>
    rw [List.cons_append, splitFirstC,
      if_neg (fun hc => h (mem_cons_of_eq _ _ _ hc)),
      ih (fun hm => h (List.mem_cons_of_mem _ hm))]

/-- Computation of `splitFirstC` when the separator is absent. -/
theorem splitFirstC_of_notin (sep : Char) (l : List Char) (h : sep ∉ l) :
    splitFirstC sep l = (l, none) := by
  induction l with
  | nil => rfl
  | cons c rest ih =>
    rw [splitFirstC, if_neg (fun hc => h (mem_cons_of_eq _ _ _ hc)),
      ih (fun hm => h (List.mem_cons_of_mem _ hm))]

/-- Position of the first occurrence of a character after a clean prefix. -/
theorem findIdxC_append (sep : Char) (a b : List Char) (h : sep ∉ a) :
    findIdxC sep (a ++ sep :: b) = some a.length := by
  induction a with
  | nil => simp [findIdxC]
  | cons c a ih =>
    rw [List.cons_append, findIdxC,
      if_neg (fun hc => h (mem_cons_of_eq _ _ _ hc)),
      ih (fun hm => h (List.mem_cons_of_mem _ hm))]
    rfl

/-- `findIdxC` on a list free of the character. -/
theorem findIdxC_of_notin (sep : Char) (l : List Char) (h : sep ∉ l) :
    findIdxC sep l = none := by
  induction l with
  | nil => rfl
  | cons c rest ih =>
    rw [findIdxC, if_neg (fun hc => h (mem_cons_of_eq _ _ _ hc)),
      ih (fun hm => h (List.mem_cons_of_mem _ hm))]
    rfl

/-! ## Helper lemmas: split and join on character lists -/

/-- `splitC` never returns the empty list of pieces. -/
theorem splitC_ne_nil (sep : Char) (l : List Char) : splitC sep l ≠ [] := by
  cases l with
  | nil => simp [splitC]
  | cons c rest =>
    rw [splitC]
    cases h : splitC sep rest with
    | nil => simp
    | cons p ps =>
      by_cases hc : c = sep
      · simp [hc]
      · simp [hc]

/-- Joining the pieces of a split recovers the original list. -/
theorem joinC_splitC (sep : Char) (l : List Char) :
    joinC sep (splitC sep l) = l := by
  induction l with
  | nil => rfl
  | cons c rest ih =>
    rw [splitC]
    cases h : splitC sep rest with
    | nil => exact absurd h (splitC_ne_nil sep rest)
    | cons p ps =>
      rw [h] at ih
      show joinC sep
        (if c = sep then [] :: p :: ps else (c :: p) :: ps) = c :: rest
      by_cases hc : c = sep
      · rw [if_pos hc, joinC, ih, hc]
        rfl
      · rw [if_neg hc]
        cases ps with
        | nil =>
          rw [joinC]
          rw [joinC] at ih
          rw [ih]
        | cons q qs =>
          rw [joinC, List.cons_append]
          rw [joinC] at ih
          rw [ih]

/-- Splitting distributes over a separator occurrence. -/
theorem splitC_append (sep : Char) (a b : List Char) :
    splitC sep (a ++ sep :: b) = splitC sep a ++ splitC sep b := by
  induction a with
  | nil =>
    rw [List.nil_append]
    cases h : splitC sep b with
    | nil => exact absurd h (splitC_ne_nil sep b)
    | cons p ps =>
      conv_lhs => rw [splitC, h]
      show (if sep = sep then [] :: p :: ps else (sep :: p) :: ps) =
        splitC sep [] ++ p :: ps
      rw [if_pos rfl]
      rfl
  | cons c a ih =>
    rw [List.cons_append, splitC]
    cases h : splitC sep (a ++ sep :: b) with
    | nil => exact absurd h (splitC_ne_nil _ _)
    | cons p ps =>
      rw [splitC]
      cases h2 : splitC sep a with
      | nil => exact absurd h2 (splitC_ne_nil _ _)
      | cons q qs =>
        have ihh : p :: ps = q :: (qs ++ splitC sep b) := by
          rw [← h, ih, h2, List.cons_append]
        injection ihh with hpq hps
        show (if c = sep then [] :: p :: ps else (c :: p) :: ps) =
          (if c = sep then [] :: q :: qs else (c :: q) :: qs) ++
            splitC sep b
        by_cases hc : c = sep
        · rw [if_pos hc, if_pos hc, hpq, hps]
          rfl
        · rw [if_neg hc, if_neg hc, hpq, hps]
          rfl

/-- A list free of the separator splits into itself. -/
theorem splitC_of_notin (sep : Char) (l : List Char) (h : sep ∉ l) :
    splitC sep l = [l] := by
  induction l with
  | nil => rfl
  | cons c rest ih =>
    rw [splitC, ih (fun hm => h (List.mem_cons_of_mem _ hm))]
    show (if c = sep then [[], rest] else [c :: rest]) = [c :: rest]
    rw [if_neg (fun hc => h (mem_cons_of_eq _ _ _ hc))]

/-- Every piece of a split is free of the separator. -/
theorem notin_of_mem_splitC (sep : Char) (l : List Char) (p : List Char)
    (hp : p ∈ splitC sep l) : sep ∉ p := by
  induction l generalizing p with
  | nil =>
    simp [splitC] at hp
    subst hp
    simp
  | cons c rest ih =>
    rw [splitC] at hp
    cases h : splitC sep rest with
    | nil => exact absurd h (splitC_ne_nil sep rest)
    | cons q qs =>
      simp only [h] at hp
      by_cases hc : c = sep
      · rw [if_pos hc] at hp
        rcases List.mem_cons.mp hp with hp | hp
        · subst hp; simp
        · exact ih p (h ▸ hp)
      · rw [if_neg hc] at hp
        rcases List.mem_cons.mp hp with hp | hp
        · subst hp
          intro hmem
          rcases List.mem_cons.mp hmem with hmem | hmem
          · exact hc hmem.symm
          · exact ih q (h ▸ List.mem_cons_self q qs) hmem
        · exact ih p (h ▸ List.mem_cons_of_mem _ hp)

/-- Splitting a join of separator-free pieces recovers the pieces. -/
theorem splitC_joinC (sep : Char) (ps : List (List Char)) (h : ps ≠ [])
    (h2 : ∀ p ∈ ps, sep ∉ p) : splitC sep (joinC sep ps) = ps := by
  induction ps with
  | nil => exact absurd rfl h
  | cons p ps ih =>
    cases ps with
    | nil =>
      rw [joinC, splitC_of_notin sep p (h2 p (List.mem_cons_self _ _))]
    | cons q qs =>
      rw [joinC, splitC_append,
        splitC_of_notin sep p (h2 p (List.mem_cons_self _ _)),
        ih (by simp) (fun r hr => h2 r (List.mem_cons_of_mem _ hr))]
      rfl

/-- A character of a join is a character of some piece or the separator. -/
theorem mem_joinC (sep : Char) (ps : List (List Char)) (c : Char)
    (h : c ∈ joinC sep ps) : (∃ p ∈ ps, c ∈ p) ∨ c = sep := by
  induction ps with
  | nil => cases h
  | cons p ps ih =>
    cases ps with
    | nil =>
      rw [joinC] at h
      exact Or.inl ⟨p, List.mem_cons_self _ _, h⟩
    | cons q qs =>
      rw [joinC] at h
      rcases List.mem_append.mp h with h1 | h1
      · exact Or.inl ⟨p, List.mem_cons_self _ _, h1⟩
      · rcases List.mem_cons.mp h1 with h2 | h2
        · exact Or.inr h2
        · rcases ih h2 with ⟨r, hr, hc⟩ | h3
          · exact Or.inl ⟨r, List.mem_cons_of_mem _ hr, hc⟩
          · exact Or.inr h3

/-! ## Helper lemmas: stripping -/

/-- Rebuilding a string from its own characters. -/
theorem smk_data (s : String) : String.mk s.data = s := by
  cases s; rfl

/-- Cancelling a common prefix of two string concatenations. -/
theorem sappend_left_cancel {a b c : String} (h : a ++ b = a ++ c) :
    b = c := by
  rw [sext, sdata_append, sdata_append] at h
  rw [sext]
  exact List.append_cancel_left h

/-- A list is a prefix of itself followed by anything. -/
theorem isPref_self_append (a b : List Char) : isPref a (a ++ b) = true := by
  induction a with
  | nil => rfl
  | cons c a ih => simp [isPref, ih]

/-- Nothing non-empty is a prefix of the empty list. -/
theorem isPref_nil_false (c : Char) (l : List Char) :
    isPref (c :: l) [] = false := rfl

/-- The head of a stripped string is not a stripped character. -/
theorem strip_head_clean (cs : List Char) (s : String) (c : Char)
    (h : (pyStrip cs s).data.head? = some c) : c ∉ cs := by
  rw [pyStrip] at h
  simp only [List.head?_reverse] at h
  have hne : (s.data.dropWhile (· ∈ cs)).reverse.dropWhile (· ∈ cs) ≠ [] := by
    intro hcon
    rw [hcon] at h
    cases h
  rw [getLast?_dropWhile_ne_nil _ _ hne, List.getLast?_reverse] at h
  have := head?_dropWhile (fun c => decide (c ∈ cs)) s.data c h
  simpa using this

/-- The last character of a stripped string is not a stripped character. -/
theorem strip_last_clean (cs : List Char) (s : String) (c : Char)
    (h : (pyStrip cs s).data.getLast? = some c) : c ∉ cs := by
  rw [pyStrip] at h
  simp only [List.getLast?_reverse] at h
  have := head?_dropWhile (fun c => decide (c ∈ cs))
    (s.data.dropWhile (· ∈ cs)).reverse c h
  simpa using this

/-- Characters of a stripped string come from the original. -/
theorem mem_strip (cs : List Char) (s : String) (c : Char)
    (h : c ∈ (pyStrip cs s).data) : c ∈ s.data := by
  rw [pyStrip] at h
  simp only [List.mem_reverse] at h
  have h2 := mem_dropWhile _ _ _ h
  rw [List.mem_reverse] at h2
  exact mem_dropWhile _ _ _ h2

/-- The last character of a right-stripped string is not stripped. -/
theorem rstrip_last_clean (cs : List Char) (s : String) (c : Char)
    (h : (pyRStrip cs s).data.getLast? = some c) : c ∉ cs := by
  rw [pyRStrip] at h
  simp only [List.getLast?_reverse] at h
  have := head?_dropWhile (fun c => decide (c ∈ cs)) s.data.reverse c h
  simpa using this

/-- Characters of a right-stripped string come from the original. -/
theorem mem_rstrip (cs : List Char) (s : String) (c : Char)
    (h : c ∈ (pyRStrip cs s).data) : c ∈ s.data := by
  rw [pyRStrip] at h
  simp only [List.mem_reverse] at h
  have h2 := mem_dropWhile _ _ _ h
  rw [List.mem_reverse] at h2
  exact h2

/-- Right-stripping a string whose last character is clean changes
nothing. -/
theorem rstrip_noop (cs : List Char) (s : String)
    (h : ∀ c, s.data.getLast? = some c → c ∉ cs) : pyRStrip cs s = s := by
  have hside : ∀ x, s.data.reverse.head? = some x →
      (fun c => decide (c ∈ cs)) x = false := by
    intro x hx
    rw [List.head?_reverse] at hx
    simpa using h x hx
  rw [pyRStrip, dropWhile_of_head _ _ hside, List.reverse_reverse, smk_data]

/-- Left-stripping a string whose first character is clean changes
nothing. -/
theorem lstrip_noop (cs : List Char) (s : String)
    (h : ∀ c, s.data.head? = some c → c ∉ cs) : pyLStrip cs s = s := by
  have hside : ∀ x, s.data.head? = some x →
      (fun c => decide (c ∈ cs)) x = false := by
    intro x hx
    simpa using h x hx
  rw [pyLStrip, dropWhile_of_head _ _ hside, smk_data]

/-- Stripping slashes from `/x/` recovers `x` when `x` is non-empty and
clean at both ends. -/
theorem strip_slash_wrap (x : String) (hx : x ≠ "")
    (h1 : ∀ c, x.data.head? = some c → c ∉ (['/'] : List Char))
    (h2 : ∀ c, x.data.getLast? = some c → c ∉ (['/'] : List Char)) :
    pyStrip ['/'] ("/" ++ x ++ "/") = x := by
  obtain ⟨c, t, hct⟩ : ∃ c t, x.data = c :: t := by
    cases hd : x.data with
    | nil =>
      exfalso
      exact hx (sext.mpr hd)
    | cons c t => exact ⟨c, t, rfl⟩
  have hdata : ("/" ++ x ++ "/").data = '/' :: (x.data ++ ['/']) := rfl
  rw [pyStrip, hdata, List.dropWhile_cons, if_pos (by simp)]
  rw [hct, List.cons_append, List.dropWhile_cons,
    if_neg (by simpa using h1 c (by rw [hct]; rfl)), ← List.cons_append,
    ← hct]
  rw [List.reverse_append]
  simp only [List.reverse_singleton, List.singleton_append]
  rw [List.dropWhile_cons, if_pos (by simp)]
  have hside : ∀ y, x.data.reverse.head? = some y →
      (fun c => decide (c ∈ (['/'] : List Char))) y = false := by
    intro y hy
    rw [List.head?_reverse] at hy
    simpa using h2 y hy
  rw [dropWhile_of_head _ _ hside, List.reverse_reverse, smk_data]

/-! ## Helper lemmas: falsity of `hasForbidden` -/

/-- Unfolding of a refuted forbidden-character test. -/
theorem hasForbidden_false (s : String) (h : hasForbidden s = false) :
    ∀ c ∈ s.data, c ∉ forbidden_chars := by
  intro c hc
  rw [hasForbidden] at h
  rw [List.any_eq_false] at h
  simpa using h c hc

/-- Establishing a refuted forbidden-character test. -/
theorem hasForbidden_eq_false (s : String)
    (h : ∀ c ∈ s.data, c ∉ forbidden_chars) : hasForbidden s = false := by
  rw [hasForbidden, List.any_eq_false]
  intro c hc
  simpa using h c hc

/-! ## Helper lemmas: idempotence of the simple checkers -/

/-- Idempotence of `prefix_value`. -/
theorem prefix_value_idem (v w : String) (h : prefix_value v = .ok w) :
    prefix_value w = .ok w := by
  rw [prefix_value] at h
  by_cases hf : hasForbidden v = true
  · rw [if_pos hf] at h; cases h
  · rw [if_neg hf] at h
    by_cases hs : pyStrip ['/'] v ≠ ""
    · rw [if_pos hs] at h
      rw [Except.ok.injEq] at h
      subst h
      have hfv := hasForbidden_false v (Bool.not_eq_true _ ▸ hf)
      have hfw : hasForbidden ("/" ++ pyStrip ['/'] v ++ "/") = false := by
        apply hasForbidden_eq_false
        intro c hc
        have hdata : ("/" ++ pyStrip ['/'] v ++ "/").data =
            '/' :: ((pyStrip ['/'] v).data ++ ['/']) := rfl
        rw [hdata] at hc
        rcases List.mem_cons.mp hc with hc | hc
        · subst hc; decide
        · rcases List.mem_append.mp hc with hc | hc
          · exact hfv c (mem_strip _ _ _ hc)
          · rcases List.mem_singleton.mp hc with rfl
            decide
      rw [prefix_value, if_neg (by rw [hfw]; simp),
        strip_slash_wrap _ (by simpa using hs)
          (strip_head_clean ['/'] v) (strip_last_clean ['/'] v),
        if_pos hs]
    · rw [if_neg hs] at h
      rw [Except.ok.injEq] at h
      subst h
      rfl

/-- Shape of a successful `dotted_name`: the result has no slash, and is
non-empty when the input was. -/
theorem dotted_name_ok_shape (v w : String) (h : dotted_name v = .ok w) :
    pyContains '/' w = false ∧ (v ≠ "" → w ≠ "") := by
  rw [dotted_name] at h
  by_cases hf : hasForbidden v = true
  · rw [if_pos hf] at h; cases h
  · rw [if_neg hf] at h
    by_cases hv : v = ""
    · rw [if_pos hv] at h
      rw [Except.ok.injEq] at h
      subst h
      exact ⟨rfl, fun hne => absurd hv hne⟩
    · rw [if_neg hv] at h
      by_cases hres : v ∈ reserved_names
      · rw [if_pos hres] at h; cases h
      · rw [if_neg hres] at h
        by_cases hsl : pyContains '/' (pyRStrip ['/'] v) = true
        · rw [if_pos hsl] at h; cases h
        · rw [if_neg hsl] at h
          by_cases hch : (pySplit '.' (pyRStrip ['/'] v)).any (· = "") = true
          · rw [if_pos hch] at h; cases h
          · rw [if_neg hch] at h
            rw [Except.ok.injEq] at h
            subst h
            refine ⟨Bool.not_eq_true _ ▸ hsl, fun _ hcon => ?_⟩
            apply hch
            rw [hcon]
            decide

/-- Idempotence of `dotted_name` away from the reserved keywords. -/
theorem dotted_name_idem (v w : String) (h : dotted_name v = .ok w)
    (hres : w ∉ reserved_names) : dotted_name w = .ok w := by
  rw [dotted_name] at h
  by_cases hf : hasForbidden v = true
  · rw [if_pos hf] at h; cases h
  · rw [if_neg hf] at h
    by_cases hv : v = ""
    · rw [if_pos hv] at h
      rw [Except.ok.injEq] at h
      subst h
      rfl
    · rw [if_neg hv] at h
      by_cases hrv : v ∈ reserved_names
      · rw [if_pos hrv] at h; cases h
      · rw [if_neg hrv] at h
        by_cases hsl : pyContains '/' (pyRStrip ['/'] v) = true
        · rw [if_pos hsl] at h; cases h
        · rw [if_neg hsl] at h
          by_cases hch : (pySplit '.' (pyRStrip ['/'] v)).any (· = "") = true
          · rw [if_pos hch] at h; cases h
          · rw [if_neg hch] at h
            rw [Except.ok.injEq] at h
            subst h
            have hfv := hasForbidden_false v (Bool.not_eq_true _ ▸ hf)
            have hfw : hasForbidden (pyRStrip ['/'] v) = false :=
              hasForbidden_eq_false _
                (fun c hc => hfv c (mem_rstrip _ _ _ hc))
            have hwne : pyRStrip ['/'] v ≠ "" := by
              intro hcon
              apply hch
              rw [hcon]
              decide
            have hnoop : pyRStrip ['/'] (pyRStrip ['/'] v) =
                pyRStrip ['/'] v :=
              rstrip_noop _ _ (rstrip_last_clean ['/'] v)
            rw [dotted_name, if_neg (by rw [hfw]; simp), if_neg hwne,
              if_neg hres, hnoop, if_neg hsl, if_neg hch]

/-- Decomposition of a one-slash concatenation by `pySplit1`. -/
theorem pySplit1_concat (hd n : String) (hnotin : '/' ∉ hd.data) :
    pySplit1 '/' (hd ++ "/" ++ n) = (hd, some n) := by
  have hdata : (hd ++ "/" ++ n).data = hd.data ++ '/' :: n.data := by
    rw [sdata_append, sdata_append]
    simp
  rw [pySplit1, hdata, splitFirstC_append _ _ _ hnotin]
  simp [smk_data]

/-- Idempotence of `branch_part` away from reserved branch names. -/
theorem branch_part_idem (v w : String) (h : branch_part v = .ok w)
    (hres : ∀ r ∈ reserved_names,
      w ≠ "branches/" ++ r ∧ w ≠ "tags/" ++ r) :
    branch_part w = .ok w := by
  rw [branch_part] at h
  by_cases ht : v = "trunk"
  · rw [if_pos ht] at h
    rw [Except.ok.injEq] at h
    subst h
    rw [ht]
    rfl
  · rw [if_neg ht] at h
    by_cases he : v = ""
    · rw [if_pos he] at h
      rw [Except.ok.injEq] at h
      subst h
      rfl
    · rw [if_neg he] at h
      cases hsp : pySplit1 '/' v with
      | mk hd tl =>
        simp only [hsp] at h
        by_cases hh : hd ∉ (["tags", "branches"] : List String)
        · rw [if_pos hh] at h; cases h
        · rw [if_neg hh] at h
          have hmem : hd ∈ (["tags", "branches"] : List String) :=
            not_not.mp hh
          have hdone : branch_part hd = .ok hd := by
            rcases List.mem_cons.mp hmem with h1 | h1
            · subst h1; rfl
            · rcases List.mem_cons.mp h1 with h2 | h2
              · subst h2; rfl
              · cases h2
          cases tl with
          | none =>
            have h2 : (Except.ok hd : Except PyErr String) = .ok w := h
            rw [Except.ok.injEq] at h2
            subst h2
            exact hdone
          | some b =>
            have h2 : (if b ≠ "" then
                (match dotted_name b with
                 | Except.ok n => Except.ok (hd ++ "/" ++ n)
                 | Except.error e => Except.error e)
                else (Except.ok hd : Except PyErr String)) = .ok w := h
            by_cases hb : b ≠ ""
            · rw [if_pos hb] at h2
              cases hdn : dotted_name b with
              | error e => rw [hdn] at h2; cases h2
              | ok n =>
                simp only [hdn, Except.ok.injEq] at h2
                subst h2
                obtain ⟨hnsl, himp⟩ := dotted_name_ok_shape b n hdn
                have hn : n ≠ "" := himp hb
                have hnres : n ∉ reserved_names := by
                  intro hr
                  rcases List.mem_cons.mp hmem with h1 | h1
                  · exact (hres n hr).2 (by rw [h1]; rfl)
                  · rcases List.mem_cons.mp h1 with h2 | h2
                    · exact (hres n hr).1 (by rw [h2]; rfl)
                    · cases h2
                have hdnn : dotted_name n = .ok n :=
                  dotted_name_idem b n hdn hnres
                have hnotin : '/' ∉ hd.data := by
                  rcases List.mem_cons.mp hmem with h1 | h1
                  · rw [h1]; decide
                  · rcases List.mem_cons.mp h1 with h2 | h2
                    · rw [h2]; decide
                    · cases h2
                rw [branch_part]
                by_cases hwt : hd ++ "/" ++ n = "trunk"
                · rw [if_pos hwt]
                · rw [if_neg hwt]
                  have hwne : hd ++ "/" ++ n ≠ "" := by
                    intro hcon
                    have := congrArg String.data hcon
                    rw [sdata_append, sdata_append] at this
                    simp at this
                  rw [if_neg hwne]
                  simp only [pySplit1_concat hd n hnotin]
                  rw [if_neg hh, if_pos hn, hdnn]
            · rw [if_neg hb] at h2
              rw [Except.ok.injEq] at h2
              subst h2
              exact hdone

/-- Idempotence of the `autoprefix` checkers away from reserved names. -/
theorem autoprefixed_idem (P : String) (hP : P ≠ "") (v w : String)
    (h : autoprefixed P v = .ok w)
    (hres : ∀ r ∈ reserved_names, w ≠ P ++ r) :
    autoprefixed P w = .ok w := by
  have hre : ∀ n, dotted_name n = .ok n → n ≠ "" →
      autoprefixed P (P ++ n) = .ok (P ++ n) := by
    intro n hdn hn
    have hstart : pyStartsWith P (P ++ n) = true := by
      rw [pyStartsWith, sdata_append]
      exact isPref_self_append _ _
    have hdrop : pyDropStr P.data.length (P ++ n) = n := by
      rw [pyDropStr, sdata_append, List.drop_left, smk_data]
    rw [autoprefixed, if_pos hstart, hdrop, if_pos hn, hdn]
  rw [autoprefixed] at h
  by_cases hs : pyStartsWith P v = true
  · rw [if_pos hs] at h
    by_cases htl : pyDropStr P.data.length v ≠ ""
    · rw [if_pos htl] at h
      cases hdn : dotted_name (pyDropStr P.data.length v) with
      | error e => rw [hdn] at h; cases h
      | ok n =>
        simp only [hdn, Except.ok.injEq] at h
        subst h
        obtain ⟨_, himp⟩ := dotted_name_ok_shape _ n hdn
        have hn : n ≠ "" := himp htl
        have hnres : n ∉ reserved_names := fun hr => hres n hr rfl
        exact hre n (dotted_name_idem _ n hdn hnres) hn
    · rw [if_neg htl] at h; cases h
  · rw [if_neg hs] at h
    by_cases hv : v ≠ ""
    · rw [if_pos hv] at h
      cases hdn : dotted_name v with
      | error e => rw [hdn] at h; cases h
      | ok n =>
        simp only [hdn, Except.ok.injEq] at h
        subst h
        obtain ⟨_, himp⟩ := dotted_name_ok_shape _ n hdn
        have hn : n ≠ "" := himp hv
        have hnres : n ∉ reserved_names := fun hr => hres n hr rfl
        exact hre n (dotted_name_idem _ n hdn hnres) hn
    · rw [if_neg hv] at h
      simp only [Except.ok.injEq] at h
      subst h
      obtain ⟨c, t, hct⟩ : ∃ c t, P.data = c :: t := by
        cases hd : P.data with
        | nil => exact absurd (sext.mpr hd) hP
        | cons c t => exact ⟨c, t, rfl⟩
      have hsw : pyStartsWith P "" = false := by
        rw [pyStartsWith, hct]
        rfl
      rw [autoprefixed, if_neg (by rw [hsw]; simp), if_neg (by simp)]

/-- Possible results of a `switched_const` checker. -/
theorem switched_const_out (c : String) (v w : PyVal)
    (h : switched_const c v = .ok w) : w = .vstr "" ∨ w = .vstr c := by
  rw [switched_const] at h
  by_cases h1 : ¬ v.truthy = true
  · rw [if_pos h1] at h
    exact Or.inl (Except.ok.inj h).symm
  · rw [if_neg h1] at h
    by_cases h2 : pyEq v (.vint 1) = true ∨ pyEq v (.vbool true) = true ∨
        pyEq v (.vstr c) = true
    · rw [if_pos h2] at h
      exact Or.inr (Except.ok.inj h).symm
    · rw [if_neg h2] at h
      cases v with
      | vstr s =>
        rw [switched_tail] at h
        by_cases h3 : (if s.data.getLast? = some '/'
            then String.mk s.data.dropLast else s) = c
        · rw [if_pos h3] at h
          exact Or.inr (Except.ok.inj h).symm
        · rw [if_neg h3] at h
          cases h
      | vint n =>
        rw [switched_tail] at h
        · cases h
        · intro s hcon
          cases hcon
      | vbool b =>
        rw [switched_tail] at h
        · cases h
        · intro s hcon
          cases hcon
      | vnone =>
        rw [switched_tail] at h
        · cases h
        · intro s hcon
          cases hcon

/-- Idempotence of the `switched_const` checkers. -/
theorem switched_const_idem (c : String) (hc : c ≠ "") (v w : PyVal)
    (h : switched_const c v = .ok w) : switched_const c w = .ok w := by
  rcases switched_const_out c v w h with rfl | rfl
  · rw [switched_const,
      if_pos (by simp [PyVal.truthy] : ¬ (PyVal.vstr "").truthy = true)]
  · rw [switched_const,
      if_neg (not_not_intro (by simp [PyVal.truthy, hc])),
      if_pos (Or.inr (Or.inr (by simp [pyEq])))]

/-- Idempotence of `peg_value`. -/
theorem peg_value_idem (v w : PyVal) (h : peg_value v = .ok w) :
    peg_value w = .ok w := by
  rw [peg_value] at h
  by_cases h1 : v = PyVal.vnone ∨ v = PyVal.vstr ""
  · rw [if_pos h1] at h
    rw [Except.ok.injEq] at h
    subst h
    rfl
  · rw [if_neg h1] at h
    cases hint : PyVal.toIntPy? v with
    | none => rw [hint] at h; cases h
    | some val =>
      simp only [hint] at h
      by_cases h2 : val ≤ 0
      · rw [if_pos h2] at h; cases h
      · rw [if_neg h2] at h
        rw [Except.ok.injEq] at h
        subst h
        rw [peg_value, if_neg (by simp)]
        simp only [PyVal.toIntPy?]
        rw [if_neg h2]

/-- The element named by `getLast?` is a member. -/
theorem mem_of_getLast?_eq {α} {l : List α} {a : α}
    (h : l.getLast? = some a) : a ∈ l := by
  induction l with
  | nil => cases h
  | cons x l ih =>
    cases l with
    | nil =>
      rw [List.getLast?_singleton] at h
      rw [Option.some.injEq] at h
      subst h
      exact List.mem_cons_self _ _
    | cons y l =>
      rw [List.getLast?_cons_cons] at h
      exact List.mem_cons_of_mem _ (ih h)

/-- Invariants of the `normpath` component loop: components of the result
are non-empty, are not `.`, form a (possibly empty) block of `..`
followed by `..`-free components (no `..` at all on an absolute path), and
come from the accumulator or the input. -/
theorem normFold_props (k : Nat) (L : List String) :
    ∀ acc : List String,
    (∀ x ∈ acc, x ≠ "" ∧ x ≠ ".") →
    (∃ a b, acc = List.replicate a ".." ++ b ∧ ".." ∉ b) →
    (k ≠ 0 → ".." ∉ acc) →
    (∀ x ∈ L.foldl (normStep k) acc, x ≠ "" ∧ x ≠ ".") ∧
    (∃ a b, L.foldl (normStep k) acc = List.replicate a ".." ++ b ∧
      ".." ∉ b) ∧
    (k ≠ 0 → ".." ∉ L.foldl (normStep k) acc) ∧
    (∀ x ∈ L.foldl (normStep k) acc, x ∈ acc ∨ x ∈ L) := by
  induction L with
  | nil =>
    intro acc h1 h2 h3
    exact ⟨h1, h2, h3, fun x hx => Or.inl hx⟩
  | cons comp L ih =>
    intro acc h1 h2 h3
    rw [List.foldl_cons]
    have key : (∀ x ∈ normStep k acc comp, x ≠ "" ∧ x ≠ ".") ∧
        (∃ a b, normStep k acc comp = List.replicate a ".." ++ b ∧
          ".." ∉ b) ∧
        (k ≠ 0 → ".." ∉ normStep k acc comp) ∧
        (∀ x ∈ normStep k acc comp, x ∈ acc ∨ x = comp) := by
      rw [normStep]
      by_cases hc1 : comp = "" ∨ comp = "."
      · rw [if_pos hc1]
        exact ⟨h1, h2, h3, fun x hx => Or.inl hx⟩
      · rw [if_neg hc1]
        push_neg at hc1
        obtain ⟨hce, hcd⟩ := hc1
        by_cases hc2 : comp ≠ ".." ∨ (k = 0 ∧ acc = []) ∨
            (acc ≠ [] ∧ acc.getLast? = some "..")
        · rw [if_pos hc2]
          obtain ⟨a, b, hab, hbdd⟩ := h2
          refine ⟨?_, ?_, ?_, ?_⟩
          · intro x hx
            rcases List.mem_append.mp hx with hx | hx
            · exact h1 x hx
            · rcases List.mem_singleton.mp hx with rfl
              exact ⟨hce, hcd⟩
          · by_cases hdd : comp = ".."
            · subst hdd
              rcases hc2 with hne | ⟨_, hacc⟩ | ⟨hne, hlast⟩
              · exact absurd rfl hne
              · subst hacc
                exact ⟨1, [], by simp, by simp⟩
              · have hb : b = [] := by
                  by_contra hbne
                  rw [hab, List.getLast?_append] at hlast
                  have hlast2 : b.getLast? = some ".." := by
                    cases hbl : b.getLast? with
                    | none =>
                      rw [List.getLast?_eq_none_iff] at hbl
                      exact absurd hbl hbne
                    | some y =>
                      rw [hbl] at hlast
                      simpa using hlast
                  exact hbdd (mem_of_getLast?_eq hlast2)
                subst hb
                rw [List.append_nil] at hab
                subst hab
                exact ⟨a + 1, [], by
                  rw [List.replicate_succ']
                  simp, by simp⟩
            · exact ⟨a, b ++ [comp], by rw [hab, List.append_assoc], by
                intro hcon
                rcases List.mem_append.mp hcon with hcon | hcon
                · exact hbdd hcon
                · rcases List.mem_singleton.mp hcon with hcon
                  exact hdd hcon.symm⟩
          · intro hk
            have hnacc := h3 hk
            intro hcon
            rcases List.mem_append.mp hcon with hcon | hcon
            · exact hnacc hcon
            · rcases List.mem_singleton.mp hcon with hcon
              rcases hc2 with hne | ⟨hk0, _⟩ | ⟨hne, hlast⟩
              · exact hne hcon.symm
              · exact hk hk0
              · exact hnacc (mem_of_getLast?_eq hlast)
          · intro x hx
            rcases List.mem_append.mp hx with hx | hx
            · exact Or.inl hx
            · exact Or.inr (List.mem_singleton.mp hx)
        · rw [if_neg hc2]
          by_cases hane : acc ≠ []
          · rw [if_pos hane]
            obtain ⟨a, b, hab, hbdd⟩ := h2
            refine ⟨?_, ?_, ?_, ?_⟩
            · intro x hx
              exact h1 x (List.mem_of_mem_dropLast hx)
            · by_cases hbne : b = []
              · subst hbne
                rw [List.append_nil] at hab
                subst hab
                exact ⟨a - 1, [], by
                  rw [List.dropLast_replicate]
                  simp, by simp⟩
              · exact ⟨a, b.dropLast, by
                  rw [hab, List.dropLast_append_of_ne_nil _ hbne], by
                  intro hcon
                  exact hbdd (List.mem_of_mem_dropLast hcon)⟩
            · intro hk hcon
              exact h3 hk (List.mem_of_mem_dropLast hcon)
            · intro x hx
              exact Or.inl (List.mem_of_mem_dropLast hx)
          · rw [if_neg hane]
            exact ⟨h1, h2, h3, fun x hx => Or.inl hx⟩
    obtain ⟨k1, k2, k3, k4⟩ := key
    obtain ⟨r1, r2, r3, r4⟩ := ih (normStep k acc comp) k1 k2 k3
    refine ⟨r1, r2, r3, ?_⟩
    intro x hx
    rcases r4 x hx with hx2 | hx2
    · rcases k4 x hx2 with hx3 | hx3
      · exact Or.inl hx3
      · exact Or.inr (hx3 ▸ List.mem_cons_self _ _)
    · exact Or.inr (List.mem_cons_of_mem _ hx2)

/-- On a relative path whose leading components are the `..` block and
whose remaining components contain no `..`, no `.` and nothing empty, the
`normpath` loop keeps every component. -/
theorem normFold_id_dotdot (m : Nat) :
    ∀ a : Nat, (List.replicate m "..").foldl (normStep 0)
      (List.replicate a "..") = List.replicate (a + m) ".." := by
  induction m with
  | zero => intro a; simp
  | succ m ih =>
    intro a
    rw [List.replicate_succ, List.foldl_cons]
    have hstep : normStep 0 (List.replicate a "..") ".." =
        List.replicate (a + 1) ".." := by
      rw [normStep, if_neg (by simp)]
      by_cases ha : a = 0
      · subst ha
        rw [if_pos (Or.inr (Or.inl ⟨rfl, by simp⟩))]
        simp
      · rw [if_pos (Or.inr (Or.inr ⟨by simp [ha], by
          rw [List.getLast?_replicate, if_neg ha]⟩))]
        rw [List.replicate_succ']
    rw [hstep, ih (a + 1)]
    congr 1
    omega

/-- The `normpath` loop appends every well-formed non-`..` component. -/
theorem normFold_id_tail (b : List String) :
    ∀ acc : List String,
    (".." ∉ b) → (∀ x ∈ b, x ≠ "" ∧ x ≠ ".") →
    b.foldl (normStep 0) acc = acc ++ b := by
  induction b with
  | nil => intro acc _ _; simp
  | cons comp b ih =>
    intro acc hdd hb
    rw [List.foldl_cons]
    obtain ⟨hce, hcd⟩ := hb comp (List.mem_cons_self _ _)
    have hstep : normStep 0 acc comp = acc ++ [comp] := by
      rw [normStep, if_neg (by simp [hce, hcd])]
      rw [if_pos (Or.inl (fun hcon =>
        hdd (mem_cons_of_eq _ _ _ hcon)))]
    rw [hstep, ih (acc ++ [comp])
      (fun hcon => hdd (List.mem_cons_of_mem _ hcon))
      (fun x hx => hb x (List.mem_cons_of_mem _ hx)), List.append_assoc]
    rfl

/-- A character of a member piece occurs in the join. -/
theorem mem_joinC_of_mem (sep : Char) (ps : List (List Char))
    (p : List Char) (c : Char) (hp : p ∈ ps) (hc : c ∈ p) :
    c ∈ joinC sep ps := by
  induction ps with
  | nil => cases hp
  | cons q qs ih =>
    cases qs with
    | nil =>
      rw [joinC]
      rcases List.mem_cons.mp hp with hp | hp
      · exact hp ▸ hc
      · cases hp
    | cons y ys =>
      rw [joinC]
      rcases List.mem_cons.mp hp with hp | hp
      · exact List.mem_append.mpr (Or.inl (hp ▸ hc))
      · exact List.mem_append.mpr (Or.inr (List.mem_cons_of_mem _
          (ih hp)))

/-- Characters of a piece of a split occur in the original list. -/
theorem mem_of_mem_splitC_piece (sep : Char) (l p : List Char) (c : Char)
    (hp : p ∈ splitC sep l) (hc : c ∈ p) : c ∈ l := by
  have := mem_joinC_of_mem sep (splitC sep l) p c hp hc
  rwa [joinC_splitC] at this

/-- Rebuilding the strings of a split. -/
theorem map_mk_data (r : List String) :
    (r.map String.data).map String.mk = r := by
  induction r with
  | nil => rfl
  | cons x r ih => simp [ih, smk_data]

/-- Splitting a slash-join of slash-free strings recovers the strings. -/
theorem pySplit_pyJoin (r : List String) (hr : r ≠ [])
    (h : ∀ x ∈ r, '/' ∉ x.data) : pySplit '/' (pyJoin '/' r) = r := by
  rw [pySplit, pyJoin]
  have hmk : (String.mk (joinC '/' (r.map String.data))).data =
      joinC '/' (r.map String.data) := rfl
  rw [hmk, splitC_joinC '/' (r.map String.data)
    (by simpa using hr)
    (by
      intro p hp
      rcases List.mem_map.mp hp with ⟨x, hx, rfl⟩
      exact h x hx), map_mk_data]

/-- Head of a separator-join whose first piece is non-empty. -/
theorem head?_joinC (sep : Char) (p : List Char) (ps : List (List Char))
    (hp : p ≠ []) : (joinC sep (p :: ps)).head? = p.head? := by
  cases ps with
  | nil => rfl
  | cons q qs =>
    show (p ++ sep :: joinC sep (q :: qs)).head? = p.head?
    cases p with
    | nil => exact absurd rfl hp
    | cons c t => rfl

/-- Head of a slash-join whose first piece is non-empty. -/
theorem head?_pyJoin (x : String) (rest : List String) (hx : x.data ≠ []) :
    (pyJoin '/' (x :: rest)).data.head? = x.data.head? := by
  show (joinC '/' (x.data :: rest.map String.data)).head? = x.data.head?
  exact head?_joinC '/' x.data (rest.map String.data) hx

/-- Membership of a string in the pieces of a split. -/
theorem mem_pySplit (x : String) (s : String)
    (hx : x ∈ pySplit '/' s) : x.data ∈ splitC '/' s.data := by
  rw [pySplit] at hx
  rcases List.mem_map.mp hx with ⟨l, hl, rfl⟩
  exact hl

/-- `normpath` of a slash-join of well-formed components is the join
itself: a non-empty block-of-`..`-then-`..`-free list of non-empty,
non-dot, slash-free components re-normalises to itself. -/
theorem normpath_of_join (r : List String) (hr : r ≠ [])
    (h1 : ∀ x ∈ r, x ≠ "" ∧ x ≠ ".")
    (h2 : ∃ a b, r = List.replicate a ".." ++ b ∧ ".." ∉ b)
    (h3 : ∀ x ∈ r, '/' ∉ x.data) :
    normpath (pyJoin '/' r) = pyJoin '/' r := by
  obtain ⟨x, rest, rfl⟩ : ∃ x rest, r = x :: rest := by
    cases r with
    | nil => exact absurd rfl hr
    | cons x rest => exact ⟨x, rest, rfl⟩
  have hxne : x.data ≠ [] := by
    intro hcon
    exact (h1 x (List.mem_cons_self _ _)).1 (sext.mpr hcon)
  obtain ⟨c, t, hct⟩ : ∃ c t, x.data = c :: t := by
    cases hd : x.data with
    | nil => exact absurd hd hxne
    | cons c t => exact ⟨c, t, rfl⟩
  have hcs : c ≠ '/' := by
    intro hcon
    exact h3 x (List.mem_cons_self _ _) (by rw [hct, hcon]; simp)
  have hhead : (pyJoin '/' (x :: rest)).data.head? = some c := by
    rw [head?_pyJoin x rest hxne, hct]
    rfl
  have hwne : pyJoin '/' (x :: rest) ≠ "" := by
    intro hcon
    rw [hcon] at hhead
    cases hhead
  have hsw : pyStartsWith "/" (pyJoin '/' (x :: rest)) = false := by
    rw [pyStartsWith]
    cases hd : (pyJoin '/' (x :: rest)).data with
    | nil => rfl
    | cons d ds =>
      rw [hd] at hhead
      have hdc : d = c := by
        rw [List.head?_cons, Option.some.injEq] at hhead
        exact hhead
      show (decide (('/' : Char) = d) && isPref [] ds) = false
      rw [decide_eq_false (show ¬ ('/' : Char) = d from
        fun hcon => hcs (hdc ▸ hcon.symm))]
      rfl
  obtain ⟨a, b, hab, hbdd⟩ := h2
  have hfold : (x :: rest).foldl (normStep 0) [] = x :: rest := by
    rw [hab, List.foldl_append]
    have h1' : (List.replicate a "..").foldl (normStep 0) [] =
        List.replicate a ".." := by
      have := normFold_id_dotdot a 0
      simpa using this
    rw [h1', normFold_id_tail b (List.replicate a "..") hbdd
      (fun y hy => h1 y (by rw [hab]; exact List.mem_append_right _ hy))]
  have hnil : String.mk (List.replicate 0 '/') ++ pyJoin '/' (x :: rest) =
      pyJoin '/' (x :: rest) := by
    rw [sext, sdata_append]
    rfl
  simp only [normpath]
  rw [if_neg hwne]
  simp only [hsw, Bool.false_eq_true, if_false,
    pySplit_pyJoin (x :: rest) hr h3, hfold, hnil]
  rw [if_neg hwne]

/-- The left-stripped `normpath` of any string is the dot, the empty
string, or the slash-join of a non-empty well-formed component list drawn
from the slash-split of the input. -/
theorem normpath_lstrip_cases (p : String) :
    pyLStrip ['/'] (normpath p) = "." ∨
    pyLStrip ['/'] (normpath p) = "" ∨
    ∃ r : List String, r ≠ [] ∧
      (∀ x ∈ r, x ≠ "" ∧ x ≠ ".") ∧
      (∃ a b, r = List.replicate a ".." ++ b ∧ ".." ∉ b) ∧
      (∀ x ∈ r, x ∈ pySplit '/' p) ∧
      pyLStrip ['/'] (normpath p) = pyJoin '/' r := by
  by_cases hp : p = ""
  · subst hp
    exact Or.inl rfl
  · obtain ⟨q1, q2, _, q4⟩ := normFold_props
      (if pyStartsWith "/" p = true then
        (if (pyStartsWith "//" p = true ∧ ¬ pyStartsWith "///" p = true)
          then 2 else 1) else 0)
      (pySplit '/' p) [] (by simp) ⟨0, [], by simp, by simp⟩ (by simp)
    cases hnc : (pySplit '/' p).foldl
        (normStep (if pyStartsWith "/" p = true then
          (if (pyStartsWith "//" p = true ∧ ¬ pyStartsWith "///" p = true)
            then 2 else 1) else 0)) [] with
    | nil =>
      simp only [normpath]
      rw [if_neg hp]
      by_cases hs1 : pyStartsWith "/" p = true
      · by_cases hs2 : pyStartsWith "//" p = true ∧
            ¬ pyStartsWith "///" p = true
        · rw [if_pos hs1, if_pos hs2]
          rw [if_pos hs1, if_pos hs2] at hnc
          rw [hnc]
          exact Or.inr (Or.inl rfl)
        · rw [if_pos hs1, if_neg hs2]
          rw [if_pos hs1, if_neg hs2] at hnc
          rw [hnc]
          exact Or.inr (Or.inl rfl)
      · rw [if_neg hs1]
        rw [if_neg hs1] at hnc
        rw [hnc]
        exact Or.inl rfl
    | cons x rest =>
      rw [hnc] at q1 q2 q4
      refine Or.inr (Or.inr ⟨x :: rest, by simp, q1, q2, ?_, ?_⟩)
      · intro y hy
        rcases q4 y hy with hy2 | hy2
        · cases hy2
        · exact hy2
      · have hxne : x.data ≠ [] := by
          intro hcon
          exact (q1 x (List.mem_cons_self _ _)).1 (sext.mpr hcon)
        have hjoin : (pyJoin '/' (x :: rest)).data.head? = x.data.head? :=
          head?_pyJoin x rest hxne
        simp only [normpath]
        rw [if_neg hp, hnc]
        have hres : String.mk (List.replicate
            (if pyStartsWith "/" p = true then
              (if (pyStartsWith "//" p = true ∧
                ¬ pyStartsWith "///" p = true) then 2 else 1) else 0) '/')
            ++ pyJoin '/' (x :: rest) ≠ "" := by
          intro hcon
          rw [sext, sdata_append] at hcon
          have : (pyJoin '/' (x :: rest)).data = [] := by
            have := congrArg List.length hcon
            simp at this
            exact List.eq_nil_of_length_eq_zero this.2
          rw [this] at hjoin
          cases hd : x.data with
          | nil => exact hxne hd
          | cons c t =>
            rw [hd] at hjoin
            cases hjoin
        rw [if_neg hres, pyLStrip]
        have hdrop : ((String.mk (List.replicate
            (if pyStartsWith "/" p = true then
              (if (pyStartsWith "//" p = true ∧
                ¬ pyStartsWith "///" p = true) then 2 else 1) else 0) '/')
            ++ pyJoin '/' (x :: rest)).data).dropWhile
              (· ∈ (['/'] : List Char)) =
            (pyJoin '/' (x :: rest)).data := by
          rw [sdata_append]
          have hmk : (String.mk (List.replicate
              (if pyStartsWith "/" p = true then
                (if (pyStartsWith "//" p = true ∧
                  ¬ pyStartsWith "///" p = true) then 2 else 1)
                else 0) '/')).data = List.replicate
              (if pyStartsWith "/" p = true then
                (if (pyStartsWith "//" p = true ∧
                  ¬ pyStartsWith "///" p = true) then 2 else 1)
                else 0) '/' := rfl
          rw [hmk, dropWhile_append_of_all]
          · apply dropWhile_of_head
            intro y hy
            rw [hjoin] at hy
            obtain ⟨c, t, hct⟩ : ∃ c t, x.data = c :: t := by
              cases hd : x.data with
              | nil => exact absurd hd hxne
              | cons c t => exact ⟨c, t, rfl⟩
            rw [hct] at hy
            rw [List.head?_cons, Option.some.injEq] at hy
            have hns : '/' ∉ x.data := by
              intro hcon
              have hpiece := mem_pySplit x p (by
                have h5 := q4 x (List.mem_cons_self _ _)
                rcases h5 with h0 | h0
                · cases h0
                · exact h0)
              exact notin_of_mem_splitC '/' p.data x.data hpiece hcon
            simp only [decide_eq_false_iff_not]
            intro hcon
            rcases List.mem_singleton.mp hcon with rfl
            exact hns (by rw [hct, hy]; exact List.mem_cons_self _ _)
          · intro y hy
            rcases List.eq_of_mem_replicate hy with rfl
            simp
        rw [hdrop, smk_data]

/-- Idempotence of `url_subpath`. -/
theorem url_subpath_idem (v w : String) (h : url_subpath v = .ok w) :
    url_subpath w = .ok w := by
  rw [url_subpath] at h
  by_cases hf : hasForbidden v = true
  · rw [if_pos hf] at h; cases h
  · rw [if_neg hf] at h
    by_cases hdot : pyLStrip ['/'] (normpath v) = "."
    · rw [if_pos hdot] at h
      rw [Except.ok.injEq] at h
      subst h
      rfl
    · rw [if_neg hdot] at h
      rw [Except.ok.injEq] at h
      subst h
      rcases normpath_lstrip_cases v with hcase | hcase | hcase
      · exact absurd hcase hdot
      · rw [hcase]
        rfl
      · obtain ⟨r, hrne, hr1, hr2, hr4, hreq⟩ := hcase
        rw [hreq]
        have hfv := hasForbidden_false v (Bool.not_eq_true _ ▸ hf)
        have hslash : ∀ x ∈ r, '/' ∉ x.data := by
          intro x hx hcon
          exact notin_of_mem_splitC '/' v.data x.data
            (mem_pySplit x v (hr4 x hx)) hcon
        have hfw : hasForbidden (pyJoin '/' r) = false := by
          apply hasForbidden_eq_false
          intro c hc
          have hj : c ∈ joinC '/' (r.map String.data) := hc
          rcases mem_joinC '/' (r.map String.data) c hj with ⟨pd, hpd, hcp⟩ |
              hsep
          · rcases List.mem_map.mp hpd with ⟨x, hx, rfl⟩
            exact hfv c (mem_of_mem_splitC_piece '/' v.data x.data c
              (mem_pySplit x v (hr4 x hx)) hcp)
          · subst hsep
            decide
        have hnorm := normpath_of_join r hrne hr1 hr2 hslash
        have hlsw : pyLStrip ['/'] (pyJoin '/' r) = pyJoin '/' r := by
          apply lstrip_noop
          intro c hc
          obtain ⟨x, rest, rfl⟩ : ∃ x rest, r = x :: rest := by
            cases r with
            | nil => exact absurd rfl hrne
            | cons x rest => exact ⟨x, rest, rfl⟩
          have hxne : x.data ≠ [] := by
            intro hcon
            exact (hr1 x (List.mem_cons_self _ _)).1 (sext.mpr hcon)
          rw [head?_pyJoin x rest hxne] at hc
          have hcx : c ∈ x.data := by
            cases hd : x.data with
            | nil => exact absurd hd hxne
            | cons d t =>
              rw [hd] at hc
              rw [List.head?_cons, Option.some.injEq] at hc
              rw [← hc]
              exact List.mem_cons_self _ _
          intro hcon
          rcases List.mem_singleton.mp hcon with rfl
          exact hslash x (List.mem_cons_self _ _) hcx
        have hwdot : pyJoin '/' r ≠ "." := by
          intro hcon
          have hsp := pySplit_pyJoin r hrne hslash
          rw [hcon] at hsp
          have : ("." : String) ∈ r := by
            rw [← hsp]
            show ("." : String) ∈ pySplit '/' "."
            decide
          exact (hr1 "." this).2 rfl
        rw [url_subpath, if_neg (by rw [hfw]; simp), hnorm, hlsw,
          if_neg hwdot]

/-! ### Reparsing of the output of the repo checker -/

/-- Per-character facts about scheme characters, used for the reparse of a
checked repo URL. -/
theorem scheme_char_facts : ∀ c ∈ scheme_chars,
    Char.toLower c ∈ scheme_chars ∧
    Char.toLower (Char.toLower c) = Char.toLower c ∧
    Char.toLower c ≠ ':' ∧
    (c.isAlpha = true → (Char.toLower c).isAlpha = true) := by decide

/-- The default head of an append with a non-empty left part. -/
theorem headD_append_of_ne (a b : List Char) (d : Char) (h : a ≠ []) :
    (a ++ b).headD d = a.headD d := by
  cases a with
  | nil => exact absurd rfl h
  | cons c t => rfl

/-- Unfolding the data of a scheme-colon concatenation. -/
theorem sdata_colon (sch r : String) :
    (sch ++ ":" ++ r).data = sch.data ++ ':' :: r.data := by
  rw [sdata_append, sdata_append, List.append_assoc]
  rfl

/-- Unfolding the data of a double-slash concatenation. -/
theorem sdata_dslash (nl X : String) :
    ("//" ++ nl ++ X).data = '/' :: '/' :: (nl.data ++ X.data) := by
  rw [sdata_append, sdata_append, List.append_assoc]
  rfl

/-- A single-slash prefix means the head character is a slash. -/
theorem startsWith_slash_head (s : String)
    (h : pyStartsWith "/" s = true) : s.data.head? = some '/' := by
  rw [pyStartsWith] at h
  cases hd : s.data with
  | nil =>
    rw [hd] at h
    exact absurd h (by decide)
  | cons c t =>
    rw [hd] at h
    have h2 : (decide (('/' : Char) = c) && isPref [] t) = true := h
    rcases (Bool.and_eq_true _ _ ▸ h2 : _ ∧ _) with ⟨h3, _⟩
    rw [List.head?_cons, ← of_decide_eq_true h3]

/-- A head slash gives a single-slash prefix. -/
theorem head_startsWith_slash (s : String)
    (h : s.data.head? = some '/') : pyStartsWith "/" s = true := by
  rw [pyStartsWith]
  cases hd : s.data with
  | nil => rw [hd] at h; cases h
  | cons c t =>
    rw [hd] at h
    rw [List.head?_cons, Option.some.injEq] at h
    show (decide (('/' : Char) = c) && isPref [] t) = true
    rw [h]
    rfl

/-- A double-slash prefix implies a single-slash prefix. -/
theorem sw2_imp_sw1 (s : String) (h : pyStartsWith "//" s = true) :
    pyStartsWith "/" s = true := by
  rw [pyStartsWith] at h ⊢
  cases hd : s.data with
  | nil =>
    rw [hd] at h
    exact absurd h (by decide)
  | cons c t =>
    rw [hd] at h
    have h2 : (decide (('/' : Char) = c) && isPref ['/'] t) = true := h
    rcases (Bool.and_eq_true _ _ ▸ h2 : _ ∧ _) with ⟨h3, _⟩
    show (decide (('/' : Char) = c) && isPref [] t) = true
    rw [h3]
    rfl

/-- The slash-path adjustment yields the empty string or a string that
starts with a slash. -/
theorem slashPath_cases (p : String) :
    slashPath p = "" ∨ (slashPath p).data.head? = some '/' := by
  rw [slashPath]
  by_cases h1 : p = ""
  · rw [if_neg (by simp [h1])]
    exact Or.inl h1
  · by_cases h2 : pyStartsWith "/" p = true
    · rw [if_neg (by simp [h2])]
      exact Or.inr (startsWith_slash_head p h2)
    · rw [if_pos ⟨h1, h2⟩]
      right
      rw [sdata_append]
      rfl

/-- The slash-path adjustment introduces no character but the slash. -/
theorem slashPath_notin (c : Char) (p : String) (h : c ∉ p.data)
    (hc : c ≠ '/') : c ∉ (slashPath p).data := by
  rw [slashPath]
  by_cases h1 : p ≠ "" ∧ ¬ pyStartsWith "/" p = true
  · rw [if_pos h1, sdata_append]
    intro hcon
    rcases List.mem_append.mp hcon with h2 | h2
    · have h3 : c ∈ ['/'] := h2
      rcases List.mem_singleton.mp h3 with rfl
      exact hc rfl
    · exact h h2
  · rw [if_neg h1]
    exact h

/-- A path starting with a slash is unchanged by the adjustment. -/
theorem slashPath_of_slash (p : String) (h : pyStartsWith "/" p = true) :
    slashPath p = p := by
  rw [slashPath, if_neg (by simp [h])]

/-- The slash-path adjustment is idempotent. -/
theorem slashPath_idem (p : String) :
    slashPath (slashPath p) = slashPath p := by
  rcases slashPath_cases p with h | h
  · rw [h]
    rfl
  · exact slashPath_of_slash _ (head_startsWith_slash _ h)

/-- Absence of a character means `pyContains` is false. -/
theorem pyContains_eq_false (c : Char) (s : String) (h : c ∉ s.data) :
    pyContains c s = false := by
  rw [pyContains, List.any_eq_false]
  intro x hx
  simp only [decide_eq_true_eq]
  intro hcon
  exact h (hcon ▸ hx)

/-- A false `pyContains` means the character is absent. -/
theorem pyContains_false (c : Char) (s : String)
    (h : pyContains c s = false) : c ∉ s.data := by
  intro hcon
  rw [pyContains, List.any_eq_false] at h
  exact h c hcon (by simp)

/-- Scheme splitting of a string with a valid scheme prefix. -/
theorem splitScheme_of_scheme (sch rest : String) (h1 : sch.data ≠ [])
    (h2 : ':' ∉ sch.data)
    (h3 : sch.data.all (· ∈ scheme_chars) = true)
    (h4 : (sch.data.headD ' ').isAlpha = true)
    (h5 : sch.data.map Char.toLower = sch.data) :
    splitScheme (sch ++ ":" ++ rest) = (sch, rest) := by
  have hC : 0 < sch.data.length ∧
      ((sch.data ++ ':' :: rest.data).headD ' ').isAlpha = true ∧
      ((sch.data ++ ':' :: rest.data).take sch.data.length).all
        (· ∈ scheme_chars) = true := by
    refine ⟨List.length_pos.mpr h1, ?_, ?_⟩
    · rw [headD_append_of_ne sch.data _ ' ' h1]
      exact h4
    · rw [List.take_left]
      exact h3
  have hdrop : (sch.data ++ ':' :: rest.data).drop (sch.data.length + 1) =
      rest.data := by
    rw [show sch.data ++ ':' :: rest.data = (sch.data ++ [':']) ++ rest.data
        by simp,
      show sch.data.length + 1 = (sch.data ++ [':']).length by simp,
      List.drop_left]
  rw [splitScheme, sdata_colon]
  simp only [findIdxC_append ':' sch.data rest.data h2]
  rw [if_pos hC, List.take_left, hdrop, h5, smk_data, smk_data]

/-- Scheme splitting of a string beginning with a slash finds no scheme. -/
theorem splitScheme_of_slash (w : String) (h : w.data.head? = some '/') :
    splitScheme w = ("", w) := by
  rw [splitScheme]
  cases hidx : findIdxC ':' w.data with
  | none => rfl
  | some i =>
    have hhd : w.data.headD ' ' = '/' := by
      cases hd : w.data with
      | nil => rw [hd] at h; cases h
      | cons c t =>
        rw [hd] at h
        rw [List.head?_cons, Option.some.injEq] at h
        rw [← h]
        rfl
    exact if_neg (fun hcon => by
      rcases hcon with ⟨_, hal, _⟩
      rw [hhd] at hal
      exact absurd hal (by decide))

/-- Network-location splitting of a double-slash concatenation whose
netloc part is clean and whose tail is empty or starts with a slash. -/
theorem splitNetloc_of_netloc (nl X : String)
    (hnl : ∀ c ∈ nl.data, c ∉ netlocEnd)
    (hX : X = "" ∨ X.data.head? = some '/') :
    splitNetloc ("//" ++ nl ++ X) = (nl, X) := by
  have hsw : pyStartsWith "//" ("//" ++ nl ++ X) = true := by
    rw [pyStartsWith, sdata_dslash]
    rfl
  have htk : ((('/' :: '/' :: (nl.data ++ X.data)).drop 2).takeWhile
      (· ∉ netlocEnd)) = nl.data := by
    show ((nl.data ++ X.data).takeWhile (· ∉ netlocEnd)) = nl.data
    rw [takeWhile_append_of_all _ nl.data X.data
      (fun c hc => decide_eq_true (hnl c hc))]
    rcases hX with hX | hX
    · subst hX
      simp
    · have h0 : X.data.takeWhile (· ∉ netlocEnd) = [] :=
        takeWhile_of_head _ _ (fun x hx => by
          rw [hX] at hx
          rw [Option.some.injEq] at hx
          subst hx
          decide)
      rw [h0, List.append_nil]
  have hdw : ((('/' :: '/' :: (nl.data ++ X.data)).drop 2).dropWhile
      (· ∉ netlocEnd)) = X.data := by
    show ((nl.data ++ X.data).dropWhile (· ∉ netlocEnd)) = X.data
    rw [dropWhile_append_of_all _ nl.data X.data
      (fun c hc => decide_eq_true (hnl c hc))]
    rcases hX with hX | hX
    · subst hX
      rfl
    · exact dropWhile_of_head _ _ (fun x hx => by
        rw [hX] at hx
        rw [Option.some.injEq] at hx
        subst hx
        decide)
  rw [splitNetloc, if_pos hsw, sdata_dslash, htk, hdw, smk_data, smk_data]

/-- Network-location splitting of a string without a double-slash prefix. -/
theorem splitNetloc_of_not2 (s : String)
    (h : pyStartsWith "//" s = false) : splitNetloc s = ("", s) := by
  rw [splitNetloc, if_neg (by rw [h]; simp)]

/-- Tail splitting at an absent character returns the string unchanged. -/
theorem splitTail_of_notin (c : Char) (s : String) (h : c ∉ s.data) :
    splitTail c s = (s, "") := by
  rw [splitTail, if_neg (by rw [pyContains_eq_false c s h]; simp)]

/-- The part before the split character contains neither that character
nor anything outside the original string. -/
theorem splitTail_fst (c : Char) (s a b : String)
    (h : splitTail c s = (a, b)) :
    c ∉ a.data ∧ ∀ d ∈ a.data, d ∈ s.data := by
  rw [splitTail] at h
  by_cases hc : pyContains c s = true
  · rw [if_pos hc] at h
    cases hsp : splitFirstC c s.data with
    | mk A R =>
      have hps : pySplit1 c s = (String.mk A, R.map String.mk) := by
        rw [pySplit1, hsp]
      rw [hps] at h
      cases R with
      | none =>
        have h2 : (String.mk A, ("" : String)) = (a, b) := h
        injection h2 with ha _
        obtain ⟨hA, hnotin⟩ := splitFirstC_eq_none c s.data A hsp
        constructor
        · intro hcon
          rw [← ha] at hcon
          exact hnotin (hA ▸ hcon)
        · intro d hd
          rw [← ha] at hd
          exact hA ▸ hd
      | some B =>
        have h2 : (String.mk A, String.mk B) = (a, b) := h
        injection h2 with ha _
        obtain ⟨hA, hnotin⟩ := splitFirstC_eq_some c s.data A B hsp
        constructor
        · intro hcon
          rw [← ha] at hcon
          exact hnotin hcon
        · intro d hd
          rw [← ha] at hd
          rw [hA]
          exact List.mem_append.mpr (Or.inl hd)
  · rw [if_neg hc] at h
    injection h with ha _
    constructor
    · rw [← ha]
      exact pyContains_false c s (Bool.not_eq_true _ ▸ hc)
    · intro d hd
      rw [← ha] at hd
      exact hd

/-- The scheme produced by scheme splitting is empty or a lower-cased
word of scheme characters with an alphabetic head and no colon. -/
theorem splitScheme_cases (url sch rest : String)
    (h : splitScheme url = (sch, rest)) :
    sch = "" ∨ (sch.data ≠ [] ∧ ':' ∉ sch.data ∧
      sch.data.all (· ∈ scheme_chars) = true ∧
      (sch.data.headD ' ').isAlpha = true ∧
      sch.data.map Char.toLower = sch.data) := by
  rw [splitScheme] at h
  cases hidx : findIdxC ':' url.data with
  | none =>
    rw [hidx] at h
    have h2 : (("" : String), url) = (sch, rest) := h
    injection h2 with ha _
    exact Or.inl ha.symm
  | some i =>
    rw [hidx] at h
    by_cases hC : 0 < i ∧ (url.data.headD ' ').isAlpha = true ∧
        (url.data.take i).all (· ∈ scheme_chars) = true
    · have h3 : (if 0 < i ∧ (url.data.headD ' ').isAlpha = true ∧
          (url.data.take i).all (· ∈ scheme_chars) = true then
            (String.mk ((url.data.take i).map Char.toLower),
             String.mk (url.data.drop (i + 1)))
          else (("" : String), url)) = (sch, rest) := h
      rw [if_pos hC] at h3
      injection h3 with ha _
      obtain ⟨hC1, hC2, hC3⟩ := hC
      have hd : sch.data = (url.data.take i).map Char.toLower := by
        rw [← ha]
      have hmem : ∀ d ∈ url.data.take i, d ∈ scheme_chars := by
        intro d hdm
        exact of_decide_eq_true (List.all_eq_true.mp hC3 d hdm)
      have hlen : url.data ≠ [] := by
        intro hcon
        rw [hcon] at hidx
        simp [findIdxC] at hidx
      have htk_ne : url.data.take i ≠ [] := by
        intro hcon
        rcases List.take_eq_nil_iff.mp hcon with h0 | h0
        · omega
        · exact hlen h0
      right
      refine ⟨?_, ?_, ?_, ?_, ?_⟩
      · rw [hd]
        intro hcon
        exact htk_ne (List.map_eq_nil_iff.mp hcon)
      · rw [hd]
        intro hcon
        rcases List.mem_map.mp hcon with ⟨d, hdm, hde⟩
        exact (scheme_char_facts d (hmem d hdm)).2.2.1 hde
      · rw [hd, List.all_eq_true]
        intro x hx
        rcases List.mem_map.mp hx with ⟨d, hdm, rfl⟩
        exact decide_eq_true (scheme_char_facts d (hmem d hdm)).1
      · obtain ⟨e, tl, het⟩ : ∃ e tl, url.data = e :: tl := by
          cases hu : url.data with
          | nil => exact absurd hu hlen
          | cons e tl => exact ⟨e, tl, rfl⟩
        obtain ⟨j, rfl⟩ : ∃ j, i = j + 1 := ⟨i - 1, by omega⟩
        have htake : url.data.take (j + 1) = e :: tl.take j := by
          rw [het, List.take_succ_cons]
        have hhe : (e.isAlpha) = true := by
          rw [het] at hC2
          exact hC2
        have hes : e ∈ scheme_chars := by
          apply hmem
          rw [htake]
          exact List.mem_cons_self _ _
        rw [hd, htake]
        exact (scheme_char_facts e hes).2.2.2 hhe
      · rw [hd, List.map_map]
        apply List.map_congr_left
        intro d hdm
        show Char.toLower (Char.toLower d) = Char.toLower d
        exact (scheme_char_facts d (hmem d hdm)).2.1
    · have h3 : (if 0 < i ∧ (url.data.headD ' ').isAlpha = true ∧
          (url.data.take i).all (· ∈ scheme_chars) = true then
            (String.mk ((url.data.take i).map Char.toLower),
             String.mk (url.data.drop (i + 1)))
          else (("" : String), url)) = (sch, rest) := h
      rw [if_neg hC] at h3
      injection h3 with ha _
      exact Or.inl ha.symm

/-- The network location produced by netloc splitting contains none of
the terminator characters. -/
theorem splitNetloc_props (rest nl rest2 : String)
    (h : splitNetloc rest = (nl, rest2)) : ∀ c ∈ nl.data, c ∉ netlocEnd := by
  rw [splitNetloc] at h
  by_cases hs : pyStartsWith "//" rest = true
  · rw [if_pos hs] at h
    injection h with ha _
    intro c hc
    rw [← ha] at hc
    have hc2 : c ∈ (rest.data.drop 2).takeWhile (· ∉ netlocEnd) := hc
    have h3 := List.mem_takeWhile_imp hc2
    simpa using h3
  · rw [if_neg hs] at h
    injection h with ha _
    intro c hc
    rw [← ha] at hc
    have hc2 : c ∈ ([] : List Char) := hc
    cases hc2

/-- Unfolding `urlsplit` when every stage is known and the network
location is bracket-balanced. -/
theorem urlsplit_eq_ok (url sch rest nl rest2 rest3 frag path query :
      String)
    (h1 : splitScheme url = (sch, rest))
    (h2 : splitNetloc rest = (nl, rest2))
    (hbr : ¬ (('[' ∈ nl.data ∧ ']' ∉ nl.data) ∨
        (']' ∈ nl.data ∧ '[' ∉ nl.data)))
    (h3 : splitTail '#' rest2 = (rest3, frag))
    (h4 : splitTail '?' rest3 = (path, query)) :
    urlsplit url = .ok ⟨sch, nl, path, query, frag⟩ := by
  simp only [urlsplit, h1, h2, h3, h4]
  rw [if_neg hbr]

/-- The characteristic properties of the fields of a successful
`urlsplit`: the scheme is empty or lower-cased over scheme characters
with an alphabetic head and no colon, the network location contains
none of the terminator characters and is bracket-balanced, and the path
contains neither a hash nor a question mark. -/
theorem urlsplit_ok_props (url : String) (t : UrlTup)
    (h : urlsplit url = .ok t) :
    (t.scheme = "" ∨ (t.scheme.data ≠ [] ∧ ':' ∉ t.scheme.data ∧
      t.scheme.data.all (· ∈ scheme_chars) = true ∧
      (t.scheme.data.headD ' ').isAlpha = true ∧
      t.scheme.data.map Char.toLower = t.scheme.data)) ∧
    (∀ c ∈ t.netloc.data, c ∉ netlocEnd) ∧
    (¬ (('[' ∈ t.netloc.data ∧ ']' ∉ t.netloc.data) ∨
        (']' ∈ t.netloc.data ∧ '[' ∉ t.netloc.data))) ∧
    '#' ∉ t.path.data ∧ '?' ∉ t.path.data := by
  cases hss : splitScheme url with
  | mk sch rest =>
  cases hnlr : splitNetloc rest with
  | mk nl rest2 =>
  cases hft : splitTail '#' rest2 with
  | mk rest3 frag =>
  cases hqt : splitTail '?' rest3 with
  | mk path query =>
  by_cases hbr : ('[' ∈ nl.data ∧ ']' ∉ nl.data) ∨
      (']' ∈ nl.data ∧ '[' ∉ nl.data)
  · rw [urlsplit] at h
    simp only [hss, hnlr] at h
    rw [if_pos hbr] at h
    cases h
  · have h2 : urlsplit url = .ok ⟨sch, nl, path, query, frag⟩ :=
      urlsplit_eq_ok url sch rest nl rest2 rest3 frag path query
        hss hnlr hbr hft hqt
    rw [h2, Except.ok.injEq] at h
    subst h
    refine ⟨?_, ?_, ?_, ?_, ?_⟩
    · rcases splitScheme_cases url sch rest hss with h0 | h0
      · exact Or.inl h0
      · exact Or.inr h0
    · exact splitNetloc_props rest nl rest2 hnlr
    · exact hbr
    · obtain ⟨hf1, hf2⟩ := splitTail_fst '#' rest2 rest3 frag hft
      obtain ⟨hq1, hq2⟩ := splitTail_fst '?' rest3 path query hqt
      exact fun hcon => hf1 (hq2 '#' hcon)
    · exact (splitTail_fst '?' rest3 path query hqt).1

/-- `urlunsplit` on a tuple without query and fragment. -/
theorem urlunsplit_noqf (sch nl p : String) :
    urlunsplit ⟨sch, nl, p, "", ""⟩ =
      if sch ≠ "" then
        sch ++ ":" ++ (if nl ≠ "" ∨ (p ≠ "" ∧ pyStartsWith "//" p) then
          "//" ++ nl ++ slashPath p else p)
      else (if nl ≠ "" ∨ (p ≠ "" ∧ pyStartsWith "//" p) then
        "//" ++ nl ++ slashPath p else p) := rfl

/-- Re-splitting the unsplit of a field-wise well-formed tuple without
query and fragment recovers the scheme and the network location exactly
and the path up to the slash adjustment, which does not change the
unsplit result; the result also never equals the sentinel `^`. -/
theorem urlunsplit_reparse (sch nl p : String)
    (hsch : sch = "" ∨ (sch.data ≠ [] ∧ ':' ∉ sch.data ∧
      sch.data.all (· ∈ scheme_chars) = true ∧
      (sch.data.headD ' ').isAlpha = true ∧
      sch.data.map Char.toLower = sch.data))
    (hnl : ∀ c ∈ nl.data, c ∉ netlocEnd)
    (hbr : ¬ (('[' ∈ nl.data ∧ ']' ∉ nl.data) ∨
        (']' ∈ nl.data ∧ '[' ∉ nl.data)))
    (hp1 : '#' ∉ p.data) (hp2 : '?' ∉ p.data)
    (hnz : sch ≠ "" ∨ nl ≠ "") :
    ∃ X : String,
      urlsplit (urlunsplit ⟨sch, nl, p, "", ""⟩) =
        .ok ⟨sch, nl, X, "", ""⟩ ∧
      urlunsplit ⟨sch, nl, X, "", ""⟩ = urlunsplit ⟨sch, nl, p, "", ""⟩ ∧
      urlunsplit ⟨sch, nl, p, "", ""⟩ ≠ "^" := by
  by_cases hcond : nl ≠ "" ∨ (p ≠ "" ∧ pyStartsWith "//" p = true)
  · refine ⟨slashPath p, ?_⟩
    have hXh := slashPath_cases p
    have hsp1 : '#' ∉ (slashPath p).data :=
      slashPath_notin '#' p hp1 (by decide)
    have hsp2 : '?' ∉ (slashPath p).data :=
      slashPath_notin '?' p hp2 (by decide)
    have hnetsplit : splitNetloc ("//" ++ nl ++ slashPath p) =
        (nl, slashPath p) := splitNetloc_of_netloc nl (slashPath p) hnl hXh
    have hdd : ("//" ++ nl ++ slashPath p).data.head? = some '/' := by
      rw [sdata_dslash]
      rfl
    have hcond2 : nl ≠ "" ∨ (slashPath p ≠ "" ∧
        pyStartsWith "//" (slashPath p) = true) := by
      rcases hcond with h0 | ⟨hpne, hpsw⟩
      · exact Or.inl h0
      · have hspp : slashPath p = p :=
          slashPath_of_slash p (sw2_imp_sw1 p hpsw)
        rw [hspp]
        exact Or.inr ⟨hpne, hpsw⟩
    rcases hsch with hsch0 | ⟨hs1, hs2, hs3, hs4, hs5⟩
    · subst hsch0
      have hw : urlunsplit ⟨"", nl, p, "", ""⟩ =
          "//" ++ nl ++ slashPath p := by
        rw [urlunsplit_noqf, if_neg (by simp), if_pos hcond]
      refine ⟨?_, ?_, ?_⟩
      · rw [hw]
        exact urlsplit_eq_ok _ "" _ nl (slashPath p) (slashPath p) ""
          (slashPath p) "" (splitScheme_of_slash _ hdd) hnetsplit hbr
          (splitTail_of_notin '#' _ hsp1) (splitTail_of_notin '?' _ hsp2)
      · rw [hw, urlunsplit_noqf, if_neg (by simp), if_pos hcond2,
          slashPath_idem]
      · rw [hw]
        intro hcon
        rw [hcon] at hdd
        exact absurd hdd (by decide)
    · have hsne : sch ≠ "" := fun hc => hs1 (sext.mp hc)
      have hw : urlunsplit ⟨sch, nl, p, "", ""⟩ =
          sch ++ ":" ++ ("//" ++ nl ++ slashPath p) := by
        rw [urlunsplit_noqf, if_pos hsne, if_pos hcond]
      refine ⟨?_, ?_, ?_⟩
      · rw [hw]
        exact urlsplit_eq_ok _ sch ("//" ++ nl ++ slashPath p) nl
          (slashPath p) (slashPath p) "" (slashPath p) ""
          (splitScheme_of_scheme sch _ hs1 hs2 hs3 hs4 hs5) hnetsplit hbr
          (splitTail_of_notin '#' _ hsp1) (splitTail_of_notin '?' _ hsp2)
      · rw [hw, urlunsplit_noqf, if_pos hsne, if_pos hcond2,
          slashPath_idem]
      · rw [hw]
        intro hcon
        have hmem : ':' ∈ (sch ++ ":" ++
            ("//" ++ nl ++ slashPath p)).data := by
          rw [sdata_colon]
          exact List.mem_append_right _ (List.mem_cons_self _ _)
        rw [hcon] at hmem
        exact absurd hmem (by decide)
  · have hnl0 : nl = "" := by
      by_contra hc
      exact hcond (Or.inl hc)
    have hpp : pyStartsWith "//" p = false := by
      cases hps : pyStartsWith "//" p
      · rfl
      · exfalso
        apply hcond
        right
        refine ⟨?_, hps⟩
        intro hpe
        rw [hpe] at hps
        exact absurd hps (by decide)
    have hsne : sch ≠ "" := by
      rcases hnz with h0 | h0
      · exact h0
      · exact absurd hnl0 h0
    rcases hsch with h0 | ⟨hs1, hs2, hs3, hs4, hs5⟩
    · exact absurd h0 hsne
    subst hnl0
    have hw : urlunsplit ⟨sch, "", p, "", ""⟩ = sch ++ ":" ++ p := by
      rw [urlunsplit_noqf, if_pos hsne, if_neg hcond]
    refine ⟨p, ?_, rfl, ?_⟩
    · rw [hw]
      exact urlsplit_eq_ok _ sch p "" p p "" p ""
        (splitScheme_of_scheme sch p hs1 hs2 hs3 hs4 hs5)
        (splitNetloc_of_not2 p hpp) (by decide)
        (splitTail_of_notin '#' p hp1) (splitTail_of_notin '?' p hp2)
    · rw [hw]
      intro hcon
      have hmem : ':' ∈ (sch ++ ":" ++ p).data := by
        rw [sdata_colon]
        exact List.mem_append_right _ (List.mem_cons_self _ _)
      rw [hcon] at hmem
      exact absurd hmem (by decide)

/-- Idempotence of `repo_value`. -/
theorem repo_value_idem (v w : String) (h : repo_value v = .ok w) :
    repo_value w = .ok w := by
  rw [repo_value] at h
  by_cases hv : v = "^"
  · rw [if_pos hv] at h
    rw [Except.ok.injEq] at h
    subst h
    subst hv
    rfl
  · rw [if_neg hv] at h
    cases hsp : urlsplit v with
    | error e =>
      rw [hsp] at h
      cases h
    | ok tup =>
      rw [hsp] at h
      have h2 : (if tup.scheme ≠ "" ∨ tup.netloc ≠ "" then
          (Except.ok (urlunsplit
            ⟨tup.scheme, tup.netloc, tup.path, "", ""⟩) :
            Except PyErr String)
        else .error (.valueError ("URL " ++ v ++
          " does not contain a scheme nor a hostname"))) = .ok w := h
      by_cases hc : tup.scheme ≠ "" ∨ tup.netloc ≠ ""
      · rw [if_pos hc] at h2
        rw [Except.ok.injEq] at h2
        obtain ⟨hP1, hP2, hP3, hP4, hP5⟩ := urlsplit_ok_props v tup hsp
        obtain ⟨X, hXsp, hXun, hXhat⟩ :=
          urlunsplit_reparse tup.scheme tup.netloc tup.path
            hP1 hP2 hP3 hP4 hP5 hc
        subst h2
        rw [repo_value, if_neg hXhat, hXsp]
        show (if tup.scheme ≠ "" ∨ tup.netloc ≠ "" then
            (Except.ok (urlunsplit
              ⟨tup.scheme, tup.netloc, X, "", ""⟩) : Except PyErr String)
          else .error (.valueError ("URL " ++
            urlunsplit ⟨tup.scheme, tup.netloc, tup.path, "", ""⟩ ++
            " does not contain a scheme nor a hostname"))) =
          .ok (urlunsplit ⟨tup.scheme, tup.netloc, tup.path, "", ""⟩)
        rw [if_pos hc, hXun]
      · rw [if_neg hc] at h2
        cases h2

/-- A string of the form `/x/` starts with a slash. -/
theorem startsWith_slash (x : String) :
    pyStartsWith "/" ("/" ++ x ++ "/") = true := by
  simp [pyStartsWith, sdata_append, isPref]

/-- A string of the form `/x/` ends with a slash. -/
theorem endsWith_slash (x : String) :
    pyEndsWith '/' ("/" ++ x ++ "/") = true := by
  have h1 : ("/" ++ x ++ "/").data = ('/' :: x.data) ++ ['/'] := rfl
  rw [pyEndsWith, h1, List.getLast?_concat]
  simp

/-- The normalised prefix written by the splitter starts and ends with a
slash. -/
theorem normPfx_bounds (p : String) :
    pyStartsWith "/"
      (if p = "" then "/" else "/" ++ pyStrip ['/'] p ++ "/") = true ∧
    pyEndsWith '/'
      (if p = "" then "/" else "/" ++ pyStrip ['/'] p ++ "/") = true := by
  by_cases hp : p = ""
  · rw [if_pos hp]; exact ⟨rfl, rfl⟩
  · rw [if_neg hp]
    exact ⟨startsWith_slash _, endsWith_slash _⟩

/-- Shape of the prefix produced by `split_rest` when any of the project,
branch and suffix fields is truthy: it is a string starting and ending with
a slash. -/
theorem split_rest_pfx_bounds (repo rest : String) (t : SplitSubversionURL)
    (h : split_rest repo rest = .ok t)
    (htr : t.project.truthy = true ∨ t.branch.truthy = true ∨
      t.suffix.truthy = true) :
    ∃ f, t.pfx = .vstr f ∧ pyStartsWith "/" f = true ∧
      pyEndsWith '/' f = true := by
  simp only [split_rest] at h
  split at h
  · cases h
  case _ url2 peg _ =>
    cases hfb : find_branch_span (pySplit '/' url2) with
    | none =>
      rw [hfb] at h
      simp only [Except.ok.injEq] at h
      subst h
      simp only [PyVal.truthy] at htr
      have hcond : pyGet (pySplit '/' url2) (-1) ≠ "" := by
        rcases htr with htr | htr | htr
        · simpa using htr
        · simp at htr
        · simp at htr
      have hc2 : pyGet (pySplit '/' url2) (-1) ≠ "" ∨
          PyVal.vnone.truthy = true ∨ PyVal.vnone.truthy = true :=
        Or.inl hcond
      rw [if_pos hc2]
      exact ⟨_, rfl, (normPfx_bounds _).1, (normPfx_bounds _).2⟩
    | some ij =>
      obtain ⟨i, j⟩ := ij
      rw [hfb] at h
      simp only [Except.ok.injEq] at h
      subst h
      simp only [PyVal.truthy] at htr
      have hc2 : pyGet (pySplit '/' url2) ((i : Int) - 1) ≠ "" ∨
          (PyVal.vstr (pyJoin '/'
            (pySlice (pySplit '/' url2) i j))).truthy = true ∨
          (PyVal.vstr (pyJoin '/'
            ((pySplit '/' url2).drop j))).truthy = true := by
        rcases htr with htr | htr | htr
        · exact Or.inl (by simpa using htr)
        · exact Or.inr (Or.inl (by simp [PyVal.truthy]; simpa using htr))
        · exact Or.inr (Or.inr (by simp [PyVal.truthy]; simpa using htr))
      rw [if_pos hc2]
      exact ⟨_, rfl, (normPfx_bounds _).1, (normPfx_bounds _).2⟩

/-- C6, amended.  For every accepted URL whose project, branch or suffix
field is truthy, the prefix field is a string that starts and ends with `/`
(interior segments may be empty, and `//` itself can occur; with an entirely
falsy tail the prefix is returned as computed and may lack its slashes, as
the counterexample shows). -/
theorem C6_prefix_bounded :
    ∀ url b a t, split_svn_url url b a = .ok t →
      (t.project.truthy = true ∨ t.branch.truthy = true ∨
        t.suffix.truthy = true) →
      ∃ f, t.pfx = .vstr f ∧ pyStartsWith "/" f = true ∧
        pyEndsWith '/' f = true := by
  intro url b a t h htr
  rw [split_svn_url] at h
  cases hr : repo_and_path url b a with
  | error e => rw [hr] at h; cases h
  | ok rp =>
    obtain ⟨repo, rest⟩ := rp
    rw [hr] at h
    exact split_rest_pfx_bounds repo rest t h htr

/-- C6, witness for the amended theorem. -/
theorem C6_prefix_bounded_witness :
    split_svn_url "^/my.project/trunk/setup.py" none true =
      .ok ⟨.vstr "^", .vstr "/", .vstr "my.project", .vstr "trunk",
        .vstr "setup.py", .vnone⟩ ∧
    ∃ f, (PyVal.vstr "/") = .vstr f ∧ pyStartsWith "/" f = true ∧
      pyEndsWith '/' f = true :=
  ⟨rfl, C6_prefix_bounded "^/my.project/trunk/setup.py" none true
    ⟨.vstr "^", .vstr "/", .vstr "my.project", .vstr "trunk",
      .vstr "setup.py", .vnone⟩ rfl (Or.inl rfl)⟩

/-- C4, witness: the two concrete calls of the claim on a concrete URL,
and the general part instantiated with those edits. -/
theorem C4_conflict_detection_witness :
    change_svn_url "^/my.project/trunk/setup.py"
        [("branch", .vstr "feature1"), ("trunk", .vbool true)] none true =
      .error (.typeError "Both branch and trunk target index 3") ∧
    change_svn_url "^/my.project/trunk/setup.py"
        [("branch", .vstr "v2"), ("trunk", .vint 0), ("tags", .vnone),
          ("branches", .vstr "")] none true =
      .ok "^/my.project/branches/v2/setup.py" ∧
    change_svn_url "^/my.project/trunk/setup.py"
        [("branch", .vstr "v2"), ("trunk", .vint 0)] none true =
      .ok "^/my.project/branches/v2/setup.py" := by
  refine ⟨C4_conflict_detection.1 "^/my.project/trunk/setup.py" _ rfl,
    ?_, ?_⟩
  · rw [C4_conflict_detection.2.1 "^/my.project/trunk/setup.py"
      ⟨.vstr "^", .vstr "/", .vstr "my.project", .vstr "trunk",
        .vstr "setup.py", .vnone⟩ rfl]
    rfl
  · rw [(C4_conflict_detection.2.2 "^/my.project/trunk/setup.py"
      ⟨.vstr "^", .vstr "/", .vstr "my.project", .vstr "trunk",
        .vstr "setup.py", .vnone⟩
      [("branch", .vstr "v2"), ("trunk", .vint 0)] rfl
      (by intro kv hkv; fin_cases hkv <;> rfl)
      (by
        intro kv hkv
        fin_cases hkv
        · exact ⟨_, .vstr "branches/v2", rfl, rfl⟩
        · exact ⟨_, .vstr "", rfl, rfl⟩)
      (by decide)).2 ("branch", .vstr "v2") (by simp) rfl _
      (.vstr "branches/v2") rfl rfl]
    rfl

/-! ### Round-trip reconstruction: segment-level helpers -/

/-- Appending the empty string on the left is the identity. -/
theorem sempty_append (a : String) : "" ++ a = a := by
  rw [sext, sdata_append]
  rfl

/-- Appending the empty string on the right is the identity. -/
theorem sappend_empty (a : String) : a ++ "" = a := by
  rw [sext, sdata_append]
  simp

/-- Unfolding the data of an at-sign concatenation. -/
theorem sdata_at (a b : String) :
    (a ++ "@" ++ b).data = a.data ++ '@' :: b.data := by
  rw [sdata_append, sdata_append, List.append_assoc]
  rfl

/-- The first-occurrence index of an element after a clean prefix. -/
theorem pyIndex_append (x : String) (a c : List String) (h : x ∉ a) :
    pyIndex x (a ++ x :: c) = a.length := by
  induction a with
  | nil => simp [pyIndex]
  | cons y ys ih =>
    rw [List.cons_append, pyIndex]
    rw [if_neg (fun hcon => h (mem_cons_of_eq y x ys hcon))]
    rw [ih (fun hcon => h (List.mem_cons_of_mem _ hcon))]
    rfl

/-- Join of an append of non-empty piece lists. -/
theorem joinC_append (sep : Char) (a b : List (List Char))
    (ha : a ≠ []) (hb : b ≠ []) :
    joinC sep (a ++ b) = joinC sep a ++ sep :: joinC sep b := by
  induction a with
  | nil => exact absurd rfl ha
  | cons x xs ih =>
    cases xs with
    | nil =>
      cases b with
      | nil => exact absurd rfl hb
      | cons y ys => rfl
    | cons z zs =>
      show x ++ sep :: joinC sep ((z :: zs) ++ b) =
        (x ++ sep :: joinC sep (z :: zs)) ++ sep :: joinC sep b
      rw [ih (by simp)]
      simp

/-- Join of a single string. -/
theorem pyJoin_single (x : String) : pyJoin '/' [x] = x :=
  smk_data x

/-- Join of an append of non-empty string lists. -/
theorem pyJoin_append (a b : List String) (ha : a ≠ []) (hb : b ≠ []) :
    pyJoin '/' (a ++ b) = pyJoin '/' a ++ "/" ++ pyJoin '/' b := by
  rw [sext, sdata_append, sdata_append]
  show joinC '/' ((a ++ b).map String.data) =
    joinC '/' (a.map String.data) ++ "/".data ++
      joinC '/' (b.map String.data)
  rw [List.map_append, joinC_append '/' _ _ (by simpa using ha)
    (by simpa using hb)]
  simp

/-- Join of a cons with a non-empty tail. -/
theorem pyJoin_cons (x : String) (rest : List String) (hr : rest ≠ []) :
    pyJoin '/' (x :: rest) = x ++ "/" ++ pyJoin '/' rest := by
  have h := pyJoin_append [x] rest (by simp) hr
  rw [List.singleton_append] at h
  rw [h, pyJoin_single]

/-- Join of a slash-split recovers the string. -/
theorem pyJoin_pySplit (s : String) : pyJoin '/' (pySplit '/' s) = s := by
  rw [pyJoin, pySplit, List.map_map]
  have h : (splitC '/' s.data).map (String.data ∘ String.mk) =
      splitC '/' s.data := List.map_id _
  rw [h, joinC_splitC, smk_data]

/-- Splitting an unsplit segment list with one appended empty segment. -/
theorem pyJoin_close (xs : List String) :
    pyJoin '/' ([""] ++ (xs ++ [""])) = pyJoin '/' ([""] ++ xs) ++ "/" := by
  rw [show ([""] ++ (xs ++ [""]) : List String) = ([""] ++ xs) ++ [""]
    by simp]
  rw [pyJoin_append ([""] ++ xs) [""] (by simp) (by simp), pyJoin_single,
    sappend_empty]

/-- Join with one appended non-empty segment. -/
theorem pyJoin_snoc (xs : List String) (y : String) :
    pyJoin '/' ([""] ++ (xs ++ [y])) =
      pyJoin '/' ([""] ++ xs) ++ "/" ++ y := by
  rw [show ([""] ++ (xs ++ [y]) : List String) = ([""] ++ xs) ++ [y]
    by simp]
  rw [pyJoin_append ([""] ++ xs) [y] (by simp) (by simp), pyJoin_single]

/-- A present character makes `pyContains` true. -/
theorem pyContains_eq_true (c : Char) (s : String) (h : c ∈ s.data) :
    pyContains c s = true := by
  rw [pyContains, List.any_eq_true]
  exact ⟨c, h, by simp⟩

/-- Stripping slashes from a string with exactly one leading slash. -/
theorem strip_slash_head (x : String)
    (h1 : ∀ c, x.data.head? = some c → c ≠ '/')
    (h2 : ∀ c, x.data.getLast? = some c → c ≠ '/') :
    pyStrip ['/'] ("/" ++ x) = x := by
  rw [pyStrip]
  have hd : ("/" ++ x).data = '/' :: x.data := rfl
  rw [hd]
  have hstep1 : ('/' :: x.data).dropWhile (· ∈ (['/'] : List Char)) =
      x.data := by
    rw [List.dropWhile_cons, if_pos (by simp)]
    exact dropWhile_of_head _ _ (fun y hy => by
      simp only [decide_eq_false_iff_not]
      intro hcon
      rcases List.mem_singleton.mp hcon with rfl
      exact h1 '/' hy rfl)
  rw [hstep1]
  have hstep2 : x.data.reverse.dropWhile (· ∈ (['/'] : List Char)) =
      x.data.reverse := by
    apply dropWhile_of_head
    intro y hy
    rw [List.head?_reverse] at hy
    simp only [decide_eq_false_iff_not]
    intro hcon
    rcases List.mem_singleton.mp hcon with rfl
    exact h2 '/' hy rfl
  rw [hstep2, List.reverse_reverse, smk_data]

/-- The last character of an append with a non-empty right part. -/
theorem getLast?_sappend (u y : String) (hy : y.data ≠ []) :
    (u ++ y).data.getLast? = y.data.getLast? := by
  rcases List.eq_nil_or_concat y.data with h | ⟨L, z, hLz⟩
  · exact absurd h hy
  · rw [sdata_append, hLz, List.concat_eq_append, ← List.append_assoc,
      List.getLast?_concat, List.getLast?_concat]

/-- The last character of a join ending in a non-empty piece. -/
theorem getLast?_pyJoin (ys : List String) (y : String)
    (hy : y.data ≠ []) :
    (pyJoin '/' (ys ++ [y])).data.getLast? = y.data.getLast? := by
  cases ys with
  | nil =>
    rw [List.nil_append, pyJoin_single]
  | cons z zs =>
    rw [pyJoin_append (z :: zs) [y] (by simp) (by simp), pyJoin_single]
    exact getLast?_sappend _ y hy

/-- A non-empty string value is truthy. -/
theorem truthy_vstr_true (s : String) (h : s ≠ "") :
    (PyVal.vstr s).truthy = true := by
  simp [PyVal.truthy, h]

/-- The prefix normalisation concatenated with the project segment
reconstructs the joined front of the segment list: splitting interprets
the last front segment as the project and the rest as the prefix, and
re-normalising restores the full front. -/
theorem front_reconstruct (gs : List String)
    (hgs : ∀ x ∈ gs, x ≠ "" ∧ '/' ∉ x.data) :
    (if pyJoin '/' (([""] ++ gs).take gs.length) = "" then "/"
     else "/" ++ pyStrip ['/']
       (pyJoin '/' (([""] ++ gs).take gs.length)) ++ "/") ++
    (if ([""] ++ gs).getD gs.length "" ≠ ""
     then ([""] ++ gs).getD gs.length "" ++ "/" else "") =
    pyJoin '/' ([""] ++ gs) ++ "/" := by
  rcases List.eq_nil_or_concat gs with rfl | ⟨ys, y, rfl⟩
  · decide
  · simp only [List.concat_eq_append] at hgs ⊢
    have hy := hgs y (by simp)
    have htake : ([""] ++ (ys ++ [y])).take (ys ++ [y]).length =
        [""] ++ ys := by
      rw [← List.append_assoc]
      exact List.take_left' (by simp)
    have hget : ([""] ++ (ys ++ [y])).getD (ys ++ [y]).length "" = y := by
      rw [← List.append_assoc]
      rw [List.getD_append_right _ _ _ _ (by simp)]
      simp
    rw [htake, hget, if_pos hy.1, pyJoin_snoc ys y]
    cases ys with
    | nil =>
      simp only [List.append_nil]
      rw [pyJoin_single "", if_pos rfl]
      rw [sext]
      simp [sdata_append]
    | cons z zs =>
      have hzs : ([""] ++ z :: zs : List String) = "" :: z :: zs := rfl
      have hjoin : pyJoin '/' ([""] ++ z :: zs) =
          "/" ++ pyJoin '/' (z :: zs) := by
        rw [hzs, pyJoin_cons "" (z :: zs) (by simp), sempty_append]
      have hzne : z.data ≠ [] := by
        intro hcon
        exact (hgs z (by simp)).1 (sext.mpr hcon)
      have hhead : ∀ c, (pyJoin '/' (z :: zs)).data.head? = some c →
          c ≠ '/' := by
        intro c hc
        rw [head?_pyJoin z zs hzne] at hc
        intro hcon
        subst hcon
        obtain ⟨d, t, hd⟩ : ∃ d t, z.data = d :: t := by
          cases hdz : z.data with
          | nil => exact absurd hdz hzne
          | cons d t => exact ⟨d, t, rfl⟩
        rw [hd, List.head?_cons, Option.some.injEq] at hc
        have hmem : ('/' : Char) ∈ z.data := by
          rw [hd, ← hc]
          exact List.mem_cons_self _ _
        exact (hgs z (by simp)).2 hmem
      have hlast : ∀ c, (pyJoin '/' (z :: zs)).data.getLast? = some c →
          c ≠ '/' := by
        intro c hc
        rcases List.eq_nil_or_concat (z :: zs) with h0 | ⟨ws, w, hw⟩
        · cases h0
        · rw [List.concat_eq_append] at hw
          have hwmem : w ∈ z :: zs := by
            rw [hw]
            simp
          have hmem2 : w ∈ z :: zs ++ [y] := by
            rcases List.mem_cons.mp hwmem with h5 | h5
            · rw [h5]
              exact List.mem_cons_self _ _
            · exact List.mem_cons_of_mem _ (List.mem_append_left _ h5)
          have hwne : w.data ≠ [] := by
            intro hcon
            exact (hgs w hmem2).1 (sext.mpr hcon)
          rw [hw, getLast?_pyJoin ws w hwne] at hc
          intro hcon
          subst hcon
          exact (hgs w hmem2).2 (mem_of_getLast?_eq hc)
      have hne : "/" ++ pyJoin '/' (z :: zs) ≠ "" := by
        intro hcon
        have h2 := congrArg String.data hcon
        rw [sdata_append] at h2
        simp at h2
      rw [hjoin, if_neg hne,
        strip_slash_head (pyJoin '/' (z :: zs)) hhead hlast]
      rw [sext]
      simp [sdata_append]

/-- The peg checker accepts the decimal rendering of a positive peg. -/
theorem peg_value_intRepr (n : Int) (hn : 1 ≤ n) :
    peg_value (.vstr (intRepr n)) = .ok (.vint n) := by
  rw [peg_value]
  rw [if_neg (by
    rintro (hcon | hcon)
    · cases hcon
    · rw [PyVal.vstr.injEq] at hcon
      exact intRepr_ne_empty n hn hcon)]
  simp only [PyVal.toIntPy?, pyInt?_intRepr n hn]
  rw [if_neg (by omega : ¬ n ≤ 0)]

/-- Unfolding `split_rest` when the peg stage and the keyword scan are
known. -/
theorem split_rest_eq (repo url url2 : String) (g : PyVal) (i j : Nat)
    (hpeg : (if pyContains '@' url then
        match pySplit1 '@' url with
        | (u1, p1) =>
          match peg_value (.vstr (p1.getD "")) with
          | .ok pv => (.ok (u1, pv) : Except PyErr (String × PyVal))
          | .error e => .error e
      else .ok (url, .vnone)) = .ok (url2, g))
    (hfb : find_branch_span (pySplit '/' url2) = some (i, j)) :
    split_rest repo url = .ok ⟨.vstr repo,
      .vstr (if pyGet (pySplit '/' url2) ((i : Int) - 1) ≠ "" ∨
          (PyVal.vstr (pyJoin '/' (pySlice (pySplit '/' url2) i j))).truthy ∨
          (PyVal.vstr (pyJoin '/' ((pySplit '/' url2).drop j))).truthy then
        (if pyJoin '/' (pySliceTo (pySplit '/' url2) ((i : Int) - 1)) = ""
         then "/"
         else "/" ++ pyStrip ['/']
           (pyJoin '/' (pySliceTo (pySplit '/' url2) ((i : Int) - 1))) ++
           "/")
      else pyJoin '/' (pySliceTo (pySplit '/' url2) ((i : Int) - 1))),
      .vstr (pyGet (pySplit '/' url2) ((i : Int) - 1)),
      .vstr (pyJoin '/' (pySlice (pySplit '/' url2) i j)),
      .vstr (pyJoin '/' ((pySplit '/' url2).drop j)), g⟩ := by
  simp only [split_rest, hpeg, hfb]

/-- The conditional project concatenation of the unsplitter, rewritten
with the condition on the string itself. -/
theorem append_if_truthy (s1 x : String) :
    (if (PyVal.vstr x).truthy = true then s1 ++ x ++ "/" else s1) =
      s1 ++ (if x ≠ "" then x ++ "/" else "") := by
  by_cases hx : x = ""
  · subst hx
    rw [if_neg (by decide), if_neg (by simp), sappend_empty]
  · rw [if_pos (truthy_vstr_true x hx), if_pos hx, sext]
    simp [sdata_append]

/-- The conditional suffix concatenation of the unsplitter is a plain
concatenation. -/
theorem append_if_truthy2 (s3 x : String) :
    (if (PyVal.vstr x).truthy = true then s3 ++ x else s3) = s3 ++ x := by
  by_cases hx : x = ""
  · subst hx
    rw [if_neg (by decide), sappend_empty]
  · rw [if_pos (truthy_vstr_true x hx)]

/-- The conditional peg concatenation of the unsplitter, factored to the
right. -/
theorem append_if_peg (s4 : String) (g : PyVal) :
    (if g.truthy = true then s4 ++ "@" ++ g.pyStrOf else s4) =
      s4 ++ (if g.truthy = true then "@" ++ g.pyStrOf else "") := by
  by_cases hg : g.truthy = true
  · rw [if_pos hg, if_pos hg, sext]
    simp [sdata_append]
  · rw [if_neg hg, if_neg hg, sappend_empty]

/-- The normalised prefix is never empty. -/
theorem pfxif_ne (C : Prop) [Decidable C] (x : String) :
    (if C then "/" else "/" ++ x ++ "/") ≠ "" := by
  split
  · decide
  · intro hcon
    have h2 := congrArg String.data hcon
    rw [sdata_append, sdata_append] at h2
    simp at h2

/-- Core reconstruction through `split_rest`: splitting the slash-join of
an empty first segment, clean front segments, the branch segments and a
suffix block, followed by an optional peg, yields a tuple whose unsplit
form is the original string. -/
theorem split_rest_reconstruct_core (repo : String) (hrepo : repo ≠ "")
    (gs : List String)
    (hgs : ∀ x ∈ gs, x ≠ "" ∧ '/' ∉ x.data ∧ '@' ∉ x.data)
    (b : String) (hbne : b ≠ "")
    (bsegs : List String) (hbsne : bsegs ≠ [])
    (hbsfacts : ∀ x ∈ bsegs, '/' ∉ x.data ∧ '@' ∉ x.data)
    (hbj : pyJoin '/' bsegs = b)
    (S : List String)
    (hS : S = [""] ∨ (S ≠ [] ∧ ∀ x ∈ S, '/' ∉ x.data ∧ '@' ∉ x.data))
    (g : PyVal) (hg : validPeg g = true)
    (hfbspan : find_branch_span ([""] ++ gs ++ bsegs ++ S) =
      some (gs.length + 1, gs.length + 1 + bsegs.length)) :
    ∃ t2 : SplitSubversionURL,
      split_rest repo (pyJoin '/' ([""] ++ gs ++ bsegs ++ S) ++
        (if g.truthy then "@" ++ g.pyStrOf else "")) = .ok t2 ∧
      unsplit_svn_url t2 =
        repo ++ pyJoin '/' ([""] ++ gs ++ bsegs ++ S) ++
        (if g.truthy then "@" ++ g.pyStrOf else "") := by
  have hSne : S ≠ [] := by
    rcases hS with rfl | ⟨h, _⟩
    · simp
    · exact h
  have hSfacts : ∀ x ∈ S, '/' ∉ x.data ∧ '@' ∉ x.data := by
    rcases hS with rfl | ⟨_, h⟩
    · intro x hx
      rcases List.mem_singleton.mp hx with rfl
      constructor <;> intro hcon <;> cases hcon
    · exact h
  have hLslash : ∀ p ∈ [""] ++ gs ++ bsegs ++ S, '/' ∉ p.data := by
    intro p hp
    simp only [List.mem_append, List.mem_singleton] at hp
    rcases hp with ((rfl | hp) | hp) | hp
    · intro hcon
      cases hcon
    · exact (hgs p hp).2.1
    · exact (hbsfacts p hp).1
    · exact (hSfacts p hp).1
  have hnoat : '@' ∉ (pyJoin '/' ([""] ++ gs ++ bsegs ++ S)).data := by
    intro hcon
    have hcon2 : '@' ∈ joinC '/'
        (([""] ++ gs ++ bsegs ++ S).map String.data) := hcon
    rcases mem_joinC '/' _ '@' hcon2 with ⟨pd, hpd, hcp⟩ | hsep
    · rcases List.mem_map.mp hpd with ⟨x, hx, rfl⟩
      simp only [List.mem_append, List.mem_singleton] at hx
      rcases hx with ((rfl | hx) | hx) | hx
      · cases hcp
      · exact (hgs x hx).2.2 hcp
      · exact (hbsfacts x hx).2 hcp
      · exact (hSfacts x hx).2 hcp
    · cases hsep
  have hliz := pySplit_pyJoin ([""] ++ gs ++ bsegs ++ S) (by simp) hLslash
  have hidxslice : pySliceTo ([""] ++ gs ++ bsegs ++ S)
      (((gs.length + 1 : Nat) : Int) - 1) = ([""] ++ gs).take gs.length := by
    rw [pySliceTo, if_neg (by omega)]
    rw [show ((((gs.length + 1 : Nat) : Int)) - 1).toNat = gs.length
      by omega]
    rw [show ([""] ++ gs ++ bsegs ++ S : List String) =
      ([""] ++ gs) ++ (bsegs ++ S) by simp]
    exact List.take_append_of_le_length (by simp)
  have hget2 : pyGet ([""] ++ gs ++ bsegs ++ S)
      (((gs.length + 1 : Nat) : Int) - 1) =
      ([""] ++ gs).getD gs.length "" := by
    rw [pyGet, if_neg (by omega)]
    rw [show ((((gs.length + 1 : Nat) : Int)) - 1).toNat = gs.length
      by omega]
    rw [show ([""] ++ gs ++ bsegs ++ S : List String) =
      ([""] ++ gs) ++ (bsegs ++ S) by simp]
    exact List.getD_append _ _ _ _ (by simp)
  have hslice : pySlice ([""] ++ gs ++ bsegs ++ S) (gs.length + 1)
      (gs.length + 1 + bsegs.length) = bsegs := by
    rw [pySlice]
    rw [show ([""] ++ gs ++ bsegs ++ S : List String) =
      ([""] ++ gs) ++ (bsegs ++ S) by simp]
    rw [List.drop_left' (show ([""] ++ gs).length = gs.length + 1
      by simp [Nat.add_comm])]
    rw [show gs.length + 1 + bsegs.length - (gs.length + 1) = bsegs.length
      by omega]
    exact List.take_left' rfl
  have hdropj : ([""] ++ gs ++ bsegs ++ S).drop
      (gs.length + 1 + bsegs.length) = S := by
    rw [show ([""] ++ gs ++ bsegs ++ S : List String) =
      (([""] ++ gs) ++ bsegs) ++ S by simp]
    refine List.drop_left' ?_
    simp only [List.length_append, List.length_cons, List.length_nil]
    omega
  have hcore : pyJoin '/' ([""] ++ gs ++ bsegs ++ S) =
      pyJoin '/' ([""] ++ gs) ++ "/" ++ (b ++ "/" ++ pyJoin '/' S) := by
    rw [show ([""] ++ gs ++ bsegs ++ S : List String) =
      ([""] ++ gs) ++ (bsegs ++ S) by simp]
    rw [pyJoin_append ([""] ++ gs) (bsegs ++ S) (by simp)
      (by simp [hbsne])]
    rw [pyJoin_append bsegs S hbsne hSne, hbj]
  have FR := front_reconstruct gs
    (fun x hx => ⟨(hgs x hx).1, (hgs x hx).2.1⟩)
  have key : repo ++
      (if pyJoin '/' (([""] ++ gs).take gs.length) = "" then "/"
       else "/" ++ pyStrip ['/']
         (pyJoin '/' (([""] ++ gs).take gs.length)) ++ "/") ++
      (if ([""] ++ gs).getD gs.length "" ≠ ""
       then ([""] ++ gs).getD gs.length "" ++ "/" else "") ++ b ++ "/" ++
      pyJoin '/' S =
      repo ++ pyJoin '/' ([""] ++ gs ++ bsegs ++ S) := by
    rw [hcore, ← FR, sext]
    simp [sdata_append]
  have hORcond : ([""] ++ gs).getD gs.length "" ≠ "" ∨
      (PyVal.vstr b).truthy = true ∨
      (PyVal.vstr (pyJoin '/' S)).truthy = true :=
    Or.inr (Or.inl (truthy_vstr_true b hbne))
  cases g with
  | vbool bo =>
    exact absurd (show (false : Bool) = true from hg) (by decide)
  | vstr s =>
    exact absurd (show (false : Bool) = true from hg) (by decide)
  | vnone =>
    have hpc : pyContains '@'
        (pyJoin '/' ([""] ++ gs ++ bsegs ++ S)) = false :=
      pyContains_eq_false _ _ hnoat
    have hpeg : (if pyContains '@' (pyJoin '/' ([""] ++ gs ++ bsegs ++ S))
        then
          match pySplit1 '@' (pyJoin '/' ([""] ++ gs ++ bsegs ++ S)) with
          | (u1, p1) =>
            match peg_value (.vstr (p1.getD "")) with
            | .ok pv => (.ok (u1, pv) : Except PyErr (String × PyVal))
            | .error e => .error e
        else .ok (pyJoin '/' ([""] ++ gs ++ bsegs ++ S), .vnone)) =
        .ok (pyJoin '/' ([""] ++ gs ++ bsegs ++ S), .vnone) := by
      rw [if_neg (by rw [hpc]; simp)]
    have hurl : pyJoin '/' ([""] ++ gs ++ bsegs ++ S) ++
        (if (PyVal.vnone).truthy then "@" ++ PyVal.pyStrOf .vnone
         else "") = pyJoin '/' ([""] ++ gs ++ bsegs ++ S) := by
      show pyJoin '/' ([""] ++ gs ++ bsegs ++ S) ++ "" = _
      exact sappend_empty _
    rw [hurl]
    refine ⟨_, split_rest_eq repo _ _ .vnone (gs.length + 1)
      (gs.length + 1 + bsegs.length) hpeg (by rw [hliz]; exact hfbspan),
      ?_⟩
    · rw [hliz, hidxslice, hget2, hslice, hbj, hdropj, if_pos hORcond]
      rw [if_neg (show ¬ (PyVal.vnone).truthy = true by decide),
        sappend_empty]
      simp only [unsplit_svn_url, PyVal.asStr]
      rw [if_neg (show ¬ (PyVal.vnone).truthy = true by decide)]
      rw [append_if_truthy2, if_pos (truthy_vstr_true b hbne),
        append_if_truthy, if_pos (truthy_vstr_true repo hrepo),
        if_pos (truthy_vstr_true _ (pfxif_ne _ _))]
      exact key
  | vint n =>
    have hn : (1 : Int) ≤ n := of_decide_eq_true hg
    have htr : (PyVal.vint n).truthy = true := by
      simp only [PyVal.truthy]
      simp only [decide_eq_true_eq]
      omega
    have hud : (pyJoin '/' ([""] ++ gs ++ bsegs ++ S) ++
        ("@" ++ intRepr n)).data =
        (pyJoin '/' ([""] ++ gs ++ bsegs ++ S)).data ++
          '@' :: (intRepr n).data := rfl
    have hpc : pyContains '@' (pyJoin '/' ([""] ++ gs ++ bsegs ++ S) ++
        ("@" ++ intRepr n)) = true := by
      apply pyContains_eq_true
      rw [hud]
      exact List.mem_append_right _ (List.mem_cons_self _ _)
    have hsplit1 : pySplit1 '@' (pyJoin '/' ([""] ++ gs ++ bsegs ++ S) ++
        ("@" ++ intRepr n)) =
        (pyJoin '/' ([""] ++ gs ++ bsegs ++ S), some (intRepr n)) := by
      rw [pySplit1, hud]
      simp only [splitFirstC_append '@' _ _ hnoat]
      rw [Option.map_some', smk_data, smk_data]
    have hpeg : (if pyContains '@' (pyJoin '/' ([""] ++ gs ++ bsegs ++ S)
        ++ ("@" ++ intRepr n)) then
          match pySplit1 '@' (pyJoin '/' ([""] ++ gs ++ bsegs ++ S) ++
            ("@" ++ intRepr n)) with
          | (u1, p1) =>
            match peg_value (.vstr (p1.getD "")) with
            | .ok pv => (.ok (u1, pv) : Except PyErr (String × PyVal))
            | .error e => .error e
        else .ok (pyJoin '/' ([""] ++ gs ++ bsegs ++ S) ++
          ("@" ++ intRepr n), .vnone)) =
        .ok (pyJoin '/' ([""] ++ gs ++ bsegs ++ S), .vint n) := by
      rw [if_pos hpc]
      simp only [hsplit1, Option.getD_some, peg_value_intRepr n hn]
    have hurl : pyJoin '/' ([""] ++ gs ++ bsegs ++ S) ++
        (if (PyVal.vint n).truthy then "@" ++ PyVal.pyStrOf (.vint n)
         else "") = pyJoin '/' ([""] ++ gs ++ bsegs ++ S) ++
        ("@" ++ intRepr n) := by
      rw [if_pos htr]
      rfl
    rw [hurl]
    refine ⟨_, split_rest_eq repo _ _ (.vint n) (gs.length + 1)
      (gs.length + 1 + bsegs.length) hpeg (by rw [hliz]; exact hfbspan),
      ?_⟩
    · rw [hliz, hidxslice, hget2, hslice, hbj, hdropj, if_pos hORcond]
      simp only [unsplit_svn_url, PyVal.asStr]
      rw [if_pos htr]
      rw [append_if_truthy2, if_pos (truthy_vstr_true b hbne),
        append_if_truthy, if_pos (truthy_vstr_true repo hrepo),
        if_pos (truthy_vstr_true _ (pfxif_ne _ _))]
      rw [show PyVal.pyStrOf (.vint n) = intRepr n from rfl, ← key, sext]
      simp [sdata_append]
      rw [if_pos htr]
      rfl

/-- Characters of a string passing the character check avoid the bad
characters. -/
theorem charsOK_spec (s : String) (h : charsOK s = true) :
    ∀ c ∈ s.data, c ∉ badChars := by
  intro c hc
  have h2 := List.all_eq_true.mp h c hc
  simpa using h2

/-- Segments of a reserved-free string are not reserved names. -/
theorem reservedFreeSegs_spec (s : String) (h : reservedFreeSegs s = true) :
    ∀ x ∈ pySplit '/' s, x ∉ reserved_names := by
  intro x hx
  have h2 := List.all_eq_true.mp h x hx
  simpa using h2

/-- A double-slash boolean prefix forces the first two characters. -/
theorem isPref2_cases (rl : List Char) (h : isPref ['/', '/'] rl = true) :
    rl = '/' :: '/' :: rl.drop 2 := by
  cases rl with
  | nil => exact absurd h (by decide)
  | cons a rl2 =>
    cases rl2 with
    | nil =>
      have h2 : (decide (('/' : Char) = a) && isPref ['/'] []) = true := h
      rw [show isPref ['/'] [] = false from rfl, Bool.and_false] at h2
      cases h2
    | cons a2 rl3 =>
      have h2 : (decide (('/' : Char) = a) &&
          (decide (('/' : Char) = a2) && isPref [] rl3)) = true := h
      rcases (Bool.and_eq_true _ _ ▸ h2 : _ ∧ _) with ⟨ha, h3⟩
      rcases (Bool.and_eq_true _ _ ▸ h3 : _ ∧ _) with ⟨ha2, _⟩
      have ha' : a = '/' := (of_decide_eq_true ha).symm
      have ha2' : a2 = '/' := (of_decide_eq_true ha2).symm
      subst ha'
      subst ha2'
      rfl

/-- The rendered peg part contains only the at sign and digits. -/
theorem peg_str_clean (g : PyVal) (hg : validPeg g = true) (c : Char)
    (hc : c.isDigit = false) (hat : c ≠ '@') :
    c ∉ ((if g.truthy then "@" ++ g.pyStrOf else "") : String).data := by
  cases g with
  | vbool bo =>
    exact absurd (show (false : Bool) = true from hg) (by decide)
  | vstr s =>
    exact absurd (show (false : Bool) = true from hg) (by decide)
  | vnone =>
    show c ∉ ("" : String).data
    intro hcon
    cases hcon
  | vint n =>
    have hn : (1 : Int) ≤ n := of_decide_eq_true hg
    have htr : (PyVal.vint n).truthy = true := by
      simp only [PyVal.truthy]
      simp only [decide_eq_true_eq]
      omega
    rw [if_pos htr]
    intro hcon
    have hcon2 : c ∈ '@' :: (intRepr n).data := hcon
    rcases List.mem_cons.mp hcon2 with rfl | hcon3
    · exact hat rfl
    · have hdig : ∀ d ∈ (intRepr n).data, d.isDigit = true := by
        intro d hd
        rw [intRepr, if_neg (by omega : ¬ n < 0), natRepr,
          if_neg (by omega : ¬ n.toNat = 0)] at hd
        exact natDigits_isDigit n.toNat d hd
      rw [hdig c hcon3] at hc
      cases hc

/-- The join of segments prefixed with an empty segment starts with a
slash. -/
theorem head_join_empty (xs : List String) (hxs : xs ≠ []) :
    (pyJoin '/' ([""] ++ xs)).data.head? = some '/' := by
  rw [show ([""] ++ xs : List String) = "" :: xs from rfl,
    pyJoin_cons "" xs hxs, sempty_append, sdata_append]
  rfl

/-- Reconstruction through `split_rest` for a non-bare branch part: the
keyword scan anchors exactly on the branch segments, and the split tuple
unsplits back to the original string. -/
theorem split_rest_reconstruct (repo : String) (hrepo : repo ≠ "")
    (gs : List String)
    (hgs : ∀ x ∈ gs, x ≠ "" ∧ '/' ∉ x.data ∧ x ∉ reserved_names ∧
      '@' ∉ x.data)
    (b : String) (hb : nonBareBranch b = true)
    (S : List String)
    (hS : S = [""] ∨ (S ≠ [] ∧ ∀ x ∈ S, x ≠ "" ∧ '/' ∉ x.data ∧
      x ∉ reserved_names ∧ '@' ∉ x.data))
    (g : PyVal) (hg : validPeg g = true) :
    ∃ t2 : SplitSubversionURL,
      split_rest repo (pyJoin '/' ([""] ++ gs ++ pySplit '/' b ++ S) ++
        (if g.truthy then "@" ++ g.pyStrOf else "")) = .ok t2 ∧
      unsplit_svn_url t2 =
        repo ++ pyJoin '/' ([""] ++ gs ++ pySplit '/' b ++ S) ++
        (if g.truthy then "@" ++ g.pyStrOf else "") := by
  have hgsp : ∀ x ∈ gs, x ≠ "" ∧ '/' ∉ x.data ∧ '@' ∉ x.data :=
    fun x hx => ⟨(hgs x hx).1, (hgs x hx).2.1, (hgs x hx).2.2.2⟩
  have hSp : S = [""] ∨ (S ≠ [] ∧ ∀ x ∈ S, '/' ∉ x.data ∧
      '@' ∉ x.data) := by
    rcases hS with rfl | ⟨h1, h2⟩
    · exact Or.inl rfl
    · exact Or.inr ⟨h1, fun x hx => ⟨(h2 x hx).2.1, (h2 x hx).2.2.2⟩⟩
  have hfrontfree : ∀ k : String, k ∈ reserved_names →
      k ∉ ("" :: gs) := by
    intro k hk hcon
    rcases List.mem_cons.mp hcon with h0 | h0
    · subst h0
      exact absurd hk (by decide)
    · exact (hgs k h0).2.2.1 hk
  have hSfree : ∀ k : String, k ∈ reserved_names → k ∉ S := by
    intro k hk hcon
    rcases hS with rfl | ⟨_, hSf⟩
    · rcases List.mem_singleton.mp hcon with rfl
      exact absurd hk (by decide)
    · exact (hSf k hcon).2.2.1 hk
  by_cases htr : b = "trunk"
  · subst htr
    have hbs : pySplit '/' ("trunk" : String) = ["trunk"] := by decide
    rw [hbs]
    have hshape : ([""] ++ gs ++ ["trunk"] ++ S : List String) =
        ("" :: gs) ++ ("trunk" :: S) := by simp
    have hfbspan : find_branch_span ([""] ++ gs ++ ["trunk"] ++ S) =
        some (gs.length + 1, gs.length + 1 + 1) := by
      rw [find_branch_span, if_pos (by simp : ("trunk" : String) ∈
        [""] ++ gs ++ ["trunk"] ++ S)]
      rw [hshape,
        pyIndex_append "trunk" ("" :: gs) S
          (hfrontfree "trunk" (by decide))]
      simp
    exact split_rest_reconstruct_core repo hrepo gs hgsp "trunk"
      (by decide) ["trunk"] (by simp) (by decide) (pyJoin_single _)
      S hSp g hg hfbspan
  · rw [nonBareBranch] at hb
    have hb2 : (match pySplit1 '/' b with
        | (h, some n) => ((h = "branches" || h = "tags") &&
            validBranchName n)
        | _ => false) = true := by
      rcases (Bool.or_eq_true _ _ ▸ hb : _ ∨ _) with h0 | h0
      · exact absurd (of_decide_eq_true h0) htr
      · exact h0
    cases hps : pySplit1 '/' b with
    | mk bh r =>
    rw [hps] at hb2
    cases r with
    | none =>
      exact absurd (show (false : Bool) = true from hb2) (by decide)
    | some bn =>
      have hb3 : ((bh = "branches" || bh = "tags") &&
          validBranchName bn) = true := hb2
      rcases (Bool.and_eq_true _ _ ▸ hb3 : _ ∧ _) with ⟨h3, h4⟩
      have hbh : bh = "branches" ∨ bh = "tags" := by
        rcases (Bool.or_eq_true _ _ ▸ h3 : _ ∨ _) with h5 | h5
        · exact Or.inl (of_decide_eq_true h5)
        · exact Or.inr (of_decide_eq_true h5)
      rw [validBranchName] at h4
      simp only [Bool.and_eq_true, Bool.not_eq_true',
        decide_eq_false_iff_not] at h4
      obtain ⟨⟨⟨hbnne, hbnchars⟩, hbnsl⟩, hbnres⟩ := h4
      have hbhat : '@' ∉ bh.data := by
        rcases hbh with rfl | rfl <;> decide
      have hbnat : '@' ∉ bn.data := fun hc =>
        charsOK_spec bn hbnchars '@' hc (by decide)
      have hbnslash : '/' ∉ bn.data := pyContains_false '/' bn hbnsl
      have hbnfree : ∀ k : String, k ∈ reserved_names → k ≠ bn := by
        intro k hk hcon
        subst hcon
        exact hbnres hk
      cases hsf : splitFirstC '/' b.data with
      | mk A R =>
      have hps2 : (String.mk A, R.map String.mk) = (bh, some bn) := by
        rw [pySplit1, hsf] at hps
        exact hps
      injection hps2 with hA hR
      cases R with
      | none => simp at hR
      | some B =>
        rw [Option.map_some'] at hR
        injection hR with hB
        obtain ⟨hbdata, hAnoslash⟩ := splitFirstC_eq_some '/' b.data A B
          hsf
        have hAd : bh.data = A := by rw [← hA]
        have hBd : bn.data = B := by rw [← hB]
        have hbd2 : b.data = bh.data ++ '/' :: bn.data := by
          rw [hAd, hBd]
          exact hbdata
        have hbhnoslash : '/' ∉ bh.data := by
          rw [hAd]
          exact hAnoslash
        have hbsplit : pySplit '/' b = [bh, bn] := by
          rw [pySplit, hbd2, splitC_append '/' _ _,
            splitC_of_notin '/' bh.data hbhnoslash,
            splitC_of_notin '/' bn.data hbnslash]
          simp [smk_data]
        have hbj : pyJoin '/' [bh, bn] = b := by
          rw [sext]
          show joinC '/' [bh.data, bn.data] = b.data
          rw [hbd2]
          rfl
        have hbsfacts : ∀ x ∈ ([bh, bn] : List String),
            '/' ∉ x.data ∧ '@' ∉ x.data := by
          intro x hx
          rcases List.mem_cons.mp hx with rfl | hx2
          · exact ⟨hbhnoslash, hbhat⟩
          · rcases List.mem_singleton.mp hx2 with rfl
            exact ⟨hbnslash, hbnat⟩
        have hbne2 : b ≠ "" := by
          intro hcon
          have h9 : ([] : List Char) = bh.data ++ '/' :: bn.data := by
            rw [← hbd2, hcon]
          have hl := congrArg List.length h9
          simp at hl
          omega
        rw [hbsplit]
        rcases hbh with rfl | rfl
        · have hshape : ([""] ++ gs ++ ["branches", bn] ++ S :
              List String) = ("" :: gs) ++ ("branches" :: bn :: S) := by
            simp
          have htrunk_not : ("trunk" : String) ∉
              [""] ++ gs ++ ["branches", bn] ++ S := by
            intro hcon
            rw [hshape] at hcon
            rcases List.mem_append.mp hcon with h0 | h0
            · exact hfrontfree "trunk" (by decide) h0
            · rcases List.mem_cons.mp h0 with h1 | h1
              · exact absurd h1 (by decide)
              rcases List.mem_cons.mp h1 with h2 | h2
              · exact hbnfree "trunk" (by decide) h2
              · exact hSfree "trunk" (by decide) h2
          have hfbspan : find_branch_span
              ([""] ++ gs ++ ["branches", bn] ++ S) =
              some (gs.length + 1, gs.length + 1 + 2) := by
            rw [find_branch_span, if_neg htrunk_not,
              if_pos (by simp : ("branches" : String) ∈
                [""] ++ gs ++ ["branches", bn] ++ S)]
            rw [hshape,
              pyIndex_append "branches" ("" :: gs) (bn :: S)
                (hfrontfree "branches" (by decide))]
            simp
          exact split_rest_reconstruct_core repo hrepo gs hgsp b hbne2
            ["branches", bn] (by simp) hbsfacts hbj S hSp g hg hfbspan
        · have hshape : ([""] ++ gs ++ ["tags", bn] ++ S :
              List String) = ("" :: gs) ++ ("tags" :: bn :: S) := by
            simp
          have htrunk_not : ("trunk" : String) ∉
              [""] ++ gs ++ ["tags", bn] ++ S := by
            intro hcon
            rw [hshape] at hcon
            rcases List.mem_append.mp hcon with h0 | h0
            · exact hfrontfree "trunk" (by decide) h0
            · rcases List.mem_cons.mp h0 with h1 | h1
              · exact absurd h1 (by decide)
              rcases List.mem_cons.mp h1 with h2 | h2
              · exact hbnfree "trunk" (by decide) h2
              · exact hSfree "trunk" (by decide) h2
          have hbranches_not : ("branches" : String) ∉
              [""] ++ gs ++ ["tags", bn] ++ S := by
            intro hcon
            rw [hshape] at hcon
            rcases List.mem_append.mp hcon with h0 | h0
            · exact hfrontfree "branches" (by decide) h0
            · rcases List.mem_cons.mp h0 with h1 | h1
              · exact absurd h1 (by decide)
              rcases List.mem_cons.mp h1 with h2 | h2
              · exact hbnfree "branches" (by decide) h2
              · exact hSfree "branches" (by decide) h2
          have hfbspan : find_branch_span
              ([""] ++ gs ++ ["tags", bn] ++ S) =
              some (gs.length + 1, gs.length + 1 + 2) := by
            rw [find_branch_span, if_neg htrunk_not,
              if_neg hbranches_not,
              if_pos (by simp : ("tags" : String) ∈
                [""] ++ gs ++ ["tags", bn] ++ S)]
            rw [hshape,
              pyIndex_append "tags" ("" :: gs) (bn :: S)
                (hfrontfree "tags" (by decide))]
            simp
          exact split_rest_reconstruct_core repo hrepo gs hgsp b hbne2
            ["tags", bn] (by simp) hbsfacts hbj S hSp g hg hfbspan

/-- Characters of a non-bare branch part avoid the bad characters. -/
theorem nonBareBranch_clean (b : String) (hb : nonBareBranch b = true) :
    ∀ c ∈ b.data, c ∉ badChars := by
  by_cases htr : b = "trunk"
  · subst htr
    decide
  · rw [nonBareBranch] at hb
    have hb2 : (match pySplit1 '/' b with
        | (h, some n) => ((h = "branches" || h = "tags") &&
            validBranchName n)
        | _ => false) = true := by
      rcases (Bool.or_eq_true _ _ ▸ hb : _ ∨ _) with h0 | h0
      · exact absurd (of_decide_eq_true h0) htr
      · exact h0
    cases hps : pySplit1 '/' b with
    | mk bh r =>
    rw [hps] at hb2
    cases r with
    | none =>
      exact absurd (show (false : Bool) = true from hb2) (by decide)
    | some bn =>
      have hb3 : ((bh = "branches" || bh = "tags") &&
          validBranchName bn) = true := hb2
      rcases (Bool.and_eq_true _ _ ▸ hb3 : _ ∧ _) with ⟨h3, h4⟩
      have hbh : bh = "branches" ∨ bh = "tags" := by
        rcases (Bool.or_eq_true _ _ ▸ h3 : _ ∨ _) with h5 | h5
        · exact Or.inl (of_decide_eq_true h5)
        · exact Or.inr (of_decide_eq_true h5)
      rw [validBranchName] at h4
      simp only [Bool.and_eq_true, Bool.not_eq_true',
        decide_eq_false_iff_not] at h4
      obtain ⟨⟨⟨_, hbnchars⟩, _⟩, _⟩ := h4
      cases hsf : splitFirstC '/' b.data with
      | mk A R =>
      have hps2 : (String.mk A, R.map String.mk) = (bh, some bn) := by
        rw [pySplit1, hsf] at hps
        exact hps
      injection hps2 with hA hR
      cases R with
      | none => simp at hR
      | some B =>
        rw [Option.map_some'] at hR
        injection hR with hB
        obtain ⟨hbdata, _⟩ := splitFirstC_eq_some '/' b.data A B hsf
        have hAd : bh.data = A := by rw [← hA]
        have hBd : bn.data = B := by rw [← hB]
        intro c hc hcon
        rw [hbdata] at hc
        rcases List.mem_append.mp hc with hc2 | hc2
        · rcases hbh with rfl | rfl
          · exact (show ∀ x ∈ ("branches" : String).data, x ∉ badChars
              by decide) c (hAd ▸ hc2) hcon
          · exact (show ∀ x ∈ ("tags" : String).data, x ∉ badChars
              by decide) c (hAd ▸ hc2) hcon
        · rcases List.mem_cons.mp hc2 with rfl | hc3
          · exact (show ('/' : Char) ∉ badChars by decide) hcon
          · exact charsOK_spec bn hbnchars c (hBd ▸ hc3) hcon

/-- C1 (amended).  Round-trip on canonical URLs: for every valid tuple
whose branch part is truthy and non-bare (`trunk`, `branches/<name>` or
`tags/<name>`) and whose prefix and suffix contain no reserved segment,
the splitter accepts the unsplit URL and the resulting tuple unsplits
back to the very same string: such canonical strings are fixed points of
the unsplit-after-split composition.  (The unrestricted claim is refuted
by `C1_roundtrip_counterexample`.) -/
theorem C1_roundtrip_on_canonical (t : SplitSubversionURL)
    (h : roundTripTuple t = true) :
    ∃ t2 : SplitSubversionURL,
      split_svn_url (unsplit_svn_url t) none true = .ok t2 ∧
      unsplit_svn_url t2 = unsplit_svn_url t := by
  cases t with
  | mk r0 f0 p0 b0 s0 g0 =>
  simp only [roundTripTuple, validTuple, Bool.and_eq_true] at h
  obtain ⟨⟨⟨hval, hbnb⟩, hfres⟩, hsres⟩ := h
  obtain ⟨⟨⟨⟨⟨h1, h2⟩, h3⟩, _⟩, h5⟩, h6⟩ := hval
  cases r0 with
  | vint n => exact absurd (show (false : Bool) = true from h1) (by decide)
  | vbool bo =>
    exact absurd (show (false : Bool) = true from h1) (by decide)
  | vnone => exact absurd (show (false : Bool) = true from h1) (by decide)
  | vstr r =>
  cases f0 with
  | vint n => exact absurd (show (false : Bool) = true from h2) (by decide)
  | vbool bo =>
    exact absurd (show (false : Bool) = true from h2) (by decide)
  | vnone => exact absurd (show (false : Bool) = true from h2) (by decide)
  | vstr f =>
  cases p0 with
  | vint n => exact absurd (show (false : Bool) = true from h3) (by decide)
  | vbool bo =>
    exact absurd (show (false : Bool) = true from h3) (by decide)
  | vnone => exact absurd (show (false : Bool) = true from h3) (by decide)
  | vstr p =>
  cases b0 with
  | vint n =>
    exact absurd (show (false : Bool) = true from hbnb) (by decide)
  | vbool bo =>
    exact absurd (show (false : Bool) = true from hbnb) (by decide)
  | vnone =>
    exact absurd (show (false : Bool) = true from hbnb) (by decide)
  | vstr b =>
  cases s0 with
  | vint n => exact absurd (show (false : Bool) = true from h5) (by decide)
  | vbool bo =>
    exact absurd (show (false : Bool) = true from h5) (by decide)
  | vnone => exact absurd (show (false : Bool) = true from h5) (by decide)
  | vstr s =>
  have h1a : (decide (r = "^") || validRepoURL r) = true := h1
  have h2a : validPfx f = true := h2
  have h3a : validProject p = true := h3
  have h5a : validSuffix s = true := h5
  have h6a : validPeg g0 = true := h6
  have hbnba : nonBareBranch b = true := hbnb
  have hfresa : reservedFreeSegs f = true := hfres
  have hsresa : reservedFreeSegs s = true := hsres
  have hrcases : r = "^" ∨ validRepoURL r = true := by
    rcases (Bool.or_eq_true _ _ ▸ h1a : _ ∨ _) with h0 | h0
    · exact Or.inl (of_decide_eq_true h0)
    · exact Or.inr h0
  have hrne : r ≠ "" := by
    intro hcon
    subst hcon
    rcases hrcases with h0 | h0
    · exact absurd h0 (by decide)
    · exact absurd h0 (by decide)
  have hbne : b ≠ "" := by
    intro hcon
    subst hcon
    exact absurd hbnba (by decide)
  simp only [validPfx, Bool.and_eq_true, decide_eq_true_eq] at h2a
  obtain ⟨hfc, ⟨⟨⟨hfh, hfl⟩, hflen⟩, hfint⟩⟩ := h2a
  have hfne : f ≠ "" := by
    intro hcon
    subst hcon
    rw [show pySplit '/' "" = [""] from by decide] at hflen
    exact absurd hflen (by decide)
  obtain ⟨rest, hrest⟩ : ∃ rest, pySplit '/' f = "" :: rest := by
    cases hsg : pySplit '/' f with
    | nil =>
      rw [hsg] at hfh
      cases hfh
    | cons a rest =>
      rw [hsg] at hfh
      rw [List.head?_cons, Option.some.injEq] at hfh
      exact ⟨rest, by rw [hfh]⟩
  have hrestne : rest ≠ [] := by
    intro hcon
    rw [hrest, hcon] at hflen
    exact absurd hflen (by decide)
  obtain ⟨mid, lastf, hml⟩ := (List.eq_nil_or_concat rest).resolve_left
    hrestne
  rw [List.concat_eq_append] at hml
  have hlast0 : lastf = "" := by
    rw [hrest, hml] at hfl
    rw [show ("" :: (mid ++ [lastf]) : List String) =
      ("" :: mid) ++ [lastf] by simp, List.getLast?_concat,
      Option.some.injEq] at hfl
    exact hfl
  subst hlast0
  have hsplitf : pySplit '/' f = "" :: (mid ++ [""]) := by
    rw [hrest, hml]
  have hfj : pyJoin '/' ("" :: (mid ++ [""])) = f := by
    rw [← hsplitf]
    exact pyJoin_pySplit f
  have hmid_mem : ∀ x ∈ mid, x ∈ pySplit '/' f := by
    intro x hx
    rw [hsplitf]
    exact List.mem_cons_of_mem _ (List.mem_append_left _ hx)
  have hmidfacts : ∀ x ∈ mid, x ≠ "" ∧ '/' ∉ x.data ∧
      x ∉ reserved_names ∧ ∀ c ∈ x.data, c ∉ badChars := by
    intro x hx
    refine ⟨?_, ?_, ?_, ?_⟩
    · have hd : ((pySplit '/' f).drop 1).dropLast = mid := by
        rw [hsplitf]
        show (mid ++ [""]).dropLast = mid
        rw [List.dropLast_concat]
      rw [hd] at hfint
      have h9 := List.all_eq_true.mp hfint x hx
      simpa using h9
    · exact notin_of_mem_splitC '/' f.data x.data
        (mem_pySplit x f (hmid_mem x hx))
    · exact reservedFreeSegs_spec f hfresa x (hmid_mem x hx)
    · intro c hc
      exact charsOK_spec f hfc c (mem_of_mem_splitC_piece '/' f.data
        x.data c (mem_pySplit x f (hmid_mem x hx)) hc)
  have hPs : ∃ gs : List String,
      (∀ x ∈ gs, x ≠ "" ∧ '/' ∉ x.data ∧ x ∉ reserved_names ∧
        ∀ c ∈ x.data, c ∉ badChars) ∧
      pyJoin '/' ([""] ++ gs) ++ "/" =
        f ++ (if p ≠ "" then p ++ "/" else "") := by
    by_cases hp0 : p = ""
    · refine ⟨mid, hmidfacts, ?_⟩
      rw [if_neg (by simp [hp0]), sappend_empty, ← hfj]
      exact (pyJoin_close mid).symm
    · have hp3 : charsOK p = true ∧ p ∉ reserved_names ∧
          pyContains '/' p = false := by
        rcases (Bool.or_eq_true _ _ ▸ h3a : _ ∨ _) with h0 | h0
        · exact absurd (of_decide_eq_true h0) hp0
        · rcases (Bool.and_eq_true _ _ ▸ h0 : _ ∧ _) with ⟨h01, h02⟩
          rcases (Bool.and_eq_true _ _ ▸ h01 : _ ∧ _) with ⟨h03, h04⟩
          refine ⟨h03, by simpa using h04, by simpa using h02⟩
      refine ⟨mid ++ [p], ?_, ?_⟩
      · intro x hx
        rcases List.mem_append.mp hx with hx0 | hx0
        · exact hmidfacts x hx0
        · rcases List.mem_singleton.mp hx0 with rfl
          refine ⟨hp0, ?_, hp3.2.1, ?_⟩
          · intro hc
            have h9 := hp3.2.2
            rw [pyContains_eq_true '/' x hc] at h9
            cases h9
          · exact fun c hc => charsOK_spec x hp3.1 c hc
      · rw [if_pos hp0, pyJoin_snoc mid p, ← hfj]
        rw [show pyJoin '/' ("" :: (mid ++ [""])) =
          pyJoin '/' ([""] ++ (mid ++ [""])) from rfl, pyJoin_close mid]
        rw [sext]
        simp [sdata_append]
  obtain ⟨gs, hgsfacts, hfront⟩ := hPs
  have hSs : ∃ S : List String,
      (S = [""] ∨ (S ≠ [] ∧ ∀ x ∈ S, x ≠ "" ∧ '/' ∉ x.data ∧
        x ∉ reserved_names ∧ ∀ c ∈ x.data, c ∉ badChars)) ∧
      pyJoin '/' S = s := by
    by_cases hs0 : s = ""
    · refine ⟨[""], Or.inl rfl, ?_⟩
      rw [hs0]
      exact pyJoin_single ""
    · have hs5 : charsOK s = true ∧
          (pySplit '/' s).all (fun x => !(x = "")) = true := by
        rcases (Bool.or_eq_true _ _ ▸ h5a : _ ∨ _) with h0 | h0
        · exact absurd (of_decide_eq_true h0) hs0
        · exact (Bool.and_eq_true _ _ ▸ h0 : _ ∧ _)
      refine ⟨pySplit '/' s, Or.inr ⟨?_, ?_⟩, pyJoin_pySplit s⟩
      · rw [pySplit]
        intro hcon
        exact splitC_ne_nil '/' s.data (List.map_eq_nil_iff.mp hcon)
      · intro x hx
        refine ⟨?_, notin_of_mem_splitC '/' s.data x.data
          (mem_pySplit x s hx), reservedFreeSegs_spec s hsresa x hx,
          fun c hc => charsOK_spec s hs5.1 c (mem_of_mem_splitC_piece '/'
            s.data x.data c (mem_pySplit x s hx) hc)⟩
        have h9 := List.all_eq_true.mp hs5.2 x hx
        simpa using h9
  obtain ⟨S, hSfact, hSjoin⟩ := hSs
  have hgsA : ∀ x ∈ gs, x ≠ "" ∧ '/' ∉ x.data ∧ x ∉ reserved_names ∧
      '@' ∉ x.data := fun x hx => ⟨(hgsfacts x hx).1,
        (hgsfacts x hx).2.1, (hgsfacts x hx).2.2.1,
        fun hc => (hgsfacts x hx).2.2.2 '@' hc (by decide)⟩
  have hSA : S = [""] ∨ (S ≠ [] ∧ ∀ x ∈ S, x ≠ "" ∧ '/' ∉ x.data ∧
      x ∉ reserved_names ∧ '@' ∉ x.data) := by
    rcases hSfact with rfl | ⟨hne, hfcts⟩
    · exact Or.inl rfl
    · exact Or.inr ⟨hne, fun x hx => ⟨(hfcts x hx).1, (hfcts x hx).2.1,
        (hfcts x hx).2.2.1,
        fun hc => (hfcts x hx).2.2.2 '@' hc (by decide)⟩⟩
  have hunsp : unsplit_svn_url
      ⟨.vstr r, .vstr f, .vstr p, .vstr b, .vstr s, g0⟩ =
      r ++ f ++ (if p ≠ "" then p ++ "/" else "") ++ b ++ "/" ++ s ++
      (if g0.truthy then "@" ++ g0.pyStrOf else "") := by
    simp only [unsplit_svn_url, PyVal.asStr]
    rw [append_if_peg, append_if_truthy2,
      if_pos (truthy_vstr_true b hbne), append_if_truthy,
      if_pos (truthy_vstr_true r hrne), if_pos (truthy_vstr_true f hfne)]
  have hbs_ne : pySplit '/' b ≠ [] := by
    rw [pySplit]
    intro hcon
    exact splitC_ne_nil '/' b.data (List.map_eq_nil_iff.mp hcon)
  have hS_ne : S ≠ [] := by
    rcases hSfact with rfl | ⟨h0, _⟩
    · simp
    · exact h0
  have hjoindec : pyJoin '/' ([""] ++ gs ++ pySplit '/' b ++ S) =
      pyJoin '/' ([""] ++ gs) ++ "/" ++ (b ++ "/" ++ s) := by
    rw [show ([""] ++ gs ++ pySplit '/' b ++ S : List String) =
      ([""] ++ gs) ++ (pySplit '/' b ++ S) by simp]
    rw [pyJoin_append ([""] ++ gs) _ (by simp) (by simp [hbs_ne])]
    rw [pyJoin_append _ _ hbs_ne hS_ne, pyJoin_pySplit, hSjoin]
  have hfrontL : ∀ L : List Char,
      (pyJoin '/' ([""] ++ gs)).data ++ (("/" : String).data ++ L) =
        f.data ++
          ((((if p ≠ "" then p ++ "/" else "")) : String).data ++ L) := by
    intro L
    have hd := congrArg String.data hfront
    simp only [sdata_append] at hd
    rw [← List.append_assoc, hd, List.append_assoc]
  have hfull : r ++ f ++ (if p ≠ "" then p ++ "/" else "") ++ b ++ "/" ++
      s ++ (if g0.truthy then "@" ++ g0.pyStrOf else "") =
      r ++ pyJoin '/' ([""] ++ gs ++ pySplit '/' b ++ S) ++
      (if g0.truthy then "@" ++ g0.pyStrOf else "") := by
    rw [sext]
    have hjd := congrArg String.data hjoindec
    simp only [sdata_append] at hjd ⊢
    rw [hjd]
    simp [List.append_assoc, hfrontL]
    rw [show (if p = "" then "" else p ++ "/") =
      (if p ≠ "" then p ++ "/" else "") from by
        by_cases hp : p = "" <;> simp [hp]]
    exact (hfrontL _).symm
  have hgsbs_ne : gs ++ (pySplit '/' b ++ S) ≠ [] := by
    intro hcon
    rcases List.append_eq_nil.mp hcon with ⟨_, h9⟩
    rcases List.append_eq_nil.mp h9 with ⟨h10, _⟩
    exact hbs_ne h10
  have hJhead : (pyJoin '/'
      ([""] ++ gs ++ pySplit '/' b ++ S)).data.head? = some '/' := by
    rw [show ([""] ++ gs ++ pySplit '/' b ++ S : List String) =
      [""] ++ (gs ++ (pySplit '/' b ++ S)) by simp]
    exact head_join_empty _ hgsbs_ne
  obtain ⟨tl, htl⟩ : ∃ tl,
      (pyJoin '/' ([""] ++ gs ++ pySplit '/' b ++ S)).data =
        '/' :: tl := by
    cases hjd : (pyJoin '/' ([""] ++ gs ++ pySplit '/' b ++ S)).data with
    | nil =>
      rw [hjd] at hJhead
      cases hJhead
    | cons c tl =>
      rw [hjd] at hJhead
      rw [List.head?_cons, Option.some.injEq] at hJhead
      exact ⟨tl, by rw [hJhead]⟩
  rw [hunsp, hfull]
  rcases hrcases with hr | hr
  · subst hr
    have hud : ("^" ++ pyJoin '/' ([""] ++ gs ++ pySplit '/' b ++ S) ++
        (if g0.truthy then "@" ++ g0.pyStrOf else "")).data =
        '^' :: ((pyJoin '/' ([""] ++ gs ++ pySplit '/' b ++ S) ++
          (if g0.truthy then "@" ++ g0.pyStrOf else "")).data) := rfl
    have hsw1 : pyStartsWith "^/"
        ("^" ++ pyJoin '/' ([""] ++ gs ++ pySplit '/' b ++ S) ++
          (if g0.truthy then "@" ++ g0.pyStrOf else "")) = true := by
      rw [pyStartsWith, hud]
      rw [show ((pyJoin '/' ([""] ++ gs ++ pySplit '/' b ++ S) ++
        (if g0.truthy then "@" ++ g0.pyStrOf else "")).data) =
        '/' :: (tl ++ ((if g0.truthy then "@" ++ g0.pyStrOf else
          "") : String).data) from by rw [sdata_append, htl]; rfl]
      rfl
    have hdrop : pyDropStr 1
        ("^" ++ pyJoin '/' ([""] ++ gs ++ pySplit '/' b ++ S) ++
          (if g0.truthy then "@" ++ g0.pyStrOf else "")) =
        pyJoin '/' ([""] ++ gs ++ pySplit '/' b ++ S) ++
          (if g0.truthy then "@" ++ g0.pyStrOf else "") := by
      rw [pyDropStr, hud]
      exact smk_data _
    have hrap : repo_and_path
        ("^" ++ pyJoin '/' ([""] ++ gs ++ pySplit '/' b ++ S) ++
          (if g0.truthy then "@" ++ g0.pyStrOf else "")) none true =
        .ok ("^", pyJoin '/' ([""] ++ gs ++ pySplit '/' b ++ S) ++
          (if g0.truthy then "@" ++ g0.pyStrOf else "")) := by
      rw [repo_and_path, if_pos hsw1, hdrop]
    obtain ⟨t2, hsp, hun⟩ := split_rest_reconstruct "^" (by decide) gs
      hgsA b hbnba S hSA g0 h6a
    refine ⟨t2, ?_, hun⟩
    simp only [split_svn_url, hrap]
    exact hsp
  · rw [validRepoURL] at hr
    cases hsfr : splitFirstC ':' r.data with
    | mk sch rrest =>
    rw [hsfr] at hr
    cases rrest with
    | none =>
      exact absurd (show (false : Bool) = true from hr) (by decide)
    | some rl =>
      have hr2 : (!sch.isEmpty && (sch.headD ' ').isAlpha &&
          sch.all (fun c => c ∈ scheme_chars && c.toLower = c) &&
          isPref ['/', '/'] rl && !(rl.drop 2).isEmpty &&
          (rl.drop 2).all (· ∉ hostBadChars)) = true := hr
      rcases (Bool.and_eq_true _ _ ▸ hr2 : _ ∧ _) with ⟨hr3, e6⟩
      rcases (Bool.and_eq_true _ _ ▸ hr3 : _ ∧ _) with ⟨hr4, e5⟩
      rcases (Bool.and_eq_true _ _ ▸ hr4 : _ ∧ _) with ⟨hr5, e4⟩
      rcases (Bool.and_eq_true _ _ ▸ hr5 : _ ∧ _) with ⟨hr6, e3⟩
      rcases (Bool.and_eq_true _ _ ▸ hr6 : _ ∧ _) with ⟨e1, e2⟩
      obtain ⟨hrdata, hschcolon⟩ := splitFirstC_eq_some ':' r.data sch rl
        hsfr
      have hrl2 : rl = '/' :: '/' :: rl.drop 2 := isPref2_cases rl e4
      have hschne : sch ≠ [] := by
        intro hcon
        rw [hcon] at e1
        cases e1
      have hschfacts : ∀ c ∈ sch, c ∈ scheme_chars ∧
          Char.toLower c = c := by
        intro c hc
        have h9 := List.all_eq_true.mp e3 c hc
        rcases (Bool.and_eq_true _ _ ▸ h9 : _ ∧ _) with ⟨h10, h11⟩
        exact ⟨of_decide_eq_true h10, of_decide_eq_true h11⟩
      have hhostfacts : ∀ c ∈ rl.drop 2, c ∉ hostBadChars := by
        intro c hc
        have h9 := List.all_eq_true.mp e6 c hc
        simpa using h9
      have hhostne : rl.drop 2 ≠ [] := by
        intro hcon
        rw [hcon] at e5
        cases e5
      have hrdec : r = String.mk sch ++ ":" ++
          ("//" ++ String.mk (rl.drop 2)) := by
        rw [sext, sdata_colon, hrdata]
        show sch ++ ':' :: rl = sch ++ ':' :: ('/' :: '/' :: rl.drop 2)
        rw [← hrl2]
      have hs1 : (String.mk sch).data ≠ [] := hschne
      have hs2 : ':' ∉ (String.mk sch).data := hschcolon
      have hs3 : (String.mk sch).data.all (· ∈ scheme_chars) = true := by
        rw [List.all_eq_true]
        intro c hc
        exact decide_eq_true (hschfacts c hc).1
      have hs4 : ((String.mk sch).data.headD ' ').isAlpha = true := e2
      have hs5 : (String.mk sch).data.map Char.toLower =
          (String.mk sch).data := by
        show sch.map Char.toLower = sch
        rw [List.map_congr_left (fun a ha => (hschfacts a ha).2)]
        exact List.map_id sch
      have hschsne : String.mk sch ≠ "" := by
        intro hcon
        exact hschne (sext.mp hcon)
      have hhostsne : String.mk (rl.drop 2) ≠ "" := by
        intro hcon
        exact hhostne (sext.mp hcon)
      have hudec : r ++ pyJoin '/' ([""] ++ gs ++ pySplit '/' b ++ S) ++
          (if g0.truthy then "@" ++ g0.pyStrOf else "") =
          String.mk sch ++ ":" ++ ("//" ++ String.mk (rl.drop 2) ++
            (pyJoin '/' ([""] ++ gs ++ pySplit '/' b ++ S) ++
              (if g0.truthy then "@" ++ g0.pyStrOf else ""))) := by
        rw [hrdec, sext]
        simp [sdata_append]
      have hXhead : (pyJoin '/' ([""] ++ gs ++ pySplit '/' b ++ S) ++
          (if g0.truthy then "@" ++ g0.pyStrOf else
            "")).data.head? = some '/' := by
        rw [sdata_append, htl]
        rfl
      have hnlclean : ∀ c ∈ (String.mk (rl.drop 2)).data,
          c ∉ netlocEnd := by
        intro c hc hcon
        apply hhostfacts c hc
        rcases List.mem_cons.mp hcon with rfl | hcon2
        · decide
        rcases List.mem_cons.mp hcon2 with rfl | hcon3
        · decide
        rcases List.mem_cons.mp hcon3 with rfl | hcon4
        · decide
        · cases hcon4
      have hbrneg : ¬ (('[' ∈ (String.mk (rl.drop 2)).data ∧
          ']' ∉ (String.mk (rl.drop 2)).data) ∨
          (']' ∈ (String.mk (rl.drop 2)).data ∧
            '[' ∉ (String.mk (rl.drop 2)).data)) := by
        rintro (⟨hc, _⟩ | ⟨hc, _⟩)
        · exact hhostfacts '[' hc (by decide)
        · exact hhostfacts ']' hc (by decide)
      have hbclean := nonBareBranch_clean b hbnba
      have hJclean : ∀ c ∈ (pyJoin '/'
          ([""] ++ gs ++ pySplit '/' b ++ S)).data, c ∉ badChars := by
        intro c hc
        have hc2 : c ∈ joinC '/'
            (([""] ++ gs ++ pySplit '/' b ++ S).map String.data) := hc
        rcases mem_joinC '/' _ c hc2 with ⟨pd, hpd, hcp⟩ | rfl
        · rcases List.mem_map.mp hpd with ⟨x, hx, rfl⟩
          simp only [List.mem_append, List.mem_singleton] at hx
          rcases hx with ((rfl | hx) | hx) | hx
          · cases hcp
          · exact (hgsfacts x hx).2.2.2 c hcp
          · exact fun hcon => hbclean c (mem_of_mem_splitC_piece '/'
              b.data x.data c (mem_pySplit x b hx) hcp) hcon
          · rcases hSfact with rfl | ⟨_, hfcts⟩
            · rcases List.mem_singleton.mp hx with rfl
              cases hcp
            · exact (hfcts x hx).2.2.2 c hcp
        · decide
      have hE1 : '#' ∉ ((if g0.truthy then "@" ++ g0.pyStrOf else
          "") : String).data := peg_str_clean g0 h6a '#' (by decide)
        (by decide)
      have hE2 : '?' ∉ ((if g0.truthy then "@" ++ g0.pyStrOf else
          "") : String).data := peg_str_clean g0 h6a '?' (by decide)
        (by decide)
      have hX1 : '#' ∉ (pyJoin '/' ([""] ++ gs ++ pySplit '/' b ++ S) ++
          (if g0.truthy then "@" ++ g0.pyStrOf else "")).data := by
        rw [sdata_append]
        intro hcon
        rcases List.mem_append.mp hcon with hc | hc
        · exact hJclean '#' hc (by decide)
        · exact hE1 hc
      have hX2 : '?' ∉ (pyJoin '/' ([""] ++ gs ++ pySplit '/' b ++ S) ++
          (if g0.truthy then "@" ++ g0.pyStrOf else "")).data := by
        rw [sdata_append]
        intro hcon
        rcases List.mem_append.mp hcon with hc | hc
        · exact hJclean '?' hc (by decide)
        · exact hE2 hc
      have hurlsplit : urlsplit (r ++ pyJoin '/'
          ([""] ++ gs ++ pySplit '/' b ++ S) ++
          (if g0.truthy then "@" ++ g0.pyStrOf else "")) =
          .ok ⟨String.mk sch, String.mk (rl.drop 2),
            pyJoin '/' ([""] ++ gs ++ pySplit '/' b ++ S) ++
              (if g0.truthy then "@" ++ g0.pyStrOf else ""), "", ""⟩ := by
        rw [hudec]
        exact urlsplit_eq_ok _ _ _ _ _ _ _ _ _
          (splitScheme_of_scheme _ _ hs1 hs2 hs3 hs4 hs5)
          (splitNetloc_of_netloc _ _ hnlclean (Or.inr hXhead)) hbrneg
          (splitTail_of_notin '#' _ hX1) (splitTail_of_notin '?' _ hX2)
      have hrepo2 : urlunsplit ⟨String.mk sch, String.mk (rl.drop 2),
          "", "", ""⟩ = r := by
        rw [urlunsplit_noqf, if_pos hschsne, if_pos (Or.inl hhostsne)]
        rw [show slashPath "" = "" from rfl, sappend_empty, hrdec]
      obtain ⟨c0, sch2, hc0⟩ : ∃ c0 sch2, sch = c0 :: sch2 := by
        cases hcs : sch with
        | nil => exact absurd hcs hschne
        | cons c0 sch2 => exact ⟨c0, sch2, rfl⟩
      have hc0alpha : c0.isAlpha = true := by
        rw [hc0] at e2
        exact e2
      have hu0 : (r ++ pyJoin '/' ([""] ++ gs ++ pySplit '/' b ++ S) ++
          (if g0.truthy then "@" ++ g0.pyStrOf else "")).data =
          c0 :: (sch2 ++ ':' :: rl ++
            ((pyJoin '/' ([""] ++ gs ++ pySplit '/' b ++ S)).data ++
              ((if g0.truthy then "@" ++ g0.pyStrOf else "") :
                String).data)) := by
        rw [sdata_append, sdata_append, List.append_assoc, hrdata, hc0]
        simp
      have hnw1 : pyStartsWith "^/" (r ++ pyJoin '/'
          ([""] ++ gs ++ pySplit '/' b ++ S) ++
          (if g0.truthy then "@" ++ g0.pyStrOf else "")) = false := by
        rw [pyStartsWith, hu0]
        show (decide (('^' : Char) = c0) && isPref ['/'] _) = false
        rw [decide_eq_false (show ¬ ('^' : Char) = c0 from by
          intro hq
          rw [← hq] at hc0alpha
          exact absurd hc0alpha (by decide)), Bool.false_and]
      have hnw2 : pyStartsWith "/" (r ++ pyJoin '/'
          ([""] ++ gs ++ pySplit '/' b ++ S) ++
          (if g0.truthy then "@" ++ g0.pyStrOf else "")) = false := by
        rw [pyStartsWith, hu0]
        show (decide (('/' : Char) = c0) && isPref [] _) = false
        rw [decide_eq_false (show ¬ ('/' : Char) = c0 from by
          intro hq
          rw [← hq] at hc0alpha
          exact absurd hc0alpha (by decide)), Bool.false_and]
      have hrap : repo_and_path (r ++ pyJoin '/'
          ([""] ++ gs ++ pySplit '/' b ++ S) ++
          (if g0.truthy then "@" ++ g0.pyStrOf else "")) none true =
          .ok (r, pyJoin '/' ([""] ++ gs ++ pySplit '/' b ++ S) ++
            (if g0.truthy then "@" ++ g0.pyStrOf else "")) := by
        simp only [repo_and_path]
        rw [if_neg (by rw [hnw1]; simp)]
        rw [if_neg (by rw [hnw2]; simp)]
        rw [if_neg (by simp)]
        simp only [hurlsplit]
        rw [if_pos (Or.inl hschsne), if_neg (by simp), hrepo2]
      obtain ⟨t2, hsp, hun⟩ := split_rest_reconstruct r hrne gs
        hgsA b hbnba S hSA g0 h6a
      refine ⟨t2, ?_, hun⟩
      simp only [split_svn_url, hrap]
      exact hsp

/-- Witness for the C1 round-trip theorem: the canonical tuple
`(^, /, my.project, trunk, setup.py, 123)` satisfies the hypothesis and
its unsplit URL round-trips. -/
theorem C1_roundtrip_on_canonical_witness :
    roundTripTuple ⟨.vstr "^", .vstr "/", .vstr "my.project",
      .vstr "trunk", .vstr "setup.py", .vint 123⟩ = true ∧
    ∃ t2 : SplitSubversionURL,
      split_svn_url (unsplit_svn_url ⟨.vstr "^", .vstr "/",
        .vstr "my.project", .vstr "trunk", .vstr "setup.py",
        .vint 123⟩) none true = .ok t2 ∧
      unsplit_svn_url t2 = unsplit_svn_url ⟨.vstr "^", .vstr "/",
        .vstr "my.project", .vstr "trunk", .vstr "setup.py",
        .vint 123⟩ :=
  ⟨rfl, C1_roundtrip_on_canonical _ rfl⟩

/-- C8 (amended): every checker application that succeeds yields a value
on which the checker succeeds again with the same result. This holds
unconditionally for `repo_value`, `prefix_value`, `url_subpath`,
`peg_value` and the three `switched_const` checkers; for `dotted_name`,
`branch_part` and the two `autoprefix` checkers it holds provided the
produced value is not itself a reserved name (respectively does not end
in a reserved name after its `branches/` or `tags/` prefix), the case in
which reapplication raises instead. -/
theorem C8_checker_idempotence :
    (∀ v w, repo_value v = .ok w → repo_value w = .ok w) ∧
    (∀ v w, prefix_value v = .ok w → prefix_value w = .ok w) ∧
    (∀ v w, url_subpath v = .ok w → url_subpath w = .ok w) ∧
    (∀ v w, peg_value v = .ok w → peg_value w = .ok w) ∧
    (∀ c ∈ reserved_names, ∀ v w,
      switched_const c v = .ok w → switched_const c w = .ok w) ∧
    (∀ v w, dotted_name v = .ok w → w ∉ reserved_names →
      dotted_name w = .ok w) ∧
    (∀ v w, branch_part v = .ok w →
      (∀ r ∈ reserved_names, w ≠ "branches/" ++ r ∧ w ≠ "tags/" ++ r) →
      branch_part w = .ok w) ∧
    (∀ P, (P = "branches/" ∨ P = "tags/") → ∀ v w,
      autoprefixed P v = .ok w → (∀ r ∈ reserved_names, w ≠ P ++ r) →
      autoprefixed P w = .ok w) := by
  refine ⟨repo_value_idem, prefix_value_idem, url_subpath_idem,
    peg_value_idem, ?_, dotted_name_idem, branch_part_idem, ?_⟩
  · intro c hc v w h
    have hcne : c ≠ "" := by
      rcases List.mem_cons.mp hc with rfl | hc2
      · decide
      rcases List.mem_cons.mp hc2 with rfl | hc3
      · decide
      rcases List.mem_cons.mp hc3 with rfl | hc4
      · decide
      cases hc4
    exact switched_const_idem c hcne v w h
  · intro P hP v w h hres
    have hPne : P ≠ "" := by
      rcases hP with rfl | rfl
      · decide
      · decide
    exact autoprefixed_idem P hPne v w h hres

/-- Witness: the idempotence theorem applied to one concrete accepted
value per checker. -/
theorem C8_checker_idempotence_witness :
    repo_value "http://host/a" = .ok "http://host/a" ∧
    prefix_value "/" = .ok "/" ∧
    url_subpath "a/b" = .ok "a/b" ∧
    peg_value (.vint 42) = .ok (.vint 42) ∧
    switched_const "trunk" (.vstr "trunk") = .ok (.vstr "trunk") ∧
    dotted_name "my.project" = .ok "my.project" ∧
    branch_part "branches/v1" = .ok "branches/v1" ∧
    autoprefixed "branches/" "branches/v1" = .ok "branches/v1" :=
  ⟨C8_checker_idempotence.1 "http://host/a" "http://host/a" (by rfl),
   C8_checker_idempotence.2.1 "" "/" (by rfl),
   C8_checker_idempotence.2.2.1 "a/b" "a/b" (by rfl),
   C8_checker_idempotence.2.2.2.1 (.vstr "42") (.vint 42) (by rfl),
   C8_checker_idempotence.2.2.2.2.1 "trunk" (by decide) (.vbool true)
     (.vstr "trunk") (by rfl),
   C8_checker_idempotence.2.2.2.2.2.1 "my.project" "my.project" (by rfl)
     (by decide),
   C8_checker_idempotence.2.2.2.2.2.2.1 "branches/v1" "branches/v1"
     (by rfl) (by decide),
   C8_checker_idempotence.2.2.2.2.2.2.2 "branches/" (Or.inl rfl) "v1"
     "branches/v1" (by rfl) (by decide)⟩

end Svnurls
